import Mathlib

set_option autoImplicit false

/-!
# ProcessScheduleSimulation: the ordered-set engine, the comparators and the dual ready structure

The development embeds `priority_queue.h`, `proc_queues.h`, `PCB.h` and the parts of `main.cpp`
that operate on the ready structure.

Conventions of the embedding.

* A result of type `Option` is `none` exactly where the C++ code has undefined behaviour or a
  failing `assert` (a null pointer is dereferenced, an uninitialised payload is read).
* The tree of `priority_queue` is a value of type `node T`; the constructor `node.nil` is the
  sentinel `nil` of the C++ class (its colour is always BLACK and its `left`/`right` are `NULL`).
* Parent pointers are represented by a zipper: the chain `n->parent, n->parent->parent, ...`
  of a node is a list of frames, the immediate parent first and the root last.
* Every node carries the address `new node(val)` returned for it, so that cursors
  (`RBIterator::current`) stay valid when the tree is rebalanced.
* `int` fields are integers, `size_t` values are naturals below `2 ^ 64`; every place where the
  C++ arithmetic can wrap applies the wrap explicitly.
-/

namespace PSS

/-! ## priority_queue.h -/

/-- The colour of a node (`enum Color`). -/
inductive Color where
  | RED
  | BLACK
  deriving DecidableEq, Repr

/-- The red-black tree below a node pointer: the sentinel `nil`, or a node with its colour, left
subtree, address, payload and right subtree. -/
inductive node (T : Type) : Type where
  | nil : node T
  | mk (color : Color) (left : node T) (addr : Nat) (data : T) (right : node T) : node T
  deriving Repr

/-- One step of the parent chain: the parent's own fields and its other subtree.
`Frame.L` says the node below is the parent's left child, `Frame.R` that it is the right child. -/
inductive Frame (T : Type) : Type where
  | L (color : Color) (addr : Nat) (data : T) (right : node T) : Frame T
  | R (color : Color) (left : node T) (addr : Nat) (data : T) : Frame T
  deriving Repr

/-- The parent chain of a node, immediate parent first; the empty chain means `parent == nil`. -/
abbrev Path (T : Type) : Type := List (Frame T)

namespace node

variable {T : Type}

/-- The field `color`; the sentinel is BLACK. -/
def color : node T → Color
  | nil => Color.BLACK
  | mk c _ _ _ _ => c

/-- The assignment `n->color = c`; on the sentinel only BLACK is ever assigned, which changes
nothing. -/
def setColor (c : Color) : node T → node T
  | nil => nil
  | mk _ l a d r => mk c l a d r

/-- Number of nodes. -/
def size : node T → Nat
  | nil => 0
  | mk _ l _ _ r => l.size + 1 + r.size

/-- The addresses paired with the payloads, in symmetric order (left subtree, node, right
subtree). -/
def entries : node T → List (Nat × T)
  | nil => []
  | mk _ l a d r => l.entries ++ (a, d) :: r.entries

/-- The payloads in symmetric order. -/
def toList (t : node T) : List T := t.entries.map Prod.snd

/-- The addresses in symmetric order. -/
def addrs (t : node T) : List Nat := t.entries.map Prod.fst

/-- The black height along the leftmost branch. -/
def bh : node T → Nat
  | nil => 0
  | mk c l _ _ _ => l.bh + (if c = Color.BLACK then 1 else 0)

/-- The red-black shape below a node: no RED node has a RED child, and at every node the two
subtrees have the same black height. -/
def RB : node T → Prop
  | nil => True
  | mk c l _ _ r =>
      l.RB ∧ r.RB ∧ l.bh = r.bh ∧ (c = Color.RED → l.color = Color.BLACK ∧ r.color = Color.BLACK)

end node

namespace Frame

variable {T : Type}

/-- The colour of the parent described by a frame. -/
def color : Frame T → Color
  | L c _ _ _ => c
  | R c _ _ _ => c

/-- The parent node of a frame with the subtree `t` put back below it. -/
def fill : Frame T → node T → node T
  | L c a d r, t => node.mk c t a d r
  | R c l a d, t => node.mk c l a d t

end Frame

variable {T : Type}

/-- The whole tree: the subtree `t` put back below its parent chain. -/
def zip : Path T → node T → node T
  | [], t => t
  | f :: p, t => zip p (f.fill t)

/-- `left_rotate(x)` on the subtree rooted at `x`: the result is the subtree that takes its place
(rooted at `y = x->right`). The assertion `x->right != nil` fails on the other shapes. -/
def left_rotate : node T → Option (node T)
  | node.mk cx a ax dx (node.mk cy b ay dy c) =>
      some (node.mk cy (node.mk cx a ax dx b) ay dy c)
  | _ => none

/-- `right_rotate(x)` on the subtree rooted at `x`; the assertion `x->left != nil` fails on the
other shapes. -/
def right_rotate : node T → Option (node T)
  | node.mk cx (node.mk cy a ay dy b) ax dx c =>
      some (node.mk cy a ay dy (node.mk cx b ax dx c))
  | _ => none

/-- The loop of `insert_fixup(z)` followed by `root->color = BLACK`; `z` is the subtree rooted at
the node `z` and the path is its parent chain. The result is the new tree.

* Empty chain: `z->parent` is `nil`, which is BLACK, so the loop is not entered.
* A RED parent that is the root: `z->parent->parent` is `nil`, whose `left` is `NULL`, so the
  `else` branch reads `y = nil->left` and dereferences it.
* RED uncle: recolour and repeat at the grandparent.
* BLACK uncle: the rotations; afterwards `z->parent` is BLACK and the loop ends. -/
def insert_fixup : Path T → node T → Option (node T)
  | [], z => some (z.setColor Color.BLACK)
  | [p], z =>
      if p.color = Color.RED then none
      else some ((zip [p] z).setColor Color.BLACK)
  | p :: g :: rest, z =>
      if p.color = Color.RED then
        match g with
        | Frame.L _ ga gd y =>
            -- z->parent == z->parent->parent->left
            if y.color = Color.RED then
              insert_fixup rest
                (node.mk Color.RED ((p.fill z).setColor Color.BLACK) ga gd
                  (y.setColor Color.BLACK))
            else
              match p with
              | Frame.R pc pl pa pd =>
                  -- z == z->parent->right: z = z->parent; left_rotate(z)
                  (left_rotate (node.mk pc pl pa pd z)).bind fun s =>
                  (right_rotate (node.mk Color.RED (s.setColor Color.BLACK) ga gd y)).bind fun s2 =>
                  some ((zip rest s2).setColor Color.BLACK)
              | Frame.L pc pa pd pr =>
                  (right_rotate
                    (node.mk Color.RED ((node.mk pc z pa pd pr).setColor Color.BLACK) ga gd y)).bind
                    fun s2 => some ((zip rest s2).setColor Color.BLACK)
        | Frame.R _ y ga gd =>
            if y.color = Color.RED then
              insert_fixup rest
                (node.mk Color.RED (y.setColor Color.BLACK) ga gd
                  ((p.fill z).setColor Color.BLACK))
            else
              match p with
              | Frame.L pc pa pd pr =>
                  -- z == z->parent->left: z = z->parent; right_rotate(z)
                  (right_rotate (node.mk pc z pa pd pr)).bind fun s =>
                  (left_rotate (node.mk Color.RED y ga gd (s.setColor Color.BLACK))).bind fun s2 =>
                  some ((zip rest s2).setColor Color.BLACK)
              | Frame.R pc pl pa pd =>
                  (left_rotate
                    (node.mk Color.RED y ga gd ((node.mk pc pl pa pd z).setColor Color.BLACK))).bind
                    fun s2 => some ((zip rest s2).setColor Color.BLACK)
      else some ((zip (p :: g :: rest) z).setColor Color.BLACK)

/-- The descent of `insert(z)`: from the subtree `x` with parent chain `p`, go left when
`cmp(z->data, x->data) > 0` and right otherwise, until `x == nil`; the result is the parent chain
of the free position. (The second comparison `cmp(z->data, y->data)` of `insert` repeats the last
comparison of the loop, so the side of `y` on which `z` is attached is the side of the last
step.) -/
def insert_descend (cmp : T → T → Int) (zd : T) : node T → Path T → Path T
  | node.nil, p => p
  | node.mk c l a d r, p =>
      if cmp zd d > 0 then insert_descend cmp zd l (Frame.L c a d r :: p)
      else insert_descend cmp zd r (Frame.R c l a d :: p)

/-- The operation `insert(z)` for the fresh RED node `z` with address `za` and payload `zd`. -/
def insert (cmp : T → T → Int) (root : node T) (za : Nat) (zd : T) : Option (node T) :=
  insert_fixup (insert_descend cmp zd root []) (node.mk Color.RED node.nil za zd node.nil)

/-- The function `tree_minimum(x)` as a walk on the zipper: keep going left while
`x->left != nil`; the result is the minimum node with its parent chain. On the sentinel the
assertion `x != nil` fails (and without assertions `nil->left`, which is `NULL`, is
dereferenced). -/
def tree_minimum : node T → Path T → Option (Path T × node T)
  | node.nil, _ => none
  | node.mk c l a d r, p =>
      match l with
      | node.nil => some (p, node.mk c node.nil a d r)
      | node.mk lc ll la ld lr => tree_minimum (node.mk lc ll la ld lr) (Frame.L c a d r :: p)

/-- The outcome of the second part of one iteration of `delete_fixup`: either `x = x->parent`
(the subtree rooted at the new `x`), or `x = root` after the final rotation (the subtree that
replaces the one rooted at the old `x->parent`). -/
inductive FixStep (T : Type) : Type where
  | up (x : node T) : FixStep T
  | done (sub : node T) : FixStep T

/-- The branch `x == x->parent->left` of `delete_fixup` after its first `if`: the parent has
colour `pc`, address `pa` and payload `pd`, `w` is the sibling. If `w` is the sentinel,
`w->left` is `NULL` and `w->left->color` dereferences it. -/
def delete_fixup_left (pc : Color) (pa : Nat) (pd : T) (x : node T) :
    node T → Option (FixStep T)
  | node.nil => none
  | node.mk wc wl wa wd wr =>
      if wl.color = Color.BLACK ∧ wr.color = Color.BLACK then
        -- w->color = RED; x = x->parent
        some (FixStep.up (node.mk pc x pa pd (node.mk Color.RED wl wa wd wr)))
      else
        (if wr.color = Color.BLACK then
            -- w->left->color = BLACK; w->color = RED; right_rotate(w); w = x->parent->right
            right_rotate (node.mk Color.RED (wl.setColor Color.BLACK) wa wd wr)
          else some (node.mk wc wl wa wd wr)).bind fun w2 =>
        match w2 with
        | node.nil => none
        | node.mk _ wl2 wa2 wd2 wr2 =>
            -- w->color = x->parent->color; x->parent->color = BLACK; w->right->color = BLACK;
            -- left_rotate(x->parent); x = root
            (left_rotate
              (node.mk Color.BLACK x pa pd
                (node.mk pc wl2 wa2 wd2 (wr2.setColor Color.BLACK)))).bind
              fun s => some (FixStep.done s)

/-- The branch `x == x->parent->right` of `delete_fixup` after its first `if` (mirror image). -/
def delete_fixup_right (pc : Color) (pa : Nat) (pd : T) (x : node T) :
    node T → Option (FixStep T)
  | node.nil => none
  | node.mk wc wl wa wd wr =>
      if wr.color = Color.BLACK ∧ wl.color = Color.BLACK then
        some (FixStep.up (node.mk pc (node.mk Color.RED wl wa wd wr) pa pd x))
      else
        (if wl.color = Color.BLACK then
            -- w->right->color = BLACK; w->color = RED; left_rotate(w); w = x->parent->left
            left_rotate (node.mk Color.RED wl wa wd (wr.setColor Color.BLACK))
          else some (node.mk wc wl wa wd wr)).bind fun w2 =>
        match w2 with
        | node.nil => none
        | node.mk _ wl2 wa2 wd2 wr2 =>
            (right_rotate
              (node.mk Color.BLACK
                (node.mk pc (wl2.setColor Color.BLACK) wa2 wd2 wr2) pa pd x)).bind
              fun s => some (FixStep.done s)

/-- The loop of `delete_fixup(x)` followed by `x->color = BLACK`; `x` is the subtree rooted at
`x` (possibly the sentinel, whose `parent` field `transplant` has set) and the path is its parent
chain. The result is the new tree.

The loop runs while `x->parent != nil && x->color == BLACK`. When the sibling `w` is RED the first
`if` recolours, rotates the parent and takes the new sibling; if the iteration then ends with
`x = x->parent`, that parent is the node just coloured RED, so the loop ends there. -/
def delete_fixup : Path T → node T → Option (node T)
  | [], x => some (x.setColor Color.BLACK)
  | f :: rest, x =>
      if x.color = Color.RED then some (zip (f :: rest) (x.setColor Color.BLACK))
      else
        match f with
        | Frame.L pc pa pd w =>
            match w with
            | node.nil => none
            | node.mk wc wl wa wd wr =>
                if wc = Color.RED then
                  -- w->color = BLACK; x->parent->color = RED; left_rotate(x->parent);
                  -- w = x->parent->right
                  match left_rotate (node.mk Color.RED x pa pd (node.mk Color.BLACK wl wa wd wr)) with
                  | some (node.mk c1 (node.mk c2 x2 a2 d2 w2) a1 d1 r1) =>
                      match delete_fixup_left c2 a2 d2 x2 w2 with
                      | some (FixStep.up t) =>
                          some (zip (Frame.L c1 a1 d1 r1 :: rest) (t.setColor Color.BLACK))
                      | some (FixStep.done s) =>
                          some ((zip (Frame.L c1 a1 d1 r1 :: rest) s).setColor Color.BLACK)
                      | none => none
                  | _ => none
                else
                  match delete_fixup_left pc pa pd x (node.mk wc wl wa wd wr) with
                  | some (FixStep.up t) => delete_fixup rest t
                  | some (FixStep.done s) => some ((zip rest s).setColor Color.BLACK)
                  | none => none
        | Frame.R pc w pa pd =>
            match w with
            | node.nil => none
            | node.mk wc wl wa wd wr =>
                if wc = Color.RED then
                  -- w->color = BLACK; x->parent->color = RED; right_rotate(x->parent);
                  -- w = x->parent->left
                  match right_rotate (node.mk Color.RED (node.mk Color.BLACK wl wa wd wr) pa pd x) with
                  | some (node.mk c1 l1 a1 d1 (node.mk c2 w2 a2 d2 x2)) =>
                      match delete_fixup_right c2 a2 d2 x2 w2 with
                      | some (FixStep.up t) =>
                          some (zip (Frame.R c1 l1 a1 d1 :: rest) (t.setColor Color.BLACK))
                      | some (FixStep.done s) =>
                          some ((zip (Frame.R c1 l1 a1 d1 :: rest) s).setColor Color.BLACK)
                      | none => none
                  | _ => none
                else
                  match delete_fixup_right pc pa pd x (node.mk wc wl wa wd wr) with
                  | some (FixStep.up t) => delete_fixup rest t
                  | some (FixStep.done s) => some ((zip rest s).setColor Color.BLACK)
                  | none => none

/-- The end of `delete_node`: `delete z; if (y_org_color == BLACK) delete_fixup(x);` where `x`
is the subtree that was spliced in and `xp` its parent chain. -/
def delete_finish (y_org_color : Color) (xp : Path T) (x : node T) : Option (node T) :=
  if y_org_color = Color.BLACK then delete_fixup xp x else some (zip xp x)

/-- The operation `delete_node(z)`, `z` given as the subtree rooted at it and its parent chain.

* `z->left == nil`: `x = z->right` takes the place of `z` (`transplant`).
* `z->right == nil`: `x = z->left` takes the place of `z`.
* Otherwise `y = tree_minimum(z->right)` takes the place, the colour and the left subtree of `z`,
  and `x = y->right` takes the place of `y`: the parent chain of `x` is the chain of `y` inside
  `z->right` followed by `y` itself (now where `z` was) and the chain of `z`.
* On the sentinel, `z->left` and `z->right` are `NULL`, so the last branch calls
  `tree_minimum(NULL)`, which dereferences it. -/
def delete_node (path : Path T) : node T → Option (node T)
  | node.nil => none
  | node.mk zc zl _ _ zr =>
      match zl, zr with
      | node.nil, _ => delete_finish zc path zr
      | node.mk _ _ _ _ _, node.nil => delete_finish zc path zl
      | node.mk _ _ _ _ _, node.mk _ _ _ _ _ =>
          match tree_minimum zr [] with
          | some (yp, node.mk yc _ ya yd yr) =>
              delete_finish yc (yp ++ Frame.R zc zl ya yd :: path) yr
          | _ => none

/-- The node with address `a` in the subtree `t` whose parent chain is `p`, with its own parent
chain: this resolves the pointer `position.current` of a cursor. -/
def locate (a : Nat) : node T → Path T → Option (Path T × node T)
  | node.nil, _ => none
  | node.mk c l b d r, p =>
      if a = b then some (p, node.mk c l b d r)
      else
        match locate a l (Frame.L c b d r :: p) with
        | some res => some res
        | none => locate a r (Frame.R c l b d :: p)

/-- The second half of `node::successor`, for a node without right child: with no parent the
answer is `nil`; a left child answers its parent; a right child climbs while
`n->parent->right == n` and answers the parent reached (`nil` above the root, since
`nil->right` is `NULL`). -/
def successor_climb : Path T → node T → Option (Path T × node T)
  | [], _ => none
  | Frame.L c a d r :: rest, n => some (rest, node.mk c n a d r)
  | Frame.R c l a d :: rest, n => successor_climb rest (node.mk c l a d n)

/-- The function `node::successor`: the minimum of the right subtree if there is one, else the
climb; `none` stands for `nil`. -/
def successor (path : Path T) : node T → Option (Path T × node T)
  | node.nil => none
  | node.mk c l a d r =>
      match r with
      | node.nil => successor_climb path (node.mk c l a d node.nil)
      | node.mk rc rl ra rd rr => tree_minimum (node.mk rc rl ra rd rr) (Frame.R c l a d :: path)

/-- A pointer to a node that is not the sentinel: the address, and the payload stored there.
The payload of a node is written once, by the constructor `node(T data)`, and never assigned
again, so reading `current->data` through a pointer to a live node yields this value. -/
structure node_ptr (T : Type) : Type where
  addr : Nat
  data : T
  deriving Repr, DecidableEq

/-- The class `RBIterator`: `current` is `none` for the sentinel (the cursor `end()`), else a
node pointer. -/
structure RBIterator (T : Type) : Type where
  current : Option (node_ptr T)
  deriving Repr, DecidableEq

/-- The pointer to the root node of a subtree (`none` for the sentinel). -/
def node.ptr : node T → Option (node_ptr T)
  | node.nil => none
  | node.mk _ _ a d _ => some ⟨a, d⟩

/-- The class `priority_queue`: the tree `root`, the counter `sz`, and the next address the
allocator hands out (`new node(val)` is taken to succeed and to return an address that no live
node has). -/
structure priority_queue (T : Type) : Type where
  root : node T
  sz : Nat
  next : Nat
  deriving Repr

namespace priority_queue

/-- The constructor: `sz = 0`, `root = nil`. -/
def new : priority_queue T := ⟨node.nil, 0, 1⟩

/-- The method `push(val)`: allocate the node, `insert` it, `sz++`. -/
def push (cmp : T → T → Int) (q : priority_queue T) (val : T) : Option (priority_queue T) :=
  (insert cmp q.root q.next val).map fun t => ⟨t, q.sz + 1, q.next + 1⟩

/-- The method `pop()`: when `sz` is not zero, delete the minimum node and decrement `sz`. -/
def pop (q : priority_queue T) : Option (priority_queue T) :=
  if q.sz ≠ 0 then
    (tree_minimum q.root []).bind fun pn =>
    (delete_node pn.1 pn.2).map fun t => ⟨t, q.sz - 1, q.next⟩
  else some q

/-- The method `size()`. -/
def size (q : priority_queue T) : Nat := q.sz

/-- The method `empty()`. -/
def empty (q : priority_queue T) : Bool := q.sz == 0

/-- The method `top()`: the payload of `tree_minimum(root)`. -/
def top (q : priority_queue T) : Option T :=
  (tree_minimum q.root []).bind fun pn =>
    match pn.2 with
    | node.nil => none
    | node.mk _ _ _ d _ => some d

/-- The method `end()`. -/
def end_ : RBIterator T := ⟨none⟩

/-- The method `begin()`: the minimum node if `root != nil`, else `end()`. -/
def begin (q : priority_queue T) : RBIterator T :=
  match q.root with
  | node.nil => end_
  | node.mk c l a d r =>
      match tree_minimum (node.mk c l a d r) [] with
      | some pn => ⟨pn.2.ptr⟩
      | none => end_

/-- The operator `++` of a cursor of this queue: `current = current->successor(nil)`. On the
cursor `end()` the call `nil->successor(nil)` reads `nil->right`, which is `NULL` and differs from
`nil`, and passes it to `tree_minimum`, which dereferences it. A pointer to a node that is not in
the tree is dangling. -/
def incr (q : priority_queue T) (it : RBIterator T) : Option (RBIterator T) :=
  match it.current with
  | none => none
  | some p =>
      (locate p.addr q.root []).map fun pn =>
        match successor pn.1 pn.2 with
        | some res => ⟨res.2.ptr⟩
        | none => end_

/-- The method `erase(position)`: `delete_node(position.current); sz--;`. On `end()` the node
is the sentinel, on which `delete_node` dereferences `NULL`; `sz` is a `size_t`, whose decrement
wraps at zero. -/
def erase (q : priority_queue T) (position : RBIterator T) : Option (priority_queue T) :=
  match position.current with
  | none => none
  | some p =>
      (locate p.addr q.root []).bind fun pn =>
      (delete_node pn.1 pn.2).map fun t =>
        ⟨t, if q.sz = 0 then 2 ^ 64 - 1 else q.sz - 1, q.next⟩

/-- The loop of `search(data)` from the node `n`: return the node when `cmp(data, n->data)` is
zero, go right when it is negative and left when it is positive; `end()` at `nil`. -/
def search_from (cmp : T → T → Int) (data : T) : node T → RBIterator T
  | node.nil => end_
  | node.mk _ l a d r =>
      if cmp data d = 0 then ⟨some ⟨a, d⟩⟩
      else if cmp data d < 0 then search_from cmp data r
      else search_from cmp data l

/-- The method `search(data)`. -/
def search (cmp : T → T → Int) (q : priority_queue T) (data : T) : RBIterator T :=
  search_from cmp data q.root

/-- The loop `for (it = begin(); it != end(); it++)` collecting `*it`, run for at most `fuel`
steps: the payloads visited, or `none` if a step is undefined or the fuel runs out before
`end()` is reached. -/
def iterate_from (q : priority_queue T) : Nat → RBIterator T → Option (List T)
  | _, ⟨none⟩ => some []
  | 0, ⟨some _⟩ => none
  | fuel + 1, ⟨some p⟩ =>
      (q.incr ⟨some p⟩).bind fun it2 =>
      (iterate_from q fuel it2).map fun rest => p.data :: rest

/-- The iteration sequence `begin() .. end()` of the queue. -/
def iterate (q : priority_queue T) : Option (List T) :=
  iterate_from q (q.root.size + 1) q.begin

end priority_queue

/-! ## Auxiliary notions for the proofs -/

/-- The entries of the tree that come before the hole of a parent chain. -/
def Path.before : Path T → List (Nat × T)
  | [] => []
  | Frame.L _ _ _ _ :: rest => Path.before rest
  | Frame.R _ l a d :: rest => Path.before rest ++ l.entries ++ [(a, d)]

/-- The entries of the tree that come after the hole of a parent chain. -/
def Path.after : Path T → List (Nat × T)
  | [] => []
  | Frame.L _ a d r :: rest => (a, d) :: r.entries ++ Path.after rest
  | Frame.R _ _ _ _ :: rest => Path.after rest

/-- The red-black shape of a parent chain whose hole takes a subtree with root colour `c` and
black height `h`: every sibling subtree is well shaped and as high as what lies below the hole
side, and a RED parent has two BLACK children. -/
def Path.RB : Path T → Color → Nat → Prop
  | [], _, _ => True
  | Frame.L pc _ _ r :: rest, c, h =>
      r.RB ∧ r.bh = h ∧ (pc = Color.RED → c = Color.BLACK ∧ r.color = Color.BLACK) ∧
        Path.RB rest pc (h + if pc = Color.BLACK then 1 else 0)
  | Frame.R pc l _ _ :: rest, c, h =>
      l.RB ∧ l.bh = h ∧ (pc = Color.RED → c = Color.BLACK ∧ l.color = Color.BLACK) ∧
        Path.RB rest pc (h + if pc = Color.BLACK then 1 else 0)

/-- The last frame of a parent chain, which describes the root, is BLACK. -/
def Path.rootBlack : Path T → Prop
  | [] => True
  | [f] => f.color = Color.BLACK
  | _ :: g :: rest => Path.rootBlack (g :: rest)

/-- The subtree a step of `delete_fixup` produces. -/
def FixStep.tree : FixStep T → node T
  | FixStep.up t => t
  | FixStep.done t => t

/-- The root colour of the tree obtained when a subtree with root colour `c` is put below a
parent chain. -/
def Path.topColor : Path T → Color → Color
  | [], c => c
  | f :: rest, _ => Path.topColor rest f.color

/-- The black height of the tree obtained when a subtree of black height `h` is put below a
parent chain. -/
def Path.topBh : Path T → Nat → Nat
  | [], h => h
  | f :: rest, h => Path.topBh rest (h + if f.color = Color.BLACK then 1 else 0)

/-! ## Orders -/

/-- A three-way comparator is a total preorder on the elements that satisfy `P`: with
`a ≼ b` read as `cmp a b ≥ 0` (`a` pops no later than `b`), the relation is transitive, and
`cmp a b > 0` holds exactly when `cmp b a < 0` (so that `≼` is total and `cmp a b > 0` means that
`b ≼ a` fails). -/
structure TotalPreorderOn (P : T → Prop) (cmp : T → T → Int) : Prop where
  antisymm : ∀ a b, P a → P b → (0 < cmp a b ↔ cmp b a < 0)
  trans : ∀ a b c, P a → P b → P c → 0 ≤ cmp a b → 0 ≤ cmp b c → 0 ≤ cmp a c

/-- A list of payloads is in cmp-ascending order: `cmp(earlier, later) ≥ 0`. -/
def Ascending (cmp : T → T → Int) (l : List T) : Prop :=
  l.Pairwise fun a b => 0 ≤ cmp a b

/-- The list an insertion in a sorted list produces: `x` is placed in front of the first
element that it strictly precedes, that is, behind every element equivalent to it. -/
def insert_sorted {α : Type} (cmp : α → α → Int) (x : α) : List α → List α
  | [] => [x]
  | e :: l => if 0 < cmp x e then x :: e :: l else e :: insert_sorted cmp x l

/-- The reference stable sort (insertion sort): the elements are inserted one by one, in
the order of the list, each behind the elements it does not strictly precede. -/
def stable_sort {α : Type} (cmp : α → α → Int) (l : List α) : List α :=
  l.foldl (fun acc x => insert_sorted cmp x acc) []

/-- The comparator on entries (address, payload) that compares the payloads. -/
def entry_cmp (cmp : T → T → Int) (a b : Nat × T) : Int := cmp a.2 b.2

/-- The structural invariant of a queue: the tree is a red-black tree with a BLACK root, the
addresses of its nodes are pairwise different and were all handed out already, and `sz` counts
the nodes. -/
structure priority_queue.Inv (q : priority_queue T) : Prop where
  rb : q.root.RB
  black : q.root.color = Color.BLACK
  nodup : q.root.addrs.Nodup
  fresh : ∀ a ∈ q.root.addrs, a < q.next
  size : q.sz = q.root.size

/-- The order invariant of a queue: every payload satisfies `P` and the symmetric order of the
tree is cmp-ascending (the tree is a binary search tree under `cmp`). -/
structure priority_queue.Ordered (P : T → Prop) (cmp : T → T → Int) (q : priority_queue T) :
    Prop where
  dom : ∀ e ∈ q.root.entries, P e.2
  asc : Ascending cmp q.root.toList

/-- The cursor that points to the first entry of a list of entries, `end()` for the empty
list. -/
def cursor_at : List (Nat × T) → RBIterator T
  | [] => ⟨none⟩
  | e :: _ => ⟨some ⟨e.1, e.2⟩⟩

/-! ## Sequences of operations and the reference model -/

/-- An operation of the public interface. `erase` takes the cursor it is given; `search`
returns a cursor and leaves the queue as it is. -/
inductive Op (T : Type) : Type where
  | push (val : T) : Op T
  | pop : Op T
  | erase (position : RBIterator T) : Op T
  | search (data : T) : Op T

/-- One operation on a queue. -/
def priority_queue.step (cmp : T → T → Int) (q : priority_queue T) :
    Op T → Option (priority_queue T)
  | Op.push val => q.push cmp val
  | Op.pop => q.pop
  | Op.erase position => q.erase position
  | Op.search _ => some q

/-- A sequence of operations on a queue, from left to right. -/
def priority_queue.run (cmp : T → T → Int) (q : priority_queue T) :
    List (Op T) → Option (priority_queue T)
  | [] => some q
  | o :: os => (q.step cmp o).bind fun q2 => q2.run cmp os

/-- The reference model of a queue: the stored elements in the order in which they were pushed,
each with the number of its push (the first push has number `1`), and the number of the next
push. -/
structure RefModel (T : Type) : Type where
  stored : List (Nat × T)
  next : Nat

/-- The reference model of the empty queue. -/
def RefModel.new : RefModel T := ⟨[], 1⟩

/-- One operation on the reference model. `push` appends; `pop` removes the element that the
reference stable sort puts first (nothing on the empty model); `erase` removes the element with
the number the cursor points to, and is undefined for `end()` and for a cursor to an element
that is not stored; `search` changes nothing. -/
def RefModel.step (cmp : T → T → Int) (r : RefModel T) : Op T → Option (RefModel T)
  | Op.push val => some ⟨r.stored ++ [(r.next, val)], r.next + 1⟩
  | Op.pop =>
      match stable_sort (entry_cmp cmp) r.stored with
      | [] => some r
      | e :: _ => some ⟨r.stored.filter (fun s => s.1 ≠ e.1), r.next⟩
  | Op.erase position =>
      match position.current with
      | none => none
      | some p =>
          if p.addr ∈ r.stored.map Prod.fst then
            some ⟨r.stored.filter (fun s => s.1 ≠ p.addr), r.next⟩
          else none
  | Op.search _ => some r

/-- A sequence of operations on the reference model. -/
def RefModel.run (cmp : T → T → Int) (r : RefModel T) : List (Op T) → Option (RefModel T)
  | [] => some r
  | o :: os => (r.step cmp o).bind fun r2 => r2.run cmp os

/-- Every pushed value of a sequence of operations satisfies `P`. -/
def pushes_in (P : T → Prop) (ops : List (Op T)) : Prop :=
  ∀ x, Op.push x ∈ ops → P x

/-- The queue `q` implements the reference model `r`: its symmetric order is the reference
stable sort of the stored elements, the addresses of its nodes are the push numbers, and the
invariants hold. -/
structure Refines (P : T → Prop) (cmp : T → T → Int) (q : priority_queue T) (r : RefModel T) :
    Prop where
  inv : q.Inv
  entries : q.root.entries = stable_sort (entry_cmp cmp) r.stored
  next : q.next = r.next
  dom : ∀ e ∈ r.stored, P e.2
  fresh : ∀ e ∈ r.stored, e.1 < r.next
  order : (r.stored.map Prod.fst).Pairwise (· < ·)

/-- Push the elements of a list, in the order of the list. -/
def push_all (cmp : T → T → Int) (q : priority_queue T) : List T → Option (priority_queue T)
  | [] => some q
  | x :: xs => (q.push cmp x).bind fun q2 => push_all cmp q2 xs

/-- The loop `while (!q.empty()) { out.push_back(q.top()); q.pop(); }` run for at most `fuel`
iterations: the values read, or `none` if a call is undefined or the queue is not empty when the
fuel runs out. -/
def drain : Nat → priority_queue T → Option (List T)
  | 0, q => if q.empty then some [] else none
  | fuel + 1, q =>
      if q.empty then some []
      else
        q.top.bind fun x =>
        q.pop.bind fun q2 =>
        (drain fuel q2).map fun rest => x :: rest

/-! ## PCB.h and the comparators of proc_queues.h -/

/-- The class `PCB`. The `int` fields are integers; `Clock` is a `size_t`. -/
structure PCB : Type where
  pid : Int
  bst : Int
  arr : Int
  pri : Int
  dline : Int
  io : Int
  io_counter : Int
  Clock : Nat
  deriving DecidableEq, Repr

/-- The value of a 32-bit `int` computation: the mathematical result reduced to
`[-2^31, 2^31)` (two's complement). -/
def wrap32 (x : Int) : Int := (x + 2 ^ 31) % 2 ^ 32 - 2 ^ 31

/-- The difference `a - b` of two `size_t` values (64 bits). -/
def size_sub (a b : Nat) : Nat := (a + 2 ^ 64 - b % 2 ^ 64) % 2 ^ 64

/-- The conversion of a `size_t` to `int`: the low 32 bits, read as a signed number. -/
def size_to_int (n : Nat) : Int := wrap32 (n : Int)

/-- The conversion of an `int` to `size_t`. -/
def int_to_size (i : Int) : Nat := (i % 2 ^ 64).toNat

/-- The macro `CLOCK_LAST`, `(size_t) INT_MIN`: the stamp of a process at its priority ceiling
(`MAX_AGED` in the specification). -/
def CLOCK_LAST : Nat := 2 ^ 64 - 2 ^ 31

/-- The macro `ISMAXED`. -/
def ISMAXED (x : Int) : Bool := x == 49 || x == 99

/-- The macro `ISKERNEL`. -/
def ISKERNEL (x : Int) : Bool := decide (50 ≤ x) && decide (x ≤ 99)

/-- The comparator `mycmp_new`. -/
def mycmp_new (lhs rhs : PCB) : Int :=
  if lhs.arr ≠ rhs.arr then wrap32 (rhs.arr - lhs.arr)
  else wrap32 (rhs.pid - lhs.pid)

/-- The comparator `mycmp_priority`; `rhs.Clock - lhs.Clock` is a `size_t` difference returned
as `int`. -/
def mycmp_priority (lhs rhs : PCB) : Int :=
  if lhs.pri ≠ rhs.pri then wrap32 (lhs.pri - rhs.pri)
  else if rhs.Clock ≠ lhs.Clock then size_to_int (size_sub rhs.Clock lhs.Clock)
  else wrap32 (rhs.pid - lhs.pid)

/-- The comparator `mycmp_fifo`. -/
def mycmp_fifo (lhs rhs : PCB) : Int :=
  if rhs.Clock ≠ lhs.Clock then size_to_int (size_sub rhs.Clock lhs.Clock)
  else wrap32 (rhs.pid - lhs.pid)

/-- The comparator `mycmp_sjf`. -/
def mycmp_sjf (lhs rhs : PCB) : Int :=
  if lhs.bst ≠ rhs.bst then wrap32 (rhs.bst - lhs.bst)
  else if rhs.Clock ≠ lhs.Clock then size_to_int (size_sub rhs.Clock lhs.Clock)
  else wrap32 (rhs.pid - lhs.pid)

/-- The comparator `mycmp_edf`. -/
def mycmp_edf (lhs rhs : PCB) : Int :=
  if lhs.dline ≠ rhs.dline then wrap32 (rhs.dline - lhs.dline)
  else wrap32 (rhs.pid - lhs.pid)

/-- The rank computed inside `mycmp_age`: `2 * pri` below 50, `(pri - 50) * 2 + 1` from 50 on. -/
def age_rank (pri : Int) : Int :=
  if pri < 50 then wrap32 (pri * 2) else wrap32 (wrap32 ((wrap32 (pri - 50)) * 2) + 1)

/-- The comparator `mycmp_age` on two PCBs (the payloads the two cursors point to). -/
def mycmp_age_pcb (lhs rhs : PCB) : Int :=
  if lhs.Clock ≠ rhs.Clock then size_to_int (size_sub rhs.Clock lhs.Clock)
  else if lhs.pri ≠ rhs.pri then wrap32 (age_rank rhs.pri - age_rank lhs.pri)
  else wrap32 (rhs.pid - lhs.pid)

/-- The comparator `mycmp_age` on cursors into the ready queue: `lhs->Clock` and the like read
the payload of the node the cursor points to. -/
def mycmp_age (lhs rhs : node_ptr PCB) : Int := mycmp_age_pcb lhs.data rhs.data

/-! ## main.cpp: the dual ready structure and the priority adjustments -/

/-- The enumeration `ops_t`; its member `IO` is written `IO_`, since the plain name is taken
by a namespace of the proof language. -/
inductive ops_t : Type where
  | IO_
  | AGE
  deriving DecidableEq, Repr

/-- The enumeration `scheduler_t`. -/
inductive scheduler_t : Type where
  | FIFO
  | SJF
  | PRIORITY
  | EDF
  deriving DecidableEq, Repr

/-- The structure `env_t` without the file name and the output stream. -/
structure env_t : Type where
  kernel_tq : Int
  user_tq : Int
  age_time : Int
  age_val : Int
  interactive : Bool
  scheduler : scheduler_t
  deriving DecidableEq, Repr

/-- The function `demote_priority`. -/
def demote_priority (x : PCB) (env : env_t) : PCB :=
  if ISKERNEL x.pri then
    let pri := wrap32 (x.pri - env.kernel_tq)
    { x with pri := if pri < 50 then 50 else pri }
  else
    let pri := wrap32 (x.pri - env.user_tq)
    { x with pri := if pri < 0 then 0 else pri }

/-- The function `promote_priority`. -/
def promote_priority (x : PCB) (op : ops_t) (env : env_t) : PCB :=
  let old_pri := x.pri
  let pri := wrap32 (x.pri + (if op = ops_t.IO_ then x.io else env.age_val))
  if ISKERNEL old_pri then
    { x with pri := if pri ≥ 99 then 99 else pri }
  else if pri ≥ 49 then { x with pri := 49 }
  else { x with pri := pri }

/-- The structure `ready_age_t<T>`: the ready queue of PCBs (ordered by the comparator of `T`,
which the operations take as an argument) and the age queue of cursors into the ready queue.
The age queue stores the cursors as node pointers; `push` never stores `end()`. -/
structure ready_age_t : Type where
  ready_q : priority_queue PCB
  age_q : priority_queue (node_ptr PCB)
  deriving Repr

namespace ready_age_t

/-- The empty structure. -/
def new : ready_age_t := ⟨priority_queue.new, priority_queue.new⟩

/-- The method `ready_age_t::push`. If `ready_q.search(x)` is `end()`, inserting it into the
age queue makes `mycmp_age` read the sentinel's payload, which was never initialised. The
assertion is checked at the end. -/
def push (cmp : PCB → PCB → Int) (s : ready_age_t) (x : PCB) : Option ready_age_t :=
  (s.ready_q.push cmp x).bind fun rq =>
  match (rq.search cmp x).current with
  | none => none
  | some it =>
      (s.age_q.push mycmp_age it).bind fun aq =>
      if aq.size = rq.size then some ⟨rq, aq⟩ else none

/-- The method `ready_age_t::pop`. If `ready_q.search(ready_q.top())` is `end()`, the search in
the age queue compares against the sentinel's payload and its result is erased; if the search
in the age queue returns `end()`, `erase(end())` is called. -/
def pop (cmp : PCB → PCB → Int) (s : ready_age_t) : Option ready_age_t :=
  s.ready_q.top.bind fun t =>
  match (s.ready_q.search cmp t).current with
  | none => none
  | some iter =>
      (s.age_q.erase (s.age_q.search mycmp_age iter)).bind fun aq =>
      s.ready_q.pop.bind fun rq =>
      if aq.size = rq.size then some ⟨rq, aq⟩ else none

/-- The method `ready_age_t::top`. -/
def top (s : ready_age_t) : Option PCB := s.ready_q.top

/-- The method `ready_age_t::empty`. -/
def empty (s : ready_age_t) : Bool := s.ready_q.empty

/-- The method `ready_age_t::size`. -/
def size (s : ready_age_t) : Nat := s.ready_q.size

end ready_age_t

/-- The result of a loop that is run with fuel. -/
inductive Result (α : Type) : Type where
  | done (a : α) : Result α
  | undefined : Result α
  | out_of_fuel : Result α
  deriving Repr

/-- The loop of `do_aging`, run for at most `fuel` iterations. Each iteration inspects
`age_q.begin()`: it stops at `end()`, at a cursor whose PCB has priority 49 or 99, and at a PCB
with `Clock - stamp != age_time` (a `size_t` comparison); else it erases the PCB from both
queues, promotes it, stamps it and pushes it again. -/
def do_aging_loop (cmp : PCB → PCB → Int) (env : env_t) (Clock : Nat) :
    Nat → ready_age_t → Result ready_age_t
  | 0, _ => Result.out_of_fuel
  | fuel + 1, s =>
      match s.age_q.begin.current with
      | none => Result.done s
      | some iter_age =>
          let pri := iter_age.data.data.pri
          if pri = 49 ∨ pri = 99 then Result.done s
          else if size_sub Clock iter_age.data.data.Clock = int_to_size env.age_time then
            let iter_ready := s.ready_q.search cmp iter_age.data.data
            match iter_ready.current with
            | none => Result.undefined
            | some p =>
                match s.ready_q.erase iter_ready, s.age_q.pop with
                | some rq, some aq =>
                    let x := promote_priority p.data ops_t.AGE env
                    let x2 := if ISMAXED x.pri then { x with Clock := CLOCK_LAST }
                      else { x with Clock := Clock }
                    match ready_age_t.push cmp ⟨rq, aq⟩ x2 with
                    | some s2 => do_aging_loop cmp env Clock fuel s2
                    | none => Result.undefined
                | _, _ => Result.undefined
          else Result.done s

/-- One operation on the dual ready structure. -/
inductive ReadyOp : Type where
  | push (x : PCB) : ReadyOp
  | pop : ReadyOp
  | do_aging (env : env_t) (Clock : Nat) (fuel : Nat) : ReadyOp
  deriving Repr

/-- One operation on the dual ready structure; `pop` is called only when the structure is not
empty (a `pop` on the empty structure is skipped). -/
def ready_age_t.step (cmp : PCB → PCB → Int) (s : ready_age_t) : ReadyOp → Option ready_age_t
  | ReadyOp.push x => s.push cmp x
  | ReadyOp.pop => if s.empty then some s else s.pop cmp
  | ReadyOp.do_aging env Clock fuel =>
      match do_aging_loop cmp env Clock fuel s with
      | Result.done s2 => some s2
      | _ => none

/-- A sequence of operations on the dual ready structure. -/
def ready_age_t.run (cmp : PCB → PCB → Int) (s : ready_age_t) :
    List ReadyOp → Option ready_age_t
  | [] => some s
  | o :: os => (s.step cmp o).bind fun s2 => s2.run cmp os

/-- The operation is a `push`. -/
def Op.is_push : Op T → Bool
  | Op.push _ => true
  | _ => false

/-- The operation is an `erase`. -/
def Op.is_erase : Op T → Bool
  | Op.erase _ => true
  | _ => false

/-- The operation is a `pop`. -/
def Op.is_pop : Op T → Bool
  | Op.pop => true
  | _ => false

/-- The PCBs of the data model that the ready queue of the PRIORITY scheduler holds: a positive
`pid`, a priority in `[0, 99]`, and a stamp that is `CLOCK_LAST` when the priority is 49 or 99
and a tick below `2 ^ 31` otherwise. -/
def ready_pcb (x : PCB) : Prop :=
  0 < x.pid ∧ x.pid < 2 ^ 31 ∧ 0 ≤ x.pri ∧ x.pri ≤ 99 ∧
    ((ISMAXED x.pri = true ∧ x.Clock = CLOCK_LAST) ∨ (ISMAXED x.pri = false ∧ x.Clock < 2 ^ 31))

/-! ## Concrete PCBs used in the evaluations -/

/-- A process record as the loader builds it, with its stamp set as `update` sets it on arrival
at tick `Clock`: `CLOCK_LAST` when the priority is 49 or 99, else `Clock`. -/
def arrived (pid bst arr pri dline io : Int) (Clock : Nat) : PCB :=
  { pid := pid, bst := bst, arr := arr, pri := pri, dline := dline, io := io, io_counter := 0,
    Clock := if ISMAXED pri then CLOCK_LAST else Clock }

/-- The workload line `(1, 5, 0, 49, 100, 0)` on arrival at tick 0 (stamp `CLOCK_LAST`). -/
def pcb_top_user : PCB := arrived 1 5 0 49 100 0 0

/-- The workload line `(2, 5, 0, 10, 100, 0)` on arrival at tick 0 (stamp 0). -/
def pcb_low_2 : PCB := arrived 2 5 0 10 100 0 0

/-- The workload line `(3, 5, 0, 10, 100, 0)` on arrival at tick 0 (stamp 0). -/
def pcb_low_3 : PCB := arrived 3 5 0 10 100 0 0

/-- The fields that the keys of `mycmp_new` and `mycmp_edf` read are as the loader accepts them
(`arr ≥ 0`, `pid > 0`, `dline > 0`) and are values of a 32-bit `int`. -/
def key_valid (x : PCB) : Prop :=
  0 < x.pid ∧ x.pid < 2147483648 ∧ 0 ≤ x.arr ∧ x.arr < 2147483648 ∧
    0 < x.dline ∧ x.dline < 2147483648

instance key_valid_decidable : DecidablePred key_valid := fun x => by
  unfold key_valid; infer_instance

instance ready_pcb_decidable : DecidablePred ready_pcb := fun x => by
  unfold ready_pcb; infer_instance

/-- The configuration `parse_input` builds when no option but the workload is given
(`DEFAULT_KERNEL_QUANTUM`, `DEFAULT_USER_QUANTUM`, `DEFAULT_AGE_TIME`, `DEFAULT_AGE_VALUE`,
`DEFAULT_SCHEDULER`). -/
def default_env : env_t :=
  { kernel_tq := 100, user_tq := 25, age_time := 100, age_val := 10, interactive := false,
    scheduler := scheduler_t.PRIORITY }

/-- A comparator on integers that compares the tens only, so that different numbers can be
equivalent. -/
def tens_cmp (a b : Int) : Int := b / 10 - a / 10

/-- No RED node has a RED child. -/
def node.no_red_red : node T → Prop
  | node.nil => True
  | node.mk c l _ _ r =>
      (c = Color.RED → l.color = Color.BLACK ∧ r.color = Color.BLACK) ∧
        l.no_red_red ∧ r.no_red_red

/-- The numbers of BLACK nodes on the paths from a node down to each `nil` leaf below it, from
left to right. -/
def node.path_blacks : node T → List Nat
  | node.nil => [0]
  | node.mk c l _ _ r =>
      (l.path_blacks ++ r.path_blacks).map fun n => n + (if c = Color.BLACK then 1 else 0)

/-- The tree is a binary search tree under `cmp`: no element of a left subtree is strictly after
the node above it (`cmp(e, d) < 0`), and no element of a right subtree is strictly before it
(`cmp(e, d) > 0`). -/
def node.BST (cmp : T → T → Int) : node T → Prop
  | node.nil => True
  | node.mk _ l _ d r =>
      (∀ e ∈ l.toList, ¬ cmp e d < 0) ∧ (∀ e ∈ r.toList, ¬ 0 < cmp e d) ∧
        l.BST cmp ∧ r.BST cmp

/-! ## proc_queues.h: the loader -/

/-- A data line of the workload file as `create_new_queue` sees it: `record` is a line with
exactly five tabs whose six fields `sscanf` reads as the integers `pid`, `bst`, `arr`, `pri`,
`dline`, `io`; `incomplete` is a line whose number of tabs is not five. -/
inductive line_t : Type where
  | record (pid bst arr pri dline io : Int) : line_t
  | incomplete : line_t
  deriving DecidableEq, Repr

/-- The macro `VALID`. -/
def VALID (x : PCB) : Bool :=
  decide (x.pid > 0) && decide (x.bst > 0) && decide (x.arr ≥ 0) && decide (x.pri ≥ 0) &&
    decide (x.pri ≤ 99) && decide (x.dline > 0) && decide (x.io ≥ 0)

/-- The PCB that `create_new_queue` fills from the six integers of a line: `x.Clock = 0`; the
field `io_counter`, which the loader leaves uninitialised, is 0. -/
def record_pcb (pid bst arr pri dline io : Int) : PCB :=
  { pid := pid, bst := bst, arr := arr, pri := pri, dline := dline, io := io, io_counter := 0,
    Clock := 0 }

/-- The body of the `while (std::getline(infile, line))` loop of `create_new_queue` for one
line. -/
def create_new_queue_line (new_q : priority_queue PCB) : line_t → Option (priority_queue PCB)
  | line_t.record pid bst arr pri dline io =>
      if VALID (record_pcb pid bst arr pri dline io) then
        new_q.push mycmp_new (record_pcb pid bst arr pri dline io)
      else some new_q
  | line_t.incomplete => some new_q

/-- The loop of `create_new_queue` over the data lines that are left. -/
def create_new_queue_from (new_q : priority_queue PCB) : List line_t → Option (priority_queue PCB)
  | [] => some new_q
  | l :: ls => (create_new_queue_line new_q l).bind fun q2 => create_new_queue_from q2 ls

/-- The function `create_new_queue` on the data lines of the file (the lines after the title
line). -/
def create_new_queue (lines : List line_t) : Option (priority_queue PCB) :=
  create_new_queue_from priority_queue.new lines

/-! ## main.cpp: the scheduler -/

/-- Sequencing of results. -/
def Result.bind {α β : Type} : Result α → (α → Result β) → Result β
  | Result.done a, f => f a
  | Result.undefined, _ => Result.undefined
  | Result.out_of_fuel, _ => Result.out_of_fuel

/-- The result of a call that is undefined when it is `none`. -/
def Result.of_option {α : Type} : Option α → Result α
  | some a => Result.done a
  | none => Result.undefined

/-- A view of a result. -/
def Result.map {α β : Type} (f : α → β) : Result α → Result β
  | Result.done a => Result.done (f a)
  | Result.undefined => Result.undefined
  | Result.out_of_fuel => Result.out_of_fuel

/-- The actions that `PRINT_STATE` writes to the output file: the macros `GETS_CPU`, `END`,
`TQ_INTER` and `IO_INTER`. -/
inductive action_t : Type where
  | GETS_CPU
  | END
  | TQ_INTER
  | IO_INTER
  deriving DecidableEq, Repr

/-- A line that `PRINT_STATE` writes to the output file: the tick, the pid and the action. -/
structure event_t : Type where
  Clock : Nat
  pid : Int
  action : action_t
  deriving DecidableEq, Repr

/-- The structure `stats_t`. The two `double` accumulators only ever hold sums of ticks and of
queue sizes, which a `double` holds exactly below `2 ^ 53`; they are natural numbers here. The
field `np` is a `size_t`. -/
structure stats_t : Type where
  awt : Nat
  att : Nat
  np : Nat
  deriving DecidableEq, Repr

/-- The state of `run_scheduler`: its arguments `new_q`, `ready_age_q` and `stats`, its locals
`io_q`, `running`, `x`, `tq`, `org_tq` and `wait`, and the lines written to `env.outfs` after
the title line. The history variable `aborted` lists the pids for which the EDF admission test
failed (the places where interactive mode prints `ABORT`). -/
structure sim_t : Type where
  new_q : priority_queue PCB
  ready_age_q : ready_age_t
  stats : stats_t
  io_q : List PCB
  running : Bool
  x : PCB
  tq : Int
  org_tq : Int
  wait : List Nat
  outfs : List event_t
  aborted : List Int

/-- The stamp given to a PCB that is pushed to the ready structure at tick `Clock`:
`if (ISMAXED(x.pri)) x.Clock = CLOCK_LAST; else x.Clock = Clock;`. -/
def stamp (x : PCB) (Clock : Nat) : PCB :=
  if ISMAXED x.pri then { x with Clock := CLOCK_LAST } else { x with Clock := Clock }

/-- The loop of `do_io` over the I/O list: `done` holds the entries before the cursor (already
incremented and kept), the second list the entries from the cursor on. An entry whose
incremented counter equals `io` is promoted, stamped, pushed to the ready structure and erased;
the loop breaks when this empties the list. -/
def do_io_loop (cmp : PCB → PCB → Int) (env : env_t) (Clock : Nat) :
    ready_age_t → List PCB → List PCB → Option (ready_age_t × List PCB)
  | s, done, [] => some (s, done)
  | s, done, p :: rest =>
      let p1 := { p with io_counter := wrap32 (p.io_counter + 1) }
      if p1.io_counter = p1.io then
        let p2 := stamp (promote_priority p1 ops_t.IO_ env) Clock
        match s.push cmp p2 with
        | none => none
        | some s2 =>
            if (done ++ rest).isEmpty then some (s2, [])
            else do_io_loop cmp env Clock s2 done rest
      else do_io_loop cmp env Clock s (done ++ [p1]) rest

/-- The function `do_io`. -/
def do_io (cmp : PCB → PCB → Int) (env : env_t) (Clock : Nat) (ready_age_q : ready_age_t)
    (io_q : List PCB) : Option (ready_age_t × List PCB) :=
  do_io_loop cmp env Clock ready_age_q [] io_q

/-- The loop of `update`, run for at most `fuel` iterations: while the front of the new queue
has `arr == Clock` (the `int` converted to `size_t`), it is stamped, pushed to the ready queues
and popped; the loop breaks when the new queue is empty. -/
def update_loop (cmp : PCB → PCB → Int) (Clock : Nat) :
    Nat → priority_queue PCB → ready_age_t → Result (priority_queue PCB × ready_age_t)
  | 0, _, _ => Result.out_of_fuel
  | fuel + 1, new_q, ready_age_q =>
      match new_q.top with
      | none => Result.undefined
      | some x =>
          if int_to_size x.arr = Clock then
            match ready_age_q.push cmp (stamp x Clock), new_q.pop with
            | some r2, some n2 =>
                if n2.empty then Result.done (n2, r2) else update_loop cmp Clock fuel n2 r2
            | _, _ => Result.undefined
          else Result.done (new_q, ready_age_q)

/-- The block `if (running) { ... }` of the tick loop: `x.bst--`, `tq++`, then the first of the
three tests that holds, if any. -/
def advance (cmp : PCB → PCB → Int) (env : env_t) (Clock : Nat) (st : sim_t) : Option sim_t :=
  let x := { st.x with bst := wrap32 (st.x.bst - 1) }
  let tq := wrap32 (st.tq + 1)
  if x.bst = 0 then
    some { st with x := x, tq := tq, running := false,
                   outfs := st.outfs ++ [⟨Clock, x.pid, action_t.END⟩],
                   stats := { st.stats with att := st.stats.att + Clock } }
  else if tq = st.org_tq then
    let x2 := { demote_priority x env with Clock := Clock }
    (st.ready_age_q.push cmp x2).map fun r =>
      { st with x := x2, tq := tq, running := false, ready_age_q := r,
                outfs := st.outfs ++ [⟨Clock, x.pid, action_t.TQ_INTER⟩] }
  else if env.scheduler ≠ scheduler_t.EDF ∧ x.io ≠ 0 ∧ tq = wrap32 (st.org_tq - 1) then
    let x2 := { x with io_counter := 0 }
    some { st with x := x2, tq := tq, running := false, io_q := st.io_q ++ [x2],
                   outfs := st.outfs ++ [⟨Clock, x.pid, action_t.IO_INTER⟩] }
  else some { st with x := x, tq := tq }

/-- The loop `for (x = top(); Clock + x.bst > x.dline; x = top())` of the EDF dispatch, entered
with `x` already read, run for at most `fuel` iterations. The test is a `size_t` comparison;
`wait[x.pid] = 0` is undefined outside the vector. -/
def edf_scan (cmp : PCB → PCB → Int) (Clock : Nat) : Nat → sim_t → Result sim_t
  | 0, _ => Result.out_of_fuel
  | fuel + 1, st =>
      if (Clock + int_to_size st.x.bst) % 2 ^ 64 > int_to_size st.x.dline then
        if int_to_size st.x.pid < st.wait.length then
          match st.ready_age_q.pop cmp with
          | none => Result.undefined
          | some r =>
              let st2 := { st with wait := st.wait.set (int_to_size st.x.pid) 0,
                                   ready_age_q := r,
                                   stats := { st.stats with np := size_sub st.stats.np 1 },
                                   aborted := st.aborted ++ [st.x.pid] }
              if r.empty then Result.done st2
              else
                match r.top with
                | none => Result.undefined
                | some y => edf_scan cmp Clock fuel { st2 with x := y }
        else Result.undefined
      else Result.done st

/-- The part `GET NEXT PROCESS` of the dispatch block. -/
def get_next (cmp : PCB → PCB → Int) (env : env_t) (Clock : Nat) (fuel : Nat) (st : sim_t) :
    Result sim_t :=
  if env.scheduler = scheduler_t.EDF then
    match st.ready_age_q.top with
    | none => Result.undefined
    | some y =>
        (edf_scan cmp Clock fuel { st with x := y }).bind fun st2 =>
          if st2.ready_age_q.empty then Result.done st2
          else Result.of_option
            ((st2.ready_age_q.pop cmp).map fun r => { st2 with ready_age_q := r })
  else
    match st.ready_age_q.top, st.ready_age_q.pop cmp with
    | some y, some r => Result.done { st with x := y, ready_age_q := r }
    | _, _ => Result.undefined

/-- The block `if (!running && !ready_age_q.empty()) { ... }` of the tick loop: `GET NEXT
PROCESS`, then `SET UP RUNTIME`. -/
def dispatch (cmp : PCB → PCB → Int) (env : env_t) (Clock : Nat) (fuel : Nat) (st : sim_t) :
    Result sim_t :=
  if !st.running && !st.ready_age_q.empty then
    (get_next cmp env Clock fuel st).bind fun st2 =>
      Result.done
        { st2 with org_tq := if ISKERNEL st2.x.pri then env.kernel_tq else env.user_tq,
                   tq := 0, running := true,
                   outfs := st2.outfs ++ [⟨Clock, st2.x.pid, action_t.GETS_CPU⟩] }
  else Result.done st

/-- The statements `wait[iter->pid]++` for the PCBs of the ready queue, in iteration order;
undefined outside the vector. -/
def wait_incr : List Nat → List PCB → Option (List Nat)
  | w, [] => some w
  | w, p :: ps =>
      if int_to_size p.pid < w.length then
        wait_incr (w.set (int_to_size p.pid) ((w.getD (int_to_size p.pid) 0 + 1) % 2 ^ 64)) ps
      else none

/-- The block `update wait time` at the end of the tick loop. -/
def account (env : env_t) (st : sim_t) : Option sim_t :=
  if env.scheduler = scheduler_t.EDF then
    st.ready_age_q.ready_q.iterate.bind fun l =>
      (wait_incr st.wait l).map fun w => { st with wait := w }
  else some { st with stats := { st.stats with awt := st.stats.awt + st.ready_age_q.size } }

/-- The second half of an iteration of the tick loop: the running block, the dispatch block
and the wait accounting. -/
def schedule (cmp : PCB → PCB → Int) (env : env_t) (fuel : Nat) (Clock : Nat) (st : sim_t) :
    Result sim_t :=
  (if st.running then Result.of_option (advance cmp env Clock st)
   else Result.done st).bind fun st4 =>
  (dispatch cmp env Clock fuel st4).bind fun st5 =>
  Result.of_option (account env st5)

/-- One iteration of the tick loop of `run_scheduler` (without the interactive prints): `do_io`,
`do_aging` under PRIORITY, `update` if the new queue is not empty, and then the second half.
The inner loops run for at most `fuel` iterations each. -/
def tick (cmp : PCB → PCB → Int) (env : env_t) (fuel : Nat) (Clock : Nat) (st : sim_t) :
    Result sim_t :=
  (Result.of_option (do_io cmp env Clock st.ready_age_q st.io_q)).bind fun r1 =>
  (if env.scheduler = scheduler_t.PRIORITY then do_aging_loop cmp env Clock fuel r1.1
   else Result.done r1.1).bind fun r2 =>
  (if !st.new_q.empty then update_loop cmp Clock fuel st.new_q r2
   else Result.done (st.new_q, r2)).bind fun r3 =>
  schedule cmp env fuel Clock { st with new_q := r3.1, ready_age_q := r3.2, io_q := r1.2 }

/-- The condition of the tick loop. -/
def loop_cond (st : sim_t) : Bool :=
  st.running || !(st.ready_age_q.empty && st.io_q.isEmpty && st.new_q.empty)

/-- At most `n` iterations of the tick loop from tick `Clock`: the tick and the state reached
when the loop condition fails or the `n` iterations are done. -/
def ticks (cmp : PCB → PCB → Int) (env : env_t) (fuel : Nat) : Nat → Nat → sim_t →
    Result (Nat × sim_t)
  | 0, Clock, st => Result.done (Clock, st)
  | n + 1, Clock, st =>
      if loop_cond st then
        (tick cmp env fuel Clock st).bind fun st2 => ticks cmp env fuel n ((Clock + 1) % 2 ^ 64) st2
      else Result.done (Clock, st)

/-- The tick loop of `run_scheduler`, run for at most `fuel` ticks. -/
def run_loop (cmp : PCB → PCB → Int) (env : env_t) (fuel : Nat) (Clock : Nat) (st : sim_t) :
    Result sim_t :=
  (ticks cmp env fuel fuel Clock st).bind fun r =>
    if loop_cond r.2 then Result.out_of_fuel else Result.done r.2

/-- The PCB of which `x` holds the fields while no value was assigned to it (all fields 0; the
source leaves it uninitialised and reads it only after an assignment). -/
def PCB.zero : PCB :=
  { pid := 0, bst := 0, arr := 0, pri := 0, dline := 0, io := 0, io_counter := 0, Clock := 0 }

/-- The state in which `run_scheduler` enters its tick loop. -/
def sim_t.init (env : env_t) (new_q : priority_queue PCB) (stats : stats_t) : sim_t :=
  { new_q := new_q, ready_age_q := ready_age_t.new, stats := stats, io_q := [], running := false,
    x := PCB.zero, tq := 0, org_tq := 0,
    wait := if env.scheduler = scheduler_t.EDF then List.replicate (new_q.size + 1) 0 else [],
    outfs := [], aborted := [] }

/-- The loop `for (size_t n : wait) if (n != 0) stats.np++;`. -/
def count_waits (np : Nat) (wait : List Nat) : Nat :=
  wait.foldl (fun k n => if n ≠ 0 then (k + 1) % 2 ^ 64 else k) np

/-- The function `run_scheduler`, with the ready structure empty on entry. -/
def run_scheduler (cmp : PCB → PCB → Int) (env : env_t) (fuel : Nat)
    (new_q : priority_queue PCB) (stats : stats_t) : Result sim_t :=
  if new_q.empty then
    Result.done { sim_t.init env new_q stats with wait := [] }
  else
    (run_loop cmp env fuel 0 (sim_t.init env new_q stats)).bind fun st =>
      Result.done
        (if env.scheduler = scheduler_t.EDF then
           { st with stats := { st.stats with np := count_waits st.stats.np st.wait } }
         else st)

/-- The comparator of the ready queue that `main` chooses for a scheduler. -/
def scheduler_cmp : scheduler_t → PCB → PCB → Int
  | scheduler_t.FIFO => mycmp_fifo
  | scheduler_t.SJF => mycmp_sjf
  | scheduler_t.PRIORITY => mycmp_priority
  | scheduler_t.EDF => mycmp_edf

/-- The function `main` from the data lines of the workload file and the configuration that
`parse_input` built, up to the call of `run_scheduler`. -/
def main (env : env_t) (fuel : Nat) (lines : List line_t) : Result sim_t :=
  (Result.of_option (create_new_queue lines)).bind fun new_q =>
    run_scheduler (scheduler_cmp env.scheduler) env fuel new_q
      { awt := 0, att := 0, np := new_q.size }

/-- The statement `stats.att /= (double) stats.np` (and the same for `awt`) of `main`, as a
rational number; `none` when `np` is 0 (the quotient is then an infinity or not a number). -/
def average (sum np : Nat) : Option ℚ :=
  if np = 0 then none else some ((sum : ℚ) / (np : ℚ))

/-- The configuration of `parse_input` for a scheduler and the options `--user_quantum`,
`--kernel_quantum`, `--age_timer` and `--age_amount`. -/
def env_of (scheduler : scheduler_t) (kernel_tq user_tq age_time age_val : Int) : env_t :=
  { kernel_tq := if kernel_tq ≤ 0 then 100 else kernel_tq,
    user_tq := if user_tq ≤ 0 then 25 else user_tq,
    age_time := age_time, age_val := age_val, interactive := false, scheduler := scheduler }

/-- The state of `run_scheduler`, called by `main` on the data lines of a workload, after the
first `n` iterations of its tick loop (fewer if the loop ends before), with the tick that
comes next. -/
def state_after (env : env_t) (fuel : Nat) (n : Nat) (lines : List line_t) :
    Result (Nat × sim_t) :=
  (Result.of_option (create_new_queue lines)).bind fun new_q =>
    ticks (scheduler_cmp env.scheduler) env fuel n 0
      (sim_t.init env new_q { awt := 0, att := 0, np := new_q.size })

/-- The PCBs of the ready queue, in the order in which they would be popped. -/
def sim_t.ready (st : sim_t) : List PCB := st.ready_age_q.ready_q.root.toList

/-- The PCB of the workload line `(1, 4, 0, 0, 100, 3)` when `do_io` pushes it back to the ready
queues at tick 5 (scenario S5): priority 3, stamp 5, two ticks of burst left. -/
def pcb_back_from_io : PCB :=
  { pid := 1, bst := 2, arr := 0, pri := 3, dline := 100, io := 3, io_counter := 3, Clock := 5 }

/-- The dual ready structure that holds the one PCB `x`: its node in the ready queue has address
`a`, the node of its cursor in the age queue has address `b`. -/
def single_ready (a b : Nat) (x : PCB) : ready_age_t :=
  ⟨⟨node.mk Color.BLACK node.nil a x node.nil, 1, a + 1⟩,
   ⟨node.mk Color.BLACK node.nil b ⟨a, x⟩ node.nil, 1, b + 1⟩⟩

/-- The workload `(1,5,0,49,100,0)`, `(2,5,0,10,100,0)`, `(3,5,0,10,100,0)`: three arrivals of
tick 0, the first at the ceiling of the user class. -/
def workload_tick0 : List line_t :=
  [line_t.record 1 5 0 49 100 0, line_t.record 2 5 0 10 100 0, line_t.record 3 5 0 10 100 0]

/-- The quantity that the EDF bookkeeping keeps through the tick loop: `np` plus the number of
processes dropped so far, as a `size_t`. -/
def np_track (st : sim_t) : Nat := (st.stats.np + st.aborted.length) % 2 ^ 64

/-- Push the PCBs of a list to the dual ready structure, in the order of the list. -/
def ready_age_t.push_list (cmp : PCB → PCB → Int) (s : ready_age_t) :
    List PCB → Option ready_age_t
  | [] => some s
  | x :: xs => (s.push cmp x).bind fun s2 => s2.push_list cmp xs

/-- The statement `iter->io_counter++` of `do_io` on one entry. -/
def io_tick (p : PCB) : PCB := { p with io_counter := wrap32 (p.io_counter + 1) }

/-- The test `iter->io_counter == iter->io` of `do_io`. -/
def io_completed (p : PCB) : Bool := decide (p.io_counter = p.io)

/-! ## The processes of a state, and the moves of a tick -/

/-- The processes of a state of `run_scheduler` without the shape of the queues: the PCBs of
the new queue and of the ready queue (each in the order in which they would be popped), the I/O
list, and the running process, if there is one. -/
structure procs_t : Type where
  arriving : List PCB
  ready : List PCB
  io : List PCB
  run : Option PCB

/-- The processes of a state. -/
def sim_t.procs (st : sim_t) : procs_t :=
  ⟨st.new_q.root.toList, st.ready, st.io_q, if st.running then some st.x else none⟩

/-- The steps by which a tick at `Clock` changes the processes of a state. `reorder` stands for
the place at which a push inserts; `io_done` is a call of `do_io`; `age` is one iteration of
`do_aging`; `arrive` is one iteration of `update`; `finish`, `tq_inter`, `io_inter` and `step`
are the four outcomes of the running block; `dispatch` gives the CPU to a process of the ready
queue; `drop` removes a process from the ready queue (the EDF admission test). -/
inductive Move (env : env_t) (Clock : Nat) : procs_t → procs_t → Prop
  | reorder (n r r2 i : List PCB) (x : Option PCB) (h : r.Perm r2) :
      Move env Clock ⟨n, r, i, x⟩ ⟨n, r2, i, x⟩
  | io_done (n r i : List PCB) (x : Option PCB) :
      Move env Clock ⟨n, r, i, x⟩
        ⟨n, (((i.map io_tick).filter io_completed).map fun p =>
              stamp (promote_priority p ops_t.IO_ env) Clock) ++ r,
          (i.map io_tick).filter (fun p => !io_completed p), x⟩
  | age (n : List PCB) (p : PCB) (r i : List PCB) (x : Option PCB) :
      Move env Clock ⟨n, p :: r, i, x⟩
        ⟨n, stamp (promote_priority p ops_t.AGE env) Clock :: r, i, x⟩
  | arrive (p : PCB) (n r i : List PCB) (x : Option PCB) (h : int_to_size p.arr = Clock) :
      Move env Clock ⟨p :: n, r, i, x⟩ ⟨n, stamp p Clock :: r, i, x⟩
  | finish (n r i : List PCB) (p : PCB) : Move env Clock ⟨n, r, i, some p⟩ ⟨n, r, i, none⟩
  | tq_inter (n r i : List PCB) (p : PCB) :
      Move env Clock ⟨n, r, i, some p⟩
        ⟨n, { demote_priority { p with bst := wrap32 (p.bst - 1) } env with Clock := Clock } :: r,
          i, none⟩
  | io_inter (n r i : List PCB) (p : PCB) :
      Move env Clock ⟨n, r, i, some p⟩
        ⟨n, r, i ++ [{ p with bst := wrap32 (p.bst - 1), io_counter := 0 }], none⟩
  | step (n r i : List PCB) (p : PCB) :
      Move env Clock ⟨n, r, i, some p⟩ ⟨n, r, i, some { p with bst := wrap32 (p.bst - 1) }⟩
  | dispatch (n : List PCB) (p : PCB) (r i : List PCB) :
      Move env Clock ⟨n, p :: r, i, none⟩ ⟨n, r, i, some p⟩
  | drop (n : List PCB) (p : PCB) (r i : List PCB) (x : Option PCB) :
      Move env Clock ⟨n, p :: r, i, x⟩ ⟨n, r, i, x⟩

/-- A sequence of moves of one tick. -/
def Moves (env : env_t) (Clock : Nat) : procs_t → procs_t → Prop :=
  Relation.ReflTransGen (Move env Clock)

/-- The structural invariant of a state of `run_scheduler`: the new queue and the ready queue
satisfy the queue invariant. -/
structure sim_t.Inv (st : sim_t) : Prop where
  new_inv : st.new_q.Inv
  ready_inv : st.ready_age_q.ready_q.Inv

/-- All PCBs of a state: those of the new queue, of the ready queue and of the I/O list, and
the running process. -/
def procs_t.all (a : procs_t) : List PCB := a.arriving ++ a.ready ++ a.io ++ a.run.toList

/-- The records of the data lines that `create_new_queue` accepts (the loader-valid workload),
in the order of the file. -/
def accepted : List line_t → List PCB
  | [] => []
  | line_t.record pid bst arr pri dline io :: ls =>
      if VALID (record_pcb pid bst arr pri dline io) then
        record_pcb pid bst arr pri dline io :: accepted ls
      else accepted ls
  | line_t.incomplete :: ls => accepted ls

/-- The number of PCBs of a list with a given pid. -/
def pid_count (q : Int) (l : List PCB) : Nat := (l.map PCB.pid).count q

/-- The priority of the PCB is in `[0, 99]` and its `io` is not negative and small enough for
`pri + io` to fit an `int`. -/
def pcb_bounded (p : PCB) : Prop :=
  0 ≤ p.pri ∧ p.pri ≤ 99 ∧ 0 ≤ p.io ∧ p.io + 99 < 2147483648

/-- The stamp of the PCB is `CLOCK_LAST` exactly when its priority is 49 or 99. -/
def stamp_ok (p : PCB) : Prop := p.Clock = CLOCK_LAST ↔ (p.pri = 49 ∨ p.pri = 99)

/-- The state with its new queue replaced. -/
def sim_t.set_new_q (q : priority_queue PCB) (st : sim_t) : sim_t := { st with new_q := q }

/-- Two queues that satisfy the queue invariant and hold the same elements in the same
order. -/
def same_queue (q1 q2 : priority_queue PCB) : Prop :=
  q1.Inv ∧ q2.Inv ∧ q1.root.toList = q2.root.toList

/-- Two states that differ at most in the shape of their new queues. -/
def same_state (st1 st2 : sim_t) : Prop :=
  same_queue st1.new_q st2.new_q ∧ st2 = st1.set_new_q st2.new_q

/-- Two results are of the same kind, and related by `R` if they are values. -/
def Result.agree {α : Type} (R : α → α → Prop) : Result α → Result α → Prop
  | Result.done a, Result.done b => R a b
  | Result.undefined, Result.undefined => True
  | Result.out_of_fuel, Result.out_of_fuel => True
  | _, _ => False

/-! # Theorems -/

/-! ## Basic facts about colours and rotations -/

@[simp] theorem setColor_mk (c c2 : Color) (l : node T) (a : Nat) (d : T) (r : node T) :
    (node.mk c l a d r).setColor c2 = node.mk c2 l a d r := rfl

@[simp] theorem setColor_nil (c : Color) : (node.nil : node T).setColor c = node.nil := rfl

@[simp] theorem color_mk (c : Color) (l : node T) (a : Nat) (d : T) (r : node T) :
    (node.mk c l a d r).color = c := rfl

@[simp] theorem color_nil : (node.nil : node T).color = Color.BLACK := rfl

@[simp] theorem entries_mk (c : Color) (l : node T) (a : Nat) (d : T) (r : node T) :
    (node.mk c l a d r).entries = l.entries ++ (a, d) :: r.entries := rfl

@[simp] theorem entries_nil : (node.nil : node T).entries = [] := rfl

@[simp] theorem entries_setColor (c : Color) (t : node T) :
    (t.setColor c).entries = t.entries := by
  cases t <;> rfl

theorem color_ne_red {c : Color} : ¬ c = Color.RED ↔ c = Color.BLACK := by
  cases c <;> simp

theorem color_ne_black {c : Color} : ¬ c = Color.BLACK ↔ c = Color.RED := by
  cases c <;> simp

/-! ## The symmetric order is kept by the rebalancing -/

theorem entries_zip (p : Path T) (t : node T) :
    (zip p t).entries = Path.before p ++ t.entries ++ Path.after p := by
  induction p generalizing t with
  | nil => simp [zip, Path.before, Path.after]
  | cons f rest ih =>
      cases f <;> simp [zip, Frame.fill, ih, Path.before, Path.after]

theorem entries_left_rotate {t s : node T} (h : left_rotate t = some s) :
    s.entries = t.entries := by
  unfold left_rotate at h
  split at h
  · cases h; simp
  · cases h

theorem entries_right_rotate {t s : node T} (h : right_rotate t = some s) :
    s.entries = t.entries := by
  unfold right_rotate at h
  split at h
  · cases h; simp
  · cases h

theorem entries_insert_fixup (p : Path T) (z t : node T) (h : insert_fixup p z = some t) :
    t.entries = (zip p z).entries := by
  induction p, z using insert_fixup.induct generalizing t with
  | case1 z => simp [insert_fixup] at h; subst h; simp [zip]
  | case2 p z hp => simp [insert_fixup, hp] at h
  | case3 p z hp => simp [insert_fixup, hp] at h; subst h; simp
  | case4 p rest z hp gc ga gd y hy ih =>
      simp only [insert_fixup, hp, hy, if_true] at h
      rw [ih _ h]
      cases p <;> simp [zip, Frame.fill, entries_zip]
  | case7 p rest z hp gc y ga gd hy ih =>
      simp only [insert_fixup, hp, hy, if_true] at h
      rw [ih _ h]
      cases p <;> simp [zip, Frame.fill, entries_zip]
  | case10 p g rest z hp => simp [insert_fixup, hp] at h; subst h; simp
  | case5 rest z gc ga gd y hy pc pl pa pd hp =>
      simp only [insert_fixup, hp, hy, if_true, if_false] at h
      cases z <;> simp [left_rotate, right_rotate] at h
      subst h; simp [zip, Frame.fill, entries_zip]
  | case6 rest z gc ga gd y hy pc pa pd pr hp =>
      simp only [insert_fixup, hp, hy, if_true, if_false] at h
      simp [left_rotate, right_rotate] at h
      subst h; simp [zip, Frame.fill, entries_zip]
  | case8 rest z gc y ga gd hy pc pa pd pr hp =>
      simp only [insert_fixup, hp, hy, if_true, if_false] at h
      cases z <;> simp [left_rotate, right_rotate] at h
      subst h; simp [zip, Frame.fill, entries_zip]
  | case9 rest z gc y ga gd hy pc pl pa pd hp =>
      simp only [insert_fixup, hp, hy, if_true, if_false] at h
      simp [left_rotate, right_rotate] at h
      subst h; simp [zip, Frame.fill, entries_zip]

/-! ## The red-black shape and the zipper -/

@[simp] theorem bh_mk (c : Color) (l : node T) (a : Nat) (d : T) (r : node T) :
    (node.mk c l a d r).bh = l.bh + (if c = Color.BLACK then 1 else 0) := rfl

@[simp] theorem bh_nil : (node.nil : node T).bh = 0 := rfl

@[simp] theorem RB_mk (c : Color) (l : node T) (a : Nat) (d : T) (r : node T) :
    (node.mk c l a d r).RB ↔
      (l.RB ∧ r.RB ∧ l.bh = r.bh ∧
        (c = Color.RED → l.color = Color.BLACK ∧ r.color = Color.BLACK)) := Iff.rfl

@[simp] theorem RB_nil : (node.nil : node T).RB := trivial

theorem RB_setColor_black {t : node T} (h : t.RB) : (t.setColor Color.BLACK).RB := by
  cases t with
  | nil => simp
  | mk c l a d r => simp at h ⊢; exact ⟨h.1, h.2.1, h.2.2.1⟩

theorem color_setColor_black (t : node T) : (t.setColor Color.BLACK).color = Color.BLACK := by
  cases t <;> rfl

theorem bh_setColor_black_of_red {t : node T} (h : t.color = Color.RED) :
    (t.setColor Color.BLACK).bh = t.bh + 1 := by
  cases t with
  | nil => simp at h
  | mk c l a d r => simp at h; subst h; simp

theorem bh_pos_of_black_node {c : Color} {l : node T} {a : Nat} {d : T} {r : node T}
    (h : c = Color.BLACK) : 0 < (node.mk c l a d r).bh := by
  subst h; simp

theorem Path.RB_black {p : Path T} {c : Color} {h : Nat} (hp : Path.RB p c h) :
    Path.RB p Color.BLACK h := by
  cases p with
  | nil => trivial
  | cons f rest =>
      cases f <;> simp only [Path.RB] at hp ⊢ <;>
        exact ⟨hp.1, hp.2.1, fun e => ⟨by simp, (hp.2.2.1 e).2⟩, hp.2.2.2⟩

theorem Path.RB_of_black_parent {f : Frame T} {rest : Path T} {c c2 : Color} {h : Nat}
    (hp : Path.RB (f :: rest) c h) (hf : f.color = Color.BLACK) :
    Path.RB (f :: rest) c2 h := by
  cases f <;> simp only [Path.RB, Frame.color] at hp hf ⊢ <;> subst hf <;>
    exact ⟨hp.1, hp.2.1, by simp, hp.2.2.2⟩

theorem RB_zip {p : Path T} {t : node T} :
    (zip p t).RB ↔ t.RB ∧ Path.RB p t.color t.bh := by
  induction p generalizing t with
  | nil => simp [zip, Path.RB]
  | cons f rest ih =>
      cases f <;> simp only [zip, Frame.fill, ih, Path.RB, RB_mk, color_mk, bh_mk]
      · constructor
        · rintro ⟨⟨h1, h2, h3, h4⟩, h5⟩
          exact ⟨h1, h2, h3.symm, fun e => h4 e, h3 ▸ h5⟩
        · rintro ⟨h1, h2, h3, h4, h5⟩
          exact ⟨⟨h1, h2, h3.symm, fun e => h4 e⟩, h3 ▸ h5⟩
      · constructor
        · rintro ⟨⟨h1, h2, h3, h4⟩, h5⟩
          exact ⟨h2, h1, h3, fun e => ⟨(h4 e).2, (h4 e).1⟩, h3 ▸ h5⟩
        · rintro ⟨h1, h2, h3, h4, h5⟩
          exact ⟨⟨h2, h1, h3, fun e => ⟨(h4 e).2, (h4 e).1⟩⟩, h3 ▸ h5⟩

theorem color_zip_black {p : Path T} {t : node T} (hp : p ≠ []) :
    (zip p t).color = Color.BLACK ↔ Path.rootBlack p := by
  induction p generalizing t with
  | nil => exact absurd rfl hp
  | cons f rest ih =>
      cases rest with
      | nil => cases f <;> simp [zip, Frame.fill, Path.rootBlack, Frame.color]
      | cons g rest2 =>
          simp only [zip, Path.rootBlack] at ih ⊢
          exact ih (by simp)

theorem Path.rootBlack_tail {f : Frame T} {rest : Path T} (h : Path.rootBlack (f :: rest)) :
    Path.rootBlack rest := by
  cases rest with
  | nil => trivial
  | cons g r => exact h

theorem Path.rootBlack_zip {p : Path T} {t : node T} (ht : t.color = Color.BLACK)
    (hp : Path.rootBlack p) : (zip p t).color = Color.BLACK := by
  cases p with
  | nil => exact ht
  | cons f rest => exact (color_zip_black (by simp)).2 hp

/-! ## `insert_fixup` restores the red-black shape -/

theorem Path.RB_congr {p : Path T} {c : Color} (h : Nat) {h2 : Nat} (hp : Path.RB p c h)
    (e : h = h2) : Path.RB p c h2 := e ▸ hp

theorem insert_fixup_RB (p : Path T) (z : node T) (hz : z.color = Color.RED) (hzrb : z.RB)
    (hp : Path.RB p Color.BLACK z.bh) (hroot : Path.rootBlack p) :
    ∃ t, insert_fixup p z = some t ∧ t.RB ∧ t.color = Color.BLACK := by
  induction p, z using insert_fixup.induct with
  | case1 z =>
      exact ⟨_, rfl, RB_setColor_black hzrb, color_setColor_black _⟩
  | case2 p z hpc => simp [Path.rootBlack, hpc] at hroot
  | case3 p z hpc =>
      refine ⟨(zip [p] z).setColor Color.BLACK, by simp [insert_fixup, hpc],
        RB_setColor_black ?_, color_setColor_black _⟩
      exact RB_zip.2 ⟨hzrb, Path.RB_of_black_parent hp (color_ne_red.1 hpc)⟩
  | case10 p g rest z hpc =>
      refine ⟨(zip (p :: g :: rest) z).setColor Color.BLACK, by simp [insert_fixup, hpc],
        RB_setColor_black ?_, color_setColor_black _⟩
      exact RB_zip.2 ⟨hzrb, Path.RB_of_black_parent hp (color_ne_red.1 hpc)⟩
  | case4 p rest z hpc gc ga gd y hy ih =>
      simp only [insert_fixup, hpc, hy, if_true]
      apply ih
      · simp
      · cases p <;> cases y <;> simp_all [Path.RB, Frame.fill, Frame.color] <;> omega
      · cases p <;> cases y <;> cases gc <;> simp_all [Path.RB, Frame.fill, Frame.color]
      · exact Path.rootBlack_tail (Path.rootBlack_tail hroot)
  | case7 p rest z hpc gc y ga gd hy ih =>
      simp only [insert_fixup, hpc, hy, if_true]
      apply ih
      · simp
      · cases p <;> cases y <;> simp_all [Path.RB, Frame.fill, Frame.color] <;> omega
      · cases p <;> cases y <;> cases gc <;> simp_all [Path.RB, Frame.fill, Frame.color] <;>
          exact Path.RB_congr (z.bh + 1) (by tauto) (by omega)
      · exact Path.rootBlack_tail (Path.rootBlack_tail hroot)
  | case5 rest z gc ga gd y hy pc pl pa pd hpc =>
      cases z with
      | nil => simp at hz
      | mk zc zl za zd zr =>
          simp only [color_mk] at hz
          subst hz
          simp only [Frame.color] at hpc
          subst hpc
          refine ⟨_, by simp [insert_fixup, hy, left_rotate, right_rotate, Frame.color]; rfl,
            RB_setColor_black ?_, color_setColor_black _⟩
          cases gc <;> simp_all [Path.RB, RB_zip, color_ne_red]
  | case6 rest z gc ga gd y hy pc pa pd pr hpc =>
      cases z with
      | nil => simp at hz
      | mk zc zl za zd zr =>
          simp only [color_mk] at hz
          subst hz
          simp only [Frame.color] at hpc
          subst hpc
          refine ⟨_, by simp [insert_fixup, hy, left_rotate, right_rotate, Frame.color]; rfl,
            RB_setColor_black ?_, color_setColor_black _⟩
          cases gc <;> simp_all [Path.RB, RB_zip, color_ne_red]
  | case8 rest z gc y ga gd hy pc pa pd pr hpc =>
      cases z with
      | nil => simp at hz
      | mk zc zl za zd zr =>
          simp only [color_mk] at hz
          subst hz
          simp only [Frame.color] at hpc
          subst hpc
          refine ⟨_, by simp [insert_fixup, hy, left_rotate, right_rotate, Frame.color]; rfl,
            RB_setColor_black ?_, color_setColor_black _⟩
          cases gc <;> simp_all [Path.RB, RB_zip, color_ne_red]
  | case9 rest z gc y ga gd hy pc pl pa pd hpc =>
      cases z with
      | nil => simp at hz
      | mk zc zl za zd zr =>
          simp only [color_mk] at hz
          subst hz
          simp only [Frame.color] at hpc
          subst hpc
          refine ⟨_, by simp [insert_fixup, hy, left_rotate, right_rotate, Frame.color]; rfl,
            RB_setColor_black ?_, color_setColor_black _⟩
          cases gc <;> simp_all [Path.RB, RB_zip, color_ne_red]

/-! ## `delete_fixup` keeps the symmetric order -/

theorem entries_delete_fixup_left (pc : Color) (pa : Nat) (pd : T) (x w : node T)
    (st : FixStep T) (h : delete_fixup_left pc pa pd x w = some st) :
    st.tree.entries = x.entries ++ (pa, pd) :: w.entries := by
  cases w with
  | nil => simp [delete_fixup_left] at h
  | mk wc wl wa wd wr =>
      simp only [delete_fixup_left] at h
      split at h
      · cases h; simp [FixStep.tree]
      · split at h
        · cases wl with
          | nil => simp [right_rotate] at h
          | mk lc ll la ld lr =>
              simp [right_rotate, left_rotate] at h
              subst h; simp [FixStep.tree]
        · cases wr with
          | nil => simp_all
          | mk rc rl ra rd rr =>
              simp [left_rotate] at h
              subst h; simp [FixStep.tree]

theorem entries_delete_fixup_right (pc : Color) (pa : Nat) (pd : T) (x w : node T)
    (st : FixStep T) (h : delete_fixup_right pc pa pd x w = some st) :
    st.tree.entries = w.entries ++ (pa, pd) :: x.entries := by
  cases w with
  | nil => simp [delete_fixup_right] at h
  | mk wc wl wa wd wr =>
      simp only [delete_fixup_right] at h
      split at h
      · cases h; simp [FixStep.tree]
      · split at h
        · cases wr with
          | nil => simp [left_rotate] at h
          | mk rc rl ra rd rr =>
              simp [right_rotate, left_rotate] at h
              subst h; simp [FixStep.tree]
        · cases wl with
          | nil => simp_all
          | mk lc ll la ld lr =>
              simp [right_rotate] at h
              subst h; simp [FixStep.tree]

theorem entries_delete_fixup (p : Path T) (x t : node T) (h : delete_fixup p x = some t) :
    t.entries = (zip p x).entries := by
  induction p generalizing x t with
  | nil => simp [delete_fixup] at h; subst h; simp [zip]
  | cons f rest ih =>
      simp only [delete_fixup] at h
      split at h
      · cases h; simp [entries_zip]
      · cases f with
        | L pc pa pd w =>
            cases w with
            | nil => simp at h
            | mk wc wl wa wd wr =>
                simp only at h
                split at h
                · simp only [left_rotate] at h
                  split at h
                  · rename_i t2 e
                    have := entries_delete_fixup_left _ _ _ _ _ _ e
                    cases h
                    simp [entries_zip, FixStep.tree, Path.before, Path.after] at this ⊢
                    simp [this]
                  · rename_i s e
                    have := entries_delete_fixup_left _ _ _ _ _ _ e
                    cases h
                    simp [entries_zip, FixStep.tree, Path.before, Path.after] at this ⊢
                    simp [this]
                  · cases h
                · split at h
                  · rename_i t2 e
                    have := entries_delete_fixup_left _ _ _ _ _ _ e
                    rw [ih _ _ h]
                    simp [entries_zip, FixStep.tree, Path.before, Path.after] at this ⊢
                    simp [this]
                  · rename_i s e
                    have := entries_delete_fixup_left _ _ _ _ _ _ e
                    cases h
                    simp [entries_zip, FixStep.tree, Path.before, Path.after] at this ⊢
                    simp [this]
                  · cases h
        | R pc w pa pd =>
            cases w with
            | nil => simp at h
            | mk wc wl wa wd wr =>
                simp only at h
                split at h
                · simp only [right_rotate] at h
                  split at h
                  · rename_i t2 e
                    have := entries_delete_fixup_right _ _ _ _ _ _ e
                    cases h
                    simp [entries_zip, FixStep.tree, Path.before, Path.after] at this ⊢
                    simp [this]
                  · rename_i s e
                    have := entries_delete_fixup_right _ _ _ _ _ _ e
                    cases h
                    simp [entries_zip, FixStep.tree, Path.before, Path.after] at this ⊢
                    simp [this]
                  · cases h
                · split at h
                  · rename_i t2 e
                    have := entries_delete_fixup_right _ _ _ _ _ _ e
                    rw [ih _ _ h]
                    simp [entries_zip, FixStep.tree, Path.before, Path.after] at this ⊢
                    simp [this]
                  · rename_i s e
                    have := entries_delete_fixup_right _ _ _ _ _ _ e
                    cases h
                    simp [entries_zip, FixStep.tree, Path.before, Path.after] at this ⊢
                    simp [this]
                  · cases h

/-! ## `tree_minimum` and `delete_node` -/

theorem Path.before_append (p q : Path T) :
    Path.before (p ++ q) = Path.before q ++ Path.before p := by
  induction p with
  | nil => simp [Path.before]
  | cons f rest ih => cases f <;> simp [Path.before, ih]

theorem Path.after_append (p q : Path T) :
    Path.after (p ++ q) = Path.after p ++ Path.after q := by
  induction p with
  | nil => simp [Path.after]
  | cons f rest ih => cases f <;> simp [Path.after, ih]

theorem zip_append (p q : Path T) (t : node T) : zip (p ++ q) t = zip q (zip p t) := by
  induction p generalizing t with
  | nil => rfl
  | cons f rest ih => simp [zip, ih]

theorem tree_minimum_spec (t : node T) (p p2 : Path T) (n : node T)
    (h : tree_minimum t p = some (p2, n)) :
    ∃ c a d r yp, n = node.mk c node.nil a d r ∧ p2 = yp ++ p ∧ zip yp n = t ∧
      Path.before yp = [] := by
  induction t generalizing p with
  | nil => simp [tree_minimum] at h
  | mk c l a d r ihl _ =>
      cases l with
      | nil =>
          simp [tree_minimum] at h
          obtain ⟨rfl, rfl⟩ := h
          exact ⟨c, a, d, r, [], rfl, rfl, rfl, rfl⟩
      | mk lc ll la ld lr =>
          simp only [tree_minimum] at h
          obtain ⟨c2, a2, d2, r2, yp, hn, hp2, hz, hb⟩ := ihl _ h
          refine ⟨c2, a2, d2, r2, yp ++ [Frame.L c a d r], hn, by simp [hp2], ?_, ?_⟩
          · rw [zip_append, hz]; rfl
          · simp [Path.before_append, hb, Path.before]

theorem tree_minimum_isSome (t : node T) (p : Path T) (ht : t ≠ node.nil) :
    ∃ res, tree_minimum t p = some res := by
  induction t generalizing p with
  | nil => exact absurd rfl ht
  | mk c l a d r ihl _ =>
      cases l with
      | nil => exact ⟨_, rfl⟩
      | mk lc ll la ld lr =>
          simp only [tree_minimum]
          exact ihl _ (by simp)

theorem entries_delete_finish (c : Color) (xp : Path T) (x t : node T)
    (h : delete_finish c xp x = some t) : t.entries = (zip xp x).entries := by
  unfold delete_finish at h
  split at h
  · exact entries_delete_fixup _ _ _ h
  · cases h; rfl

theorem entries_delete_node (p : Path T) (c : Color) (l : node T) (a : Nat) (d : T)
    (r t : node T) (h : delete_node p (node.mk c l a d r) = some t) :
    t.entries = Path.before p ++ l.entries ++ r.entries ++ Path.after p := by
  simp only [delete_node] at h
  split at h
  · rw [entries_delete_finish _ _ _ _ h, entries_zip]; simp
  · rw [entries_delete_finish _ _ _ _ h, entries_zip]; simp
  · split at h
    · rename_i yp yc yl ya yd yr e
      obtain ⟨c2, a2, d2, r2, yp2, hn, hp2, hz, hb⟩ := tree_minimum_spec _ _ _ _ e
      cases hn
      simp only [List.append_nil] at hp2
      subst hp2
      rw [entries_delete_finish _ _ _ _ h, entries_zip]
      have hz2 := congrArg node.entries hz
      rw [entries_zip, hb] at hz2
      simp only [Path.before_append, Path.after_append, Path.before, Path.after, hb]
      simp only [entries_mk, entries_nil] at hz2 ⊢
      rw [← hz2]
      simp
    · cases h

/-! ## `delete_fixup` restores the red-black shape -/

theorem delete_fixup_left_RB (pc : Color) (pa : Nat) (pd : T) (x w : node T)
    (hx : x.RB) (hxc : x.color = Color.BLACK) (hw : w.RB) (hwc : w.color = Color.BLACK)
    (hbh : w.bh = x.bh + 1) :
    ∃ st, delete_fixup_left pc pa pd x w = some st ∧
      match st with
      | FixStep.up t =>
          t.color = pc ∧ (t.setColor Color.BLACK).RB ∧
            t.bh = x.bh + (if pc = Color.BLACK then 1 else 0)
      | FixStep.done s =>
          s.RB ∧ s.color = pc ∧ s.bh = x.bh + 1 + (if pc = Color.BLACK then 1 else 0) := by
  cases w with
  | nil => simp at hbh
  | mk wc wl wa wd wr =>
      simp only [color_mk] at hwc
      subst hwc
      simp only [delete_fixup_left]
      split
      · rename_i hc
        refine ⟨_, rfl, ?_⟩
        simp_all
      · rename_i hc
        split
        · rename_i hr
          cases wl with
          | nil => simp_all
          | mk lc ll la ld lr =>
              cases lc with
              | BLACK => simp_all
              | RED =>
                  refine ⟨_, by simp [right_rotate, left_rotate]; rfl, ?_⟩
                  simp_all
        · rename_i hr
          cases wr with
          | nil => simp_all
          | mk rc rl ra rd rr =>
              refine ⟨_, by simp [left_rotate]; rfl, ?_⟩
              simp_all

theorem delete_fixup_right_RB (pc : Color) (pa : Nat) (pd : T) (x w : node T)
    (hx : x.RB) (hxc : x.color = Color.BLACK) (hw : w.RB) (hwc : w.color = Color.BLACK)
    (hbh : w.bh = x.bh + 1) :
    ∃ st, delete_fixup_right pc pa pd x w = some st ∧
      match st with
      | FixStep.up t =>
          t.color = pc ∧ (t.setColor Color.BLACK).RB ∧
            t.bh = x.bh + (if pc = Color.BLACK then 1 else 0)
      | FixStep.done s =>
          s.RB ∧ s.color = pc ∧ s.bh = x.bh + 1 + (if pc = Color.BLACK then 1 else 0) := by
  cases w with
  | nil => simp at hbh
  | mk wc wl wa wd wr =>
      simp only [color_mk] at hwc
      subst hwc
      simp only [delete_fixup_right]
      split
      · rename_i hc
        refine ⟨_, rfl, ?_⟩
        simp_all
      · rename_i hc
        split
        · rename_i hr
          cases wr with
          | nil => simp_all
          | mk rc rl ra rd rr =>
              cases rc with
              | BLACK => simp_all
              | RED =>
                  refine ⟨_, by simp [right_rotate, left_rotate]; rfl, ?_⟩
                  simp_all
        · rename_i hr
          cases wl with
          | nil => simp_all
          | mk lc ll la ld lr =>
              refine ⟨_, by simp [right_rotate]; rfl, ?_⟩
              simp_all

theorem setColor_black_of_black {x : node T} (h : x.color = Color.BLACK) :
    x.setColor Color.BLACK = x := by
  cases x with
  | nil => rfl
  | mk c l a d r => simp at h; subst h; rfl

theorem delete_fixup_RB (p : Path T) (x : node T) (hx : (x.setColor Color.BLACK).RB)
    (hp : Path.RB p Color.BLACK (x.bh + 1)) (hroot : Path.rootBlack p) :
    ∃ t, delete_fixup p x = some t ∧ t.RB ∧ t.color = Color.BLACK := by
  induction p generalizing x with
  | nil => exact ⟨_, rfl, hx, color_setColor_black _⟩
  | cons f rest ih =>
      simp only [delete_fixup]
      split
      · rename_i hc
        refine ⟨_, rfl, RB_zip.2 ⟨hx, ?_⟩, Path.rootBlack_zip (color_setColor_black _) hroot⟩
        rw [color_setColor_black, bh_setColor_black_of_red hc]
        exact hp
      · rename_i hc
        have hxb := color_ne_red.1 hc
        rw [setColor_black_of_black hxb] at hx
        cases f with
        | L pc pa pd w =>
            simp only [Path.RB] at hp
            obtain ⟨hw, hwbh, hpc, hrest⟩ := hp
            cases w with
            | nil => simp at hwbh
            | mk wc wl wa wd wr =>
                simp only
                split
                · rename_i hwc
                  subst hwc
                  have hpcb : pc = Color.BLACK := by
                    cases pc with
                    | BLACK => rfl
                    | RED => simp at hpc
                  subst hpcb
                  simp only [left_rotate]
                  simp only [RB_mk, bh_mk] at hw hwbh
                  obtain ⟨st, hst, hprop⟩ := delete_fixup_left_RB Color.RED pa pd x wl hx hxb
                    hw.1 (hw.2.2.2 trivial).1 (by simpa using hwbh)
                  rw [hst]
                  cases st with
                  | up t =>
                      simp only at hprop ⊢
                      refine ⟨_, rfl, RB_zip.2 ⟨hprop.2.1, ?_⟩,
                        Path.rootBlack_zip (color_setColor_black _) ?_⟩
                      · rw [color_setColor_black, bh_setColor_black_of_red hprop.1]
                        simp only [Path.RB]
                        refine ⟨hw.2.1, by simp_all, by simp, ?_⟩
                        simp_all
                      · cases rest with
                        | nil => rfl
                        | cons g r2 => exact hroot
                  | done s =>
                      simp only at hprop ⊢
                      refine ⟨_, rfl, RB_setColor_black (RB_zip.2 ⟨hprop.1, ?_⟩),
                        color_setColor_black _⟩
                      simp only [Path.RB]
                      refine ⟨hw.2.1, by simp_all, by simp, ?_⟩
                      simp_all
                · rename_i hwc
                  have hwb := color_ne_red.1 hwc
                  obtain ⟨st, hst, hprop⟩ := delete_fixup_left_RB pc pa pd x
                    (node.mk wc wl wa wd wr) hx hxb hw (by simpa using hwb) hwbh
                  rw [hst]
                  cases st with
                  | up t =>
                      simp only at hprop ⊢
                      apply ih _ hprop.2.1
                      · cases pc <;> simp_all
                        exact Path.RB_black hrest
                      · exact Path.rootBlack_tail hroot
                  | done s =>
                      simp only at hprop ⊢
                      refine ⟨_, rfl, RB_setColor_black (RB_zip.2 ⟨hprop.1, ?_⟩),
                        color_setColor_black _⟩
                      rw [hprop.2.1, hprop.2.2]
                      exact hrest
        | R pc w pa pd =>
            simp only [Path.RB] at hp
            obtain ⟨hw, hwbh, hpc, hrest⟩ := hp
            cases w with
            | nil => simp at hwbh
            | mk wc wl wa wd wr =>
                simp only
                split
                · rename_i hwc
                  subst hwc
                  have hpcb : pc = Color.BLACK := by
                    cases pc with
                    | BLACK => rfl
                    | RED => simp at hpc
                  subst hpcb
                  simp only [right_rotate]
                  simp only [RB_mk, bh_mk] at hw hwbh
                  obtain ⟨st, hst, hprop⟩ := delete_fixup_right_RB Color.RED pa pd x wr hx hxb
                    hw.2.1 (hw.2.2.2 trivial).2 (by simp at hwbh; omega)
                  rw [hst]
                  cases st with
                  | up t =>
                      simp only at hprop ⊢
                      refine ⟨_, rfl, RB_zip.2 ⟨hprop.2.1, ?_⟩,
                        Path.rootBlack_zip (color_setColor_black _) ?_⟩
                      · rw [color_setColor_black, bh_setColor_black_of_red hprop.1]
                        simp only [Path.RB]
                        refine ⟨hw.1, by simp_all, by simp, ?_⟩
                        simp_all
                      · cases rest with
                        | nil => rfl
                        | cons g r2 => exact hroot
                  | done s =>
                      simp only at hprop ⊢
                      refine ⟨_, rfl, RB_setColor_black (RB_zip.2 ⟨hprop.1, ?_⟩),
                        color_setColor_black _⟩
                      simp only [Path.RB]
                      refine ⟨hw.1, by simp_all, by simp, ?_⟩
                      simp_all
                · rename_i hwc
                  have hwb := color_ne_red.1 hwc
                  obtain ⟨st, hst, hprop⟩ := delete_fixup_right_RB pc pa pd x
                    (node.mk wc wl wa wd wr) hx hxb hw (by simpa using hwb) hwbh
                  rw [hst]
                  cases st with
                  | up t =>
                      simp only at hprop ⊢
                      apply ih _ hprop.2.1
                      · cases pc <;> simp_all
                        exact Path.RB_black hrest
                      · exact Path.rootBlack_tail hroot
                  | done s =>
                      simp only at hprop ⊢
                      refine ⟨_, rfl, RB_setColor_black (RB_zip.2 ⟨hprop.1, ?_⟩),
                        color_setColor_black _⟩
                      rw [hprop.2.1, hprop.2.2]
                      exact hrest

/-! ## `delete_node` keeps the red-black shape -/

theorem color_zip (p : Path T) (t : node T) : (zip p t).color = Path.topColor p t.color := by
  induction p generalizing t with
  | nil => rfl
  | cons f rest ih => cases f <;> simp [zip, Frame.fill, ih, Path.topColor, Frame.color]

theorem bh_zip (p : Path T) (t : node T) (hp : Path.RB p t.color t.bh) :
    (zip p t).bh = Path.topBh p t.bh := by
  induction p generalizing t with
  | nil => rfl
  | cons f rest ih =>
      cases f with
      | L pc pa pd r =>
          simp only [Path.RB] at hp
          simp only [zip, Frame.fill, Path.topBh, Frame.color]
          rw [ih _ (by simpa using hp.2.2.2)]
          simp
      | R pc l pa pd =>
          simp only [Path.RB] at hp
          simp only [zip, Frame.fill, Path.topBh, Frame.color]
          rw [ih _ (by simpa [hp.2.1] using hp.2.2.2)]
          simp [hp.2.1]

theorem Path.RB_append (p q : Path T) (c : Color) (h : Nat) :
    Path.RB (p ++ q) c h ↔
      Path.RB p c h ∧ Path.RB q (Path.topColor p c) (Path.topBh p h) := by
  induction p generalizing c h with
  | nil => simp [Path.RB, Path.topColor, Path.topBh]
  | cons f rest ih =>
      rw [List.cons_append]
      cases f <;> simp only [Path.RB, ih, Path.topColor, Path.topBh, Frame.color] <;> tauto

theorem Path.rootBlack_append (p : Path T) (f : Frame T) (q : Path T) :
    Path.rootBlack (p ++ f :: q) ↔ Path.rootBlack (f :: q) := by
  induction p with
  | nil => rfl
  | cons g rest ih =>
      cases rest with
      | nil => simp [Path.rootBlack]
      | cons g2 r2 => simpa [Path.rootBlack] using ih

theorem Path.topColor_of_ne_nil {p : Path T} (hp : p ≠ []) (c c2 : Color) :
    Path.topColor p c = Path.topColor p c2 := by
  cases p with
  | nil => exact absurd rfl hp
  | cons f rest => rfl

theorem Path.topBh_succ (p : Path T) (h : Nat) : Path.topBh p (h + 1) = Path.topBh p h + 1 := by
  induction p generalizing h with
  | nil => rfl
  | cons f rest ih => simp only [Path.topBh]; rw [← ih]; congr 1; omega

theorem bh_zero_black {t : node T} (h : t.bh = 0) (hc : t.color = Color.BLACK) :
    t = node.nil := by
  cases t with
  | nil => rfl
  | mk c l a d r => simp at hc; subst hc; simp at h

theorem delete_finish_RB (c : Color) (xp : Path T) (x : node T) (hx : x.RB)
    (hred : c = Color.RED → Path.RB xp x.color x.bh)
    (hblack : c = Color.BLACK → Path.RB xp Color.BLACK (x.bh + 1))
    (hroot : Path.rootBlack xp) (hxc : xp = [] → c = Color.RED → x.color = Color.BLACK) :
    ∃ t, delete_finish c xp x = some t ∧ t.RB ∧ t.color = Color.BLACK := by
  unfold delete_finish
  cases c with
  | BLACK =>
      simp only [if_true]
      exact delete_fixup_RB xp x (RB_setColor_black hx) (hblack rfl) hroot
  | RED =>
      simp only [if_false, reduceCtorEq]
      refine ⟨_, rfl, RB_zip.2 ⟨hx, hred rfl⟩, ?_⟩
      cases xp with
      | nil => exact hxc rfl rfl
      | cons f rest => exact (color_zip_black (by simp)).2 hroot

theorem delete_node_RB (p : Path T) (c : Color) (l : node T) (a : Nat) (d : T) (r : node T)
    (hrb : (zip p (node.mk c l a d r)).RB)
    (hroot : (zip p (node.mk c l a d r)).color = Color.BLACK) :
    ∃ t, delete_node p (node.mk c l a d r) = some t ∧ t.RB ∧ t.color = Color.BLACK := by
  obtain ⟨hz, hp⟩ := RB_zip.1 hrb
  simp only [RB_mk, color_mk, bh_mk] at hz hp
  obtain ⟨hl, hr, hbh, hcol⟩ := hz
  have hrootp : Path.rootBlack p := by
    cases p with
    | nil => trivial
    | cons f rest => exact (color_zip_black (by simp)).1 hroot
  have hc0 : p = [] → c = Color.BLACK := by
    intro e; subst e; simpa [zip] using hroot
  simp only [delete_node]
  split
  · -- z->left == nil
    simp only [bh_nil] at hbh hp
    apply delete_finish_RB _ _ _ hr
    · intro e; subst e
      rw [(hcol rfl).2, ← hbh]
      exact Path.RB_black (by simpa using hp)
    · intro e; subst e
      rw [← hbh]
      exact Path.RB_black (by simpa using hp)
    · exact hrootp
    · intro e1 e2; exact (hcol e2).2
  · -- z->right == nil
    simp only [bh_nil] at hbh hp
    apply delete_finish_RB _ _ _ hl
    · intro e; subst e
      rw [(hcol rfl).1]
      exact Path.RB_black (by simpa using hp)
    · intro e; subst e
      rw [hbh]
      exact Path.RB_black (by simpa [hbh] using hp)
    · exact hrootp
    · intro e1 e2; exact (hcol e2).1
  · rename_i lc ll la ld lr rc rl ra rd rr
    obtain ⟨⟨yp, y⟩, hmin⟩ := tree_minimum_isSome (node.mk rc rl ra rd rr) [] (by simp)
    obtain ⟨yc, ya, yd, yr, yp2, hn, hp2, hzy, hb⟩ := tree_minimum_spec _ _ _ _ hmin
    simp only [List.append_nil] at hp2
    subst hp2
    subst hn
    rw [hmin]
    simp only
    rw [← hzy] at hr hbh hcol
    obtain ⟨hy, hyp⟩ := RB_zip.1 hr
    simp only [RB_mk, color_mk, bh_mk, bh_nil, RB_nil, true_and, zero_add] at hy hyp
    have hbhz := bh_zip yp (node.mk yc node.nil ya yd yr) (by simpa using hyp)
    simp only [bh_mk, bh_nil, zero_add] at hbhz
    have hcz := color_zip yp (node.mk yc node.nil ya yd yr)
    simp only [color_mk] at hcz
    have hframe : ∀ c2, (c = Color.RED → Path.topColor yp c2 = Color.BLACK) →
        Path.RB (Frame.R c (node.mk lc ll la ld lr) ya yd :: p) (Path.topColor yp c2)
          ((zip yp (node.mk yc node.nil ya yd yr)).bh) := by
      intro c2 h2
      simp only [Path.RB]
      exact ⟨hl, hbh, fun e => ⟨h2 e, (hcol e).1⟩, by simpa [hbh] using hp⟩
    apply delete_finish_RB _ _ _ hy.1
    · intro e; subst e
      have hyr : yr.color = Color.BLACK := (hy.2.2 rfl).2
      rw [Path.RB_append, hyr]
      refine ⟨Path.RB_black (by simpa [← hy.2.1] using hyp), ?_⟩
      rw [← hy.2.1]
      simp only [if_false, reduceCtorEq, add_zero] at hbhz
      rw [← hbhz]
      apply hframe
      intro e
      cases yp with
      | nil => rfl
      | cons f rest => rw [← (hcol e).2, hcz]; rfl
    · intro e; subst e
      rw [Path.RB_append]
      simp only [if_true] at hyp hbhz
      refine ⟨Path.RB_black (by simpa [← hy.2.1] using hyp), ?_⟩
      rw [← hy.2.1, show 0 + 1 = 1 from rfl, ← hbhz]
      apply hframe
      intro e
      cases yp with
      | nil => rfl
      | cons f rest => rw [← (hcol e).2, hcz]; rfl
    · rw [Path.rootBlack_append]
      cases p with
      | nil => simp [Path.rootBlack, Frame.color, hc0 rfl]
      | cons f rest => exact hrootp
    · intro e; simp at e

/-! ## `insert` -/

theorem zip_insert_descend (cmp : T → T → Int) (zd : T) (t : node T) (p : Path T) :
    zip (insert_descend cmp zd t p) node.nil = zip p t := by
  induction t generalizing p with
  | nil => rfl
  | mk c l a d r ihl ihr =>
      simp only [insert_descend]
      split
      · rw [ihl]; rfl
      · rw [ihr]; rfl

theorem insert_RB (cmp : T → T → Int) (root : node T) (za : Nat) (zd : T) (hrb : root.RB)
    (hroot : root.color = Color.BLACK) :
    ∃ t, insert cmp root za zd = some t ∧ t.RB ∧ t.color = Color.BLACK := by
  unfold insert
  have hz := zip_insert_descend cmp zd root []
  simp only [zip] at hz
  have h1 : (zip (insert_descend cmp zd root []) node.nil).RB := by rw [hz]; exact hrb
  have h2 := (RB_zip.1 h1).2
  apply insert_fixup_RB
  · rfl
  · simp
  · simpa using h2
  · by_cases hp : insert_descend cmp zd root [] = []
    · rw [hp]; trivial
    · exact (color_zip_black hp).1 (by rw [hz]; exact hroot)

theorem entries_insert (cmp : T → T → Int) (root : node T) (za : Nat) (zd : T) (t : node T)
    (h : insert cmp root za zd = some t) :
    t.entries = Path.before (insert_descend cmp zd root []) ++ (za, zd) ::
      Path.after (insert_descend cmp zd root []) ∧
    root.entries = Path.before (insert_descend cmp zd root []) ++
      Path.after (insert_descend cmp zd root []) := by
  unfold insert at h
  constructor
  · rw [entries_insert_fixup _ _ _ h, entries_zip]; simp
  · have hz := congrArg node.entries (zip_insert_descend cmp zd root [])
    rw [entries_zip] at hz
    simpa [zip] using hz.symm

/-! ## The position at which `insert` places the new node -/

theorem TotalPreorderOn.le_of_not_lt {P : T → Prop} {cmp : T → T → Int}
    (h : TotalPreorderOn P cmp) {a b : T} (ha : P a) (hb : P b) (hab : ¬ 0 < cmp a b) :
    0 ≤ cmp b a := by
  have := (h.antisymm b a hb ha)
  have h2 := (h.antisymm a b ha hb)
  omega

theorem TotalPreorderOn.not_lt_of_le {P : T → Prop} {cmp : T → T → Int}
    (h : TotalPreorderOn P cmp) {a b : T} (ha : P a) (hb : P b) (hab : 0 ≤ cmp a b) :
    ¬ 0 < cmp b a := by
  have := (h.antisymm b a hb ha)
  omega

theorem TotalPreorderOn.lt_of_lt_of_le {P : T → Prop} {cmp : T → T → Int}
    (h : TotalPreorderOn P cmp) {a b c : T} (ha : P a) (hb : P b) (hc : P c)
    (hab : 0 < cmp a b) (hbc : 0 ≤ cmp b c) : 0 < cmp a c := by
  by_contra hn
  have h1 := h.le_of_not_lt ha hc hn
  have h2 := h.trans b c a hb hc ha hbc h1
  exact h.not_lt_of_le hb ha h2 hab

theorem TotalPreorderOn.refl {P : T → Prop} {cmp : T → T → Int}
    (h : TotalPreorderOn P cmp) {a : T} (ha : P a) : cmp a a = 0 := by
  have := h.antisymm a a ha ha
  omega

theorem insert_descend_position {P : T → Prop} {cmp : T → T → Int}
    (hcmp : TotalPreorderOn P cmp) (zd : T) (hz : P zd) (t : node T) (p : Path T)
    (hP : ∀ e ∈ t.entries, P e.2) (hs : Ascending cmp t.toList)
    (hb : ∀ e ∈ Path.before p, ¬ 0 < cmp zd e.2)
    (ha : ∀ e ∈ Path.after p, 0 < cmp zd e.2) :
    (∀ e ∈ Path.before (insert_descend cmp zd t p), ¬ 0 < cmp zd e.2) ∧
      (∀ e ∈ Path.after (insert_descend cmp zd t p), 0 < cmp zd e.2) := by
  induction t generalizing p with
  | nil => exact ⟨hb, ha⟩
  | mk c l a d r ihl ihr =>
      simp only [Ascending, node.toList, entries_mk, List.map_append, List.map_cons,
        List.pairwise_append, List.pairwise_cons, List.mem_map, List.mem_cons,
        forall_exists_index, and_imp] at hs
      obtain ⟨hsl, ⟨hdr, hsr⟩, hlr⟩ := hs
      have hPl : ∀ e ∈ l.entries, P e.2 := fun e he => hP e (by simp [he])
      have hPr : ∀ e ∈ r.entries, P e.2 := fun e he => hP e (by simp [he])
      have hPd : P d := hP (a, d) (by simp)
      simp only [insert_descend]
      split
      · rename_i hlt
        apply ihl (Frame.L c a d r :: p) hPl hsl hb
        intro e he
        simp only [Path.after, List.cons_append, List.mem_cons, List.mem_append] at he
        rcases he with rfl | he | he
        · exact hlt
        · exact hcmp.lt_of_lt_of_le hz hPd (hPr e he) hlt (hdr e.2 e he rfl)
        · exact ha e he
      · rename_i hlt
        apply ihr (Frame.R c l a d :: p) hPr hsr _ ha
        intro e he
        simp only [Path.before, List.mem_append, List.mem_singleton] at he
        rcases he with (he | he) | rfl
        · exact hb e he
        · have h1 : 0 ≤ cmp e.2 d := hlr e.2 e he rfl d (Or.inl rfl)
          have h2 : 0 ≤ cmp d zd := hcmp.le_of_not_lt hz hPd hlt
          exact hcmp.not_lt_of_le (hPl e he) hz (hcmp.trans _ _ _ (hPl e he) hPd hz h1 h2)
        · exact hlt

theorem insert_sorted_split {α : Type} (cmp : α → α → Int) (x : α) (l1 l2 : List α)
    (h1 : ∀ e ∈ l1, ¬ 0 < cmp x e) (h2 : ∀ e ∈ l2, 0 < cmp x e) :
    insert_sorted cmp x (l1 ++ l2) = l1 ++ x :: l2 := by
  induction l1 with
  | nil =>
      cases l2 with
      | nil => rfl
      | cons e l => simp [insert_sorted, h2 e (by simp)]
  | cons e l ih =>
      rw [List.cons_append, insert_sorted, if_neg (h1 e (by simp)),
        ih (fun e he => h1 e (by simp [he])), List.cons_append]

theorem entries_insert_sorted {P : T → Prop} {cmp : T → T → Int}
    (hcmp : TotalPreorderOn P cmp) (root : node T) (za : Nat) (zd : T) (t : node T)
    (hz : P zd) (hP : ∀ e ∈ root.entries, P e.2) (hs : Ascending cmp root.toList)
    (h : insert cmp root za zd = some t) :
    t.entries = insert_sorted (entry_cmp cmp) (za, zd) root.entries := by
  obtain ⟨h1, h2⟩ := entries_insert cmp root za zd t h
  obtain ⟨hb, ha⟩ := insert_descend_position hcmp zd hz root [] hP hs
    (by simp [Path.before]) (by simp [Path.after])
  rw [h1, h2, insert_sorted_split (entry_cmp cmp) (za, zd) _ _ hb ha]

/-! ## Sorted insertion on lists -/

theorem mem_insert_sorted {α : Type} (cmp : α → α → Int) (x e : α) (l : List α) :
    e ∈ insert_sorted cmp x l ↔ e = x ∨ e ∈ l := by
  induction l with
  | nil => simp [insert_sorted]
  | cons b l ih =>
      simp only [insert_sorted]
      split
      · simp
      · simp only [List.mem_cons, ih]; tauto

theorem insert_sorted_perm {α : Type} (cmp : α → α → Int) (x : α) (l : List α) :
    (insert_sorted cmp x l).Perm (x :: l) := by
  induction l with
  | nil => simp [insert_sorted]
  | cons b l ih =>
      simp only [insert_sorted]
      split
      · exact List.Perm.refl _
      · exact (List.Perm.cons b ih).trans (List.Perm.swap x b l)

theorem length_insert_sorted {α : Type} (cmp : α → α → Int) (x : α) (l : List α) :
    (insert_sorted cmp x l).length = l.length + 1 := by
  simpa using (insert_sorted_perm cmp x l).length_eq

theorem insert_sorted_ascending {P : T → Prop} {cmp : T → T → Int}
    (hcmp : TotalPreorderOn P cmp) (x : T) (l : List T) (hx : P x)
    (hP : ∀ e ∈ l, P e) (hs : Ascending cmp l) :
    Ascending cmp (insert_sorted cmp x l) := by
  induction l with
  | nil => simp [insert_sorted, Ascending]
  | cons b l ih =>
      have hPb : P b := hP b (by simp)
      have hPl : ∀ e ∈ l, P e := fun e he => hP e (by simp [he])
      simp only [Ascending, List.pairwise_cons] at hs
      simp only [insert_sorted]
      split
      · rename_i hlt
        simp only [Ascending, List.pairwise_cons, List.mem_cons, forall_eq_or_imp]
        refine ⟨⟨by omega, ?_⟩, hs.1, hs.2⟩
        intro e he
        exact le_of_lt (hcmp.lt_of_lt_of_le hx hPb (hPl e he) hlt (hs.1 e he))
      · rename_i hlt
        simp only [Ascending, List.pairwise_cons]
        refine ⟨?_, ih hPl hs.2⟩
        intro e he
        rcases (mem_insert_sorted cmp x e l).1 he with rfl | he2
        · exact hcmp.le_of_not_lt hx hPb hlt
        · exact hs.1 e he2

theorem map_insert_sorted (cmp : T → T → Int) (x : Nat × T) (l : List (Nat × T)) :
    (insert_sorted (entry_cmp cmp) x l).map Prod.snd = insert_sorted cmp x.2 (l.map Prod.snd) := by
  induction l with
  | nil => rfl
  | cons b l ih =>
      simp only [insert_sorted, entry_cmp, List.map_cons]
      split
      · rfl
      · simp [ih]

/-! ## The queue invariants -/

theorem size_eq_length (t : node T) : t.size = t.entries.length := by
  induction t with
  | nil => rfl
  | mk c l a d r ihl ihr => simp [node.size, ihl, ihr]; omega

theorem entries_eq_nil {t : node T} : t.entries = [] ↔ t = node.nil := by
  cases t <;> simp

theorem Inv_new : (priority_queue.new : priority_queue T).Inv :=
  ⟨trivial, rfl, List.nodup_nil, by simp [priority_queue.new, node.addrs], rfl⟩

theorem Ordered_new (P : T → Prop) (cmp : T → T → Int) :
    (priority_queue.new : priority_queue T).Ordered P cmp :=
  ⟨by simp [priority_queue.new], by simp [priority_queue.new, Ascending, node.toList]⟩

/-! ## `push` -/

theorem push_spec (cmp : T → T → Int) (q : priority_queue T) (x : T) (hq : q.Inv) :
    ∃ q2, q.push cmp x = some q2 ∧ q2.Inv ∧ q2.sz = q.sz + 1 ∧ q2.next = q.next + 1 ∧
      ∃ l1 l2, q.root.entries = l1 ++ l2 ∧ q2.root.entries = l1 ++ (q.next, x) :: l2 := by
  obtain ⟨t, ht, hrb, hblack⟩ := insert_RB cmp q.root q.next x hq.rb hq.black
  obtain ⟨h1, h2⟩ := entries_insert cmp q.root q.next x t ht
  refine ⟨⟨t, q.sz + 1, q.next + 1⟩, by simp [priority_queue.push, ht], ?_, rfl, rfl,
    _, _, h2, h1⟩
  have hperm : t.entries.Perm ((q.next, x) :: q.root.entries) := by
    rw [h1, h2]; exact List.perm_middle
  have hperm2 : t.addrs.Perm (q.next :: q.root.addrs) := by
    simpa [node.addrs] using hperm.map Prod.fst
  refine ⟨hrb, hblack, ?_, ?_, ?_⟩
  · rw [hperm2.nodup_iff, List.nodup_cons]
    exact ⟨fun hmem => absurd (hq.fresh _ hmem) (lt_irrefl _), hq.nodup⟩
  · intro a ha
    rcases List.mem_cons.1 (hperm2.mem_iff.1 ha) with rfl | ha2
    · exact Nat.lt_succ_self _
    · exact Nat.lt_succ_of_lt (hq.fresh a ha2)
  · show q.sz + 1 = t.size
    rw [size_eq_length, hperm.length_eq, hq.size, size_eq_length]
    simp

theorem push_ordered {P : T → Prop} {cmp : T → T → Int} (hcmp : TotalPreorderOn P cmp)
    (q : priority_queue T) (x : T) (hq : q.Inv) (ho : q.Ordered P cmp) (hx : P x) :
    ∃ q2, q.push cmp x = some q2 ∧ q2.Inv ∧ q2.Ordered P cmp ∧ q2.sz = q.sz + 1 ∧
      q2.next = q.next + 1 ∧
      q2.root.entries = insert_sorted (entry_cmp cmp) (q.next, x) q.root.entries := by
  obtain ⟨q2, hpush, hinv, hsz, hnext, -⟩ := push_spec cmp q x hq
  have hins : insert cmp q.root q.next x = some q2.root := by
    simp only [priority_queue.push, Option.map_eq_some'] at hpush
    obtain ⟨t, ht, rfl⟩ := hpush
    exact ht
  have he := entries_insert_sorted hcmp q.root q.next x q2.root hx ho.dom ho.asc hins
  refine ⟨q2, hpush, hinv, ⟨?_, ?_⟩, hsz, hnext, he⟩
  · intro e hmem
    rw [he, mem_insert_sorted] at hmem
    rcases hmem with rfl | hmem
    · exact hx
    · exact ho.dom e hmem
  · unfold node.toList
    rw [he, map_insert_sorted]
    exact insert_sorted_ascending hcmp _ _ hx
      (fun e he => by
        obtain ⟨e2, he2, rfl⟩ := List.mem_map.1 he
        exact ho.dom e2 he2) ho.asc

/-! ## `pop`, `top` and `erase` -/

theorem locate_spec (a : Nat) (t : node T) (p p2 : Path T) (n : node T)
    (h : locate a t p = some (p2, n)) :
    ∃ c l d r yp, n = node.mk c l a d r ∧ p2 = yp ++ p ∧ zip yp n = t := by
  induction t generalizing p with
  | nil => simp [locate] at h
  | mk c l b d r ihl ihr =>
      simp only [locate] at h
      split at h
      · rename_i hab
        subst hab
        cases h
        exact ⟨c, l, d, r, [], rfl, rfl, rfl⟩
      · split at h
        · rename_i res hres
          cases h
          obtain ⟨c2, l2, d2, r2, yp, hn, hp2, hz⟩ := ihl _ hres
          exact ⟨c2, l2, d2, r2, yp ++ [Frame.L c b d r], hn, by simp [hp2],
            by rw [zip_append, hz]; rfl⟩
        · obtain ⟨c2, l2, d2, r2, yp, hn, hp2, hz⟩ := ihr _ h
          exact ⟨c2, l2, d2, r2, yp ++ [Frame.R c l b d], hn, by simp [hp2],
            by rw [zip_append, hz]; rfl⟩

theorem locate_isSome (a : Nat) (t : node T) (p : Path T) (ha : a ∈ t.addrs) :
    ∃ res, locate a t p = some res := by
  induction t generalizing p with
  | nil => simp [node.addrs] at ha
  | mk c l b d r ihl ihr =>
      simp only [locate]
      split
      · exact ⟨_, rfl⟩
      · rename_i hab
        simp only [node.addrs, entries_mk, List.map_append, List.map_cons, List.mem_append,
          List.mem_cons] at ha
        rcases ha with ha | ha | ha
        · obtain ⟨res, hres⟩ := ihl (Frame.L c b d r :: p) ha
          rw [hres]; exact ⟨_, rfl⟩
        · exact absurd ha hab
        · cases hl : locate a l (Frame.L c b d r :: p) with
          | some res => exact ⟨_, rfl⟩
          | none => exact ihr _ ha

theorem delete_at_spec (q : priority_queue T) (hq : q.Inv) (p : Path T) (c : Color)
    (l : node T) (a : Nat) (d : T) (r : node T) (hz : zip p (node.mk c l a d r) = q.root) :
    ∃ t, delete_node p (node.mk c l a d r) = some t ∧
      (⟨t, q.sz - 1, q.next⟩ : priority_queue T).Inv ∧
      q.root.entries = (Path.before p ++ l.entries) ++ (a, d) :: (r.entries ++ Path.after p) ∧
      t.entries = (Path.before p ++ l.entries) ++ (r.entries ++ Path.after p) := by
  obtain ⟨t, ht, hrb, hblack⟩ := delete_node_RB p c l a d r (hz ▸ hq.rb) (hz ▸ hq.black)
  have he1 : q.root.entries =
      (Path.before p ++ l.entries) ++ (a, d) :: (r.entries ++ Path.after p) := by
    rw [← hz, entries_zip]; simp
  have he2 : t.entries = (Path.before p ++ l.entries) ++ (r.entries ++ Path.after p) := by
    rw [entries_delete_node p c l a d r t ht]; simp
  have hsub : t.entries.Sublist q.root.entries := by
    rw [he1, he2]
    exact List.Sublist.append_left (List.sublist_cons_self _ _) _
  have hsub2 : t.addrs.Sublist q.root.addrs := hsub.map _
  refine ⟨t, ht, ⟨hrb, hblack, hq.nodup.sublist hsub2, fun b hb => hq.fresh b (hsub2.subset hb),
    ?_⟩, he1, he2⟩
  show q.sz - 1 = t.size
  rw [hq.size, size_eq_length, size_eq_length, he1, he2]
  simp
  omega

theorem min_spec (t : node T) (ht : t ≠ node.nil) :
    ∃ yp c a d r, tree_minimum t [] = some (yp, node.mk c node.nil a d r) ∧
      zip yp (node.mk c node.nil a d r) = t ∧ Path.before yp = [] := by
  obtain ⟨⟨yp, n⟩, hmin⟩ := tree_minimum_isSome t [] ht
  obtain ⟨c, a, d, r, yp2, hn, hp2, hz, hb⟩ := tree_minimum_spec _ _ _ _ hmin
  simp only [List.append_nil] at hp2
  subst hp2 hn
  exact ⟨yp, c, a, d, r, hmin, hz, hb⟩

theorem root_ne_nil_of_sz (q : priority_queue T) (hq : q.Inv) (h : q.sz ≠ 0) :
    q.root ≠ node.nil := by
  intro e
  rw [hq.size, e] at h
  exact h rfl

theorem top_spec (q : priority_queue T) (hq : q.Inv) (h : q.sz ≠ 0) :
    ∃ a d rest, q.root.entries = (a, d) :: rest ∧ q.top = some d := by
  obtain ⟨yp, c, a, d, r, hmin, hz, hb⟩ := min_spec q.root (root_ne_nil_of_sz q hq h)
  refine ⟨a, d, r.entries ++ Path.after yp, ?_, by simp [priority_queue.top, hmin]⟩
  rw [← hz, entries_zip, hb]
  simp

theorem pop_spec (q : priority_queue T) (hq : q.Inv) (h : q.sz ≠ 0) :
    ∃ q2, q.pop = some q2 ∧ q2.Inv ∧ q2.root.entries = q.root.entries.tail ∧
      q2.sz = q.sz - 1 ∧ q2.next = q.next := by
  obtain ⟨yp, c, a, d, r, hmin, hz, hb⟩ := min_spec q.root (root_ne_nil_of_sz q hq h)
  obtain ⟨t, ht, hinv, he1, he2⟩ := delete_at_spec q hq yp c node.nil a d r hz
  refine ⟨⟨t, q.sz - 1, q.next⟩, by simp [priority_queue.pop, h, hmin, ht], hinv, ?_, rfl, rfl⟩
  show t.entries = q.root.entries.tail
  rw [he1, he2, hb]
  simp

theorem pop_empty (q : priority_queue T) (h : q.sz = 0) : q.pop = some q := by
  simp [priority_queue.pop, h]

theorem erase_spec (q : priority_queue T) (hq : q.Inv) (a : Nat) (d0 : T)
    (ha : a ∈ q.root.addrs) :
    ∃ q2 l1 d l2, q.erase ⟨some ⟨a, d0⟩⟩ = some q2 ∧ q2.Inv ∧
      q.root.entries = l1 ++ (a, d) :: l2 ∧ q2.root.entries = l1 ++ l2 ∧
      q2.sz = q.sz - 1 ∧ q2.next = q.next := by
  obtain ⟨⟨p, n⟩, hloc⟩ := locate_isSome a q.root [] ha
  obtain ⟨c, l, d, r, yp, hn, hp2, hz⟩ := locate_spec _ _ _ _ _ hloc
  simp only [List.append_nil] at hp2
  subst hp2 hn
  obtain ⟨t, ht, hinv, he1, he2⟩ := delete_at_spec q hq p c l a d r hz
  have hsz : q.sz ≠ 0 := by
    rw [hq.size, size_eq_length, he1]; simp
  refine ⟨⟨t, q.sz - 1, q.next⟩, _, d, _, ?_, hinv, he1, he2, rfl, rfl⟩
  simp [priority_queue.erase, hloc, ht, hsz]

/-! ## Cursors: `begin`, `++` and the iteration sequence -/

theorem successor_climb_spec (p : Path T) (n : node T) :
    (match successor_climb p n with
      | some res => ⟨res.2.ptr⟩
      | none => priority_queue.end_) = cursor_at (Path.after p) := by
  induction p generalizing n with
  | nil => rfl
  | cons f rest ih =>
      cases f with
      | L c a d r => rfl
      | R c l a d => simpa [successor_climb, Path.after] using ih _

theorem successor_spec (p : Path T) (c : Color) (l : node T) (a : Nat) (d : T) (r : node T) :
    (match successor p (node.mk c l a d r) with
      | some res => ⟨res.2.ptr⟩
      | none => priority_queue.end_) = cursor_at (r.entries ++ Path.after p) := by
  cases r with
  | nil => simpa [successor] using successor_climb_spec p _
  | mk rc rl ra rd rr =>
      obtain ⟨⟨yp, n⟩, hmin⟩ :=
        tree_minimum_isSome (node.mk rc rl ra rd rr) (Frame.R c l a d :: p) (by simp)
      obtain ⟨c2, a2, d2, r2, yp2, hn, hp2, hz, hb⟩ := tree_minimum_spec _ _ _ _ hmin
      subst hn
      simp only [successor, hmin]
      have he := congrArg node.entries hz
      rw [entries_zip, hb] at he
      rw [← he]
      rfl

theorem split_unique {l1 l2 m1 m2 : List (Nat × T)} {a : Nat} {d d2 : T}
    (h : l1 ++ (a, d) :: l2 = m1 ++ (a, d2) :: m2)
    (hn : ((l1 ++ (a, d) :: l2).map Prod.fst).Nodup) : l1 = m1 ∧ d = d2 ∧ l2 = m2 := by
  induction l1 generalizing m1 with
  | nil =>
      cases m1 with
      | nil => simp at h; exact ⟨rfl, h.1, h.2⟩
      | cons e m =>
          simp only [List.nil_append, List.cons_append, List.cons.injEq] at h
          obtain ⟨he, hl⟩ := h
          subst he hl
          simp at hn
  | cons e l ih =>
      cases m1 with
      | nil =>
          simp only [List.nil_append, List.cons_append, List.cons.injEq] at h
          obtain ⟨he, hl⟩ := h
          subst he
          simp at hn
      | cons e2 m =>
          simp only [List.cons_append, List.cons.injEq] at h
          obtain ⟨he, hl⟩ := h
          subst he
          simp only [List.cons_append, List.map_cons, List.nodup_cons] at hn
          obtain ⟨h1, h2, h3⟩ := ih hl hn.2
          exact ⟨by rw [h1], h2, h3⟩

theorem incr_spec (q : priority_queue T) (hq : q.Inv) (l1 l2 : List (Nat × T)) (a : Nat)
    (d : T) (he : q.root.entries = l1 ++ (a, d) :: l2) :
    q.incr ⟨some ⟨a, d⟩⟩ = some (cursor_at l2) := by
  have ha : a ∈ q.root.addrs := by simp [node.addrs, he]
  obtain ⟨⟨p, n⟩, hloc⟩ := locate_isSome a q.root [] ha
  obtain ⟨c, l, d2, r, yp, hn, hp2, hz⟩ := locate_spec _ _ _ _ _ hloc
  simp only [List.append_nil] at hp2
  subst hp2 hn
  have he2 : q.root.entries =
      (Path.before p ++ l.entries) ++ (a, d2) :: (r.entries ++ Path.after p) := by
    rw [← hz, entries_zip]; simp
  have hnd : ((l1 ++ (a, d) :: l2).map Prod.fst).Nodup := by
    rw [← he]; exact hq.nodup
  obtain ⟨-, -, h3⟩ := split_unique (he.symm.trans he2) hnd
  simp only [priority_queue.incr, hloc, Option.map_some', Option.some.injEq]
  exact (successor_spec p c l a d2 r).trans (by rw [h3])

theorem begin_spec (q : priority_queue T) : q.begin = cursor_at q.root.entries := by
  unfold priority_queue.begin
  split
  · rename_i h; rw [h]; rfl
  · rename_i c l a d r h
    obtain ⟨yp, c2, a2, d2, r2, hmin, hz, hb⟩ := min_spec (node.mk c l a d r) (by simp)
    rw [hmin, h, ← hz, entries_zip, hb]
    rfl

theorem iterate_from_spec (q : priority_queue T) (hq : q.Inv) (l1 l2 : List (Nat × T))
    (he : q.root.entries = l1 ++ l2) (fuel : Nat) (hf : l2.length ≤ fuel) :
    priority_queue.iterate_from q fuel (cursor_at l2) = some (l2.map Prod.snd) := by
  induction l2 generalizing l1 fuel with
  | nil => cases fuel <;> rfl
  | cons e l ih =>
      cases fuel with
      | zero => simp at hf
      | succ n =>
          have hi := incr_spec q hq l1 l e.1 e.2 he
          have hrec := ih (l1 ++ [e]) (by simp [he]) n (by simpa using hf)
          show priority_queue.iterate_from q (n + 1) ⟨some ⟨e.1, e.2⟩⟩ = _
          simp only [priority_queue.iterate_from, hi, Option.some_bind, hrec,
            Option.map_some', List.map_cons]

theorem iterate_spec (q : priority_queue T) (hq : q.Inv) :
    q.iterate = some q.root.toList := by
  unfold priority_queue.iterate
  rw [begin_spec]
  exact iterate_from_spec q hq [] _ rfl _ (by rw [size_eq_length]; omega)

/-! ## `search` -/

theorem search_from_sound (cmp : T → T → Int) (x : T) (t : node T) (c : node_ptr T)
    (h : priority_queue.search_from cmp x t = ⟨some c⟩) :
    (c.addr, c.data) ∈ t.entries ∧ cmp x c.data = 0 := by
  induction t with
  | nil => simp [priority_queue.search_from, priority_queue.end_] at h
  | mk co l a d r ihl ihr =>
      simp only [priority_queue.search_from] at h
      split at h
      · rename_i h0
        simp only [RBIterator.mk.injEq, Option.some.injEq] at h
        subst h
        exact ⟨by simp, h0⟩
      · split at h
        · have := ihr h
          exact ⟨by simp [this.1], this.2⟩
        · have := ihl h
          exact ⟨by simp [this.1], this.2⟩

theorem TotalPreorderOn.symm_zero {P : T → Prop} {cmp : T → T → Int}
    (h : TotalPreorderOn P cmp) {a b : T} (ha : P a) (hb : P b) (hab : cmp a b = 0) :
    cmp b a = 0 := by
  have h1 := h.antisymm a b ha hb
  have h2 := h.antisymm b a hb ha
  omega

theorem search_from_complete {P : T → Prop} {cmp : T → T → Int}
    (hcmp : TotalPreorderOn P cmp) (x : T) (hx : P x) (t : node T)
    (hP : ∀ e ∈ t.entries, P e.2) (hs : Ascending cmp t.toList)
    (hex : ∃ e ∈ t.entries, cmp x e.2 = 0) :
    priority_queue.search_from cmp x t ≠ priority_queue.end_ := by
  induction t with
  | nil => simp at hex
  | mk c l a d r ihl ihr =>
      simp only [Ascending, node.toList, entries_mk, List.map_append, List.map_cons,
        List.pairwise_append, List.pairwise_cons, List.mem_map, List.mem_cons,
        forall_exists_index, and_imp] at hs
      obtain ⟨hsl, ⟨hdr, hsr⟩, hlr⟩ := hs
      have hPl : ∀ e ∈ l.entries, P e.2 := fun e he => hP e (by simp [he])
      have hPr : ∀ e ∈ r.entries, P e.2 := fun e he => hP e (by simp [he])
      have hPd : P d := hP (a, d) (by simp)
      obtain ⟨e, he, hxe⟩ := hex
      simp only [entries_mk, List.mem_append, List.mem_cons] at he
      simp only [priority_queue.search_from]
      split
      · simp [priority_queue.end_]
      · rename_i h0
        split
        · rename_i hneg
          apply ihr hPr hsr
          rcases he with he | rfl | he
          · exfalso
            have h1 : 0 ≤ cmp e.2 d := hlr e.2 e he rfl d (Or.inl rfl)
            have h2 := hcmp.trans x e.2 d hx (hPl e he) hPd (by omega) h1
            omega
          · exact absurd hxe h0
          · exact ⟨e, he, hxe⟩
        · rename_i hneg
          apply ihl hPl hsl
          rcases he with he | rfl | he
          · exact ⟨e, he, hxe⟩
          · exact absurd hxe h0
          · exfalso
            have h1 : 0 ≤ cmp d e.2 := hdr e.2 e he rfl
            have h3 := hcmp.symm_zero hx (hPr e he) hxe
            have h2 := hcmp.trans d e.2 x hPd (hPr e he) hx h1 (by omega)
            exact hcmp.not_lt_of_le hPd hx h2 (by omega)

/-! ## The reference stable sort -/

theorem stable_sort_snoc {α : Type} (cmp : α → α → Int) (l : List α) (x : α) :
    stable_sort cmp (l ++ [x]) = insert_sorted cmp x (stable_sort cmp l) := by
  simp [stable_sort, List.foldl_append]

theorem stable_sort_perm {α : Type} (cmp : α → α → Int) (l : List α) :
    (stable_sort cmp l).Perm l := by
  induction l using List.reverseRecOn with
  | nil => exact List.Perm.refl _
  | append_singleton l x ih =>
      rw [stable_sort_snoc]
      exact (insert_sorted_perm cmp x _).trans
        ((List.Perm.cons x ih).trans (List.perm_append_singleton x l).symm)

theorem mem_stable_sort {α : Type} (cmp : α → α → Int) (l : List α) (e : α) :
    e ∈ stable_sort cmp l ↔ e ∈ l :=
  (stable_sort_perm cmp l).mem_iff

theorem stable_sort_ascending {P : T → Prop} {cmp : T → T → Int}
    (hcmp : TotalPreorderOn P cmp) (l : List T) (hP : ∀ e ∈ l, P e) :
    Ascending cmp (stable_sort cmp l) := by
  induction l using List.reverseRecOn with
  | nil => simp [stable_sort, Ascending]
  | append_singleton l x ih =>
      rw [stable_sort_snoc]
      have hPl : ∀ e ∈ l, P e := fun e he => hP e (by simp [he])
      exact insert_sorted_ascending hcmp x _ (hP x (by simp))
        (fun e he => hPl e ((mem_stable_sort cmp l e).1 he)) (ih hPl)

theorem exists_split {P : T → Prop} {cmp : T → T → Int} (hcmp : TotalPreorderOn P cmp)
    (x : T) (l : List T) (hx : P x) (hP : ∀ e ∈ l, P e) (hs : Ascending cmp l) :
    ∃ l1 l2, l = l1 ++ l2 ∧ (∀ e ∈ l1, ¬ 0 < cmp x e) ∧ (∀ e ∈ l2, 0 < cmp x e) := by
  induction l with
  | nil => exact ⟨[], [], rfl, by simp, by simp⟩
  | cons b l ih =>
      have hPb : P b := hP b (by simp)
      have hPl : ∀ e ∈ l, P e := fun e he => hP e (by simp [he])
      simp only [Ascending, List.pairwise_cons] at hs
      by_cases hlt : 0 < cmp x b
      · refine ⟨[], b :: l, rfl, by simp, ?_⟩
        intro e he
        rcases List.mem_cons.1 he with rfl | he
        · exact hlt
        · exact hcmp.lt_of_lt_of_le hx hPb (hPl e he) hlt (hs.1 e he)
      · obtain ⟨l1, l2, h1, h2, h3⟩ := ih hPl hs.2
        refine ⟨b :: l1, l2, by simp [h1], ?_, h3⟩
        intro e he
        rcases List.mem_cons.1 he with rfl | he
        · exact hlt
        · exact h2 e he

theorem filter_insert_sorted {P : T → Prop} {cmp : T → T → Int}
    (hcmp : TotalPreorderOn P cmp) (p : T → Bool) (x : T) (l : List T) (hx : P x)
    (hP : ∀ e ∈ l, P e) (hs : Ascending cmp l) :
    (insert_sorted cmp x l).filter p =
      if p x then insert_sorted cmp x (l.filter p) else l.filter p := by
  obtain ⟨l1, l2, h1, h2, h3⟩ := exists_split hcmp x l hx hP hs
  subst h1
  rw [insert_sorted_split cmp x l1 l2 h2 h3]
  split
  · rename_i hpx
    rw [List.filter_append, List.filter_append, insert_sorted_split cmp x _ _
      (fun e he => h2 e (List.mem_filter.1 he).1) (fun e he => h3 e (List.mem_filter.1 he).1)]
    simp [List.filter_cons, hpx]
  · rename_i hpx
    simp [List.filter_cons, hpx]

theorem filter_stable_sort {P : T → Prop} {cmp : T → T → Int}
    (hcmp : TotalPreorderOn P cmp) (p : T → Bool) (l : List T) (hP : ∀ e ∈ l, P e) :
    (stable_sort cmp l).filter p = stable_sort cmp (l.filter p) := by
  induction l using List.reverseRecOn with
  | nil => rfl
  | append_singleton l x ih =>
      have hPl : ∀ e ∈ l, P e := fun e he => hP e (by simp [he])
      rw [stable_sort_snoc, filter_insert_sorted hcmp p x _ (hP x (by simp))
        (fun e he => hPl e ((mem_stable_sort cmp l e).1 he)) (stable_sort_ascending hcmp l hPl),
        ih hPl, List.filter_append]
      by_cases hpx : p x
      · simp [hpx, List.filter_cons, stable_sort_snoc]
      · simp [hpx, List.filter_cons]

theorem TotalPreorderOn.entry {P : T → Prop} {cmp : T → T → Int}
    (hcmp : TotalPreorderOn P cmp) :
    TotalPreorderOn (fun e : Nat × T => P e.2) (entry_cmp cmp) :=
  ⟨fun a b ha hb => hcmp.antisymm a.2 b.2 ha hb,
    fun a b c ha hb hc => hcmp.trans a.2 b.2 c.2 ha hb hc⟩

theorem ascending_entry (cmp : T → T → Int) (l : List (Nat × T)) :
    Ascending (entry_cmp cmp) l ↔ Ascending cmp (l.map Prod.snd) := by
  simp [Ascending, List.pairwise_map, entry_cmp]

theorem map_stable_sort (cmp : T → T → Int) (l : List (Nat × T)) :
    (stable_sort (entry_cmp cmp) l).map Prod.snd = stable_sort cmp (l.map Prod.snd) := by
  induction l using List.reverseRecOn with
  | nil => rfl
  | append_singleton l x ih =>
      rw [stable_sort_snoc, map_insert_sorted, ih, List.map_append, List.map_singleton,
        stable_sort_snoc]

theorem filter_split_nodup (l1 l2 : List (Nat × T)) (a : Nat) (d : T)
    (hn : ((l1 ++ (a, d) :: l2).map Prod.fst).Nodup) :
    (l1 ++ (a, d) :: l2).filter (fun s => s.1 ≠ a) = l1 ++ l2 := by
  have hn2 := hn
  simp only [List.map_append, List.map_cons] at hn2
  have hnot1 : ∀ e ∈ l1, e.1 ≠ a := by
    intro e he hea
    exact (List.nodup_append.1 hn2).2.2 (List.mem_map_of_mem Prod.fst he)
      (hea ▸ List.mem_cons_self _ _)
  have hnot2 : ∀ e ∈ l2, e.1 ≠ a := by
    intro e he hea
    have h3 := (List.nodup_cons.1 (List.nodup_append.1 hn2).2.1).1
    exact h3 (hea ▸ List.mem_map_of_mem Prod.fst he)
  rw [List.filter_append, List.filter_cons]
  simp only [ne_eq, not_true_eq_false, decide_False, Bool.false_eq_true, if_false]
  rw [List.filter_eq_self.2, List.filter_eq_self.2]
  · intro e he
    simpa using hnot2 e he
  · intro e he
    simpa using hnot1 e he

/-! ## The queue implements the reference model -/

theorem Refines.ordered {P : T → Prop} {cmp : T → T → Int} {q : priority_queue T}
    {r : RefModel T} (hcmp : TotalPreorderOn P cmp) (h : Refines P cmp q r) :
    q.Ordered P cmp := by
  constructor
  · intro e he
    rw [h.entries, mem_stable_sort] at he
    exact h.dom e he
  · unfold node.toList
    rw [h.entries, ← ascending_entry]
    exact stable_sort_ascending hcmp.entry r.stored h.dom

theorem Refines_new (P : T → Prop) (cmp : T → T → Int) :
    Refines P cmp (priority_queue.new : priority_queue T) RefModel.new :=
  ⟨Inv_new, rfl, rfl, by simp [RefModel.new], by simp [RefModel.new],
    by simp [RefModel.new]⟩

theorem Refines.size {P : T → Prop} {cmp : T → T → Int} {q : priority_queue T}
    {r : RefModel T} (h : Refines P cmp q r) : q.sz = r.stored.length := by
  rw [h.inv.size, size_eq_length, h.entries, (stable_sort_perm _ _).length_eq]

theorem Refines.addrs {P : T → Prop} {cmp : T → T → Int} {q : priority_queue T}
    {r : RefModel T} (h : Refines P cmp q r) (a : Nat) :
    a ∈ q.root.addrs ↔ a ∈ r.stored.map Prod.fst := by
  unfold node.addrs
  rw [h.entries]
  exact ((stable_sort_perm _ _).map _).mem_iff

theorem refines_push {P : T → Prop} {cmp : T → T → Int} (hcmp : TotalPreorderOn P cmp)
    {q : priority_queue T} {r : RefModel T} (h : Refines P cmp q r) (x : T) (hx : P x) :
    ∃ q2, q.push cmp x = some q2 ∧
      Refines P cmp q2 ⟨r.stored ++ [(r.next, x)], r.next + 1⟩ := by
  obtain ⟨q2, hpush, hinv, -, -, hnext, he⟩ :=
    push_ordered hcmp q x h.inv (h.ordered hcmp) hx
  refine ⟨q2, hpush, hinv, ?_, by rw [hnext, h.next], ?_, ?_, ?_⟩
  · rw [he, h.entries, h.next, stable_sort_snoc]
  · intro e he2
    rcases List.mem_append.1 he2 with he3 | he3
    · exact h.dom e he3
    · simp only [List.mem_singleton] at he3; subst he3; exact hx
  · intro e he2
    rcases List.mem_append.1 he2 with he3 | he3
    · exact Nat.lt_succ_of_lt (h.fresh e he3)
    · simp only [List.mem_singleton] at he3; subst he3; exact Nat.lt_succ_self _
  · simp only [List.map_append, List.map_cons, List.map_nil, List.pairwise_append,
      List.pairwise_cons, List.mem_singleton, List.mem_map, forall_exists_index, and_imp]
    refine ⟨h.order, ⟨by simp, List.Pairwise.nil⟩, ?_⟩
    intro a e he2 hea b hb
    subst hea hb
    exact h.fresh e he2

theorem refines_remove {P : T → Prop} {cmp : T → T → Int} (hcmp : TotalPreorderOn P cmp)
    {q q2 : priority_queue T} {r : RefModel T} (h : Refines P cmp q r) (hinv : q2.Inv)
    (l1 l2 : List (Nat × T)) (a : Nat) (d : T) (he1 : q.root.entries = l1 ++ (a, d) :: l2)
    (he2 : q2.root.entries = l1 ++ l2) (hnext : q2.next = q.next) :
    Refines P cmp q2 ⟨r.stored.filter (fun s => s.1 ≠ a), r.next⟩ := by
  refine ⟨hinv, ?_, by rw [hnext, h.next], ?_, ?_, ?_⟩
  · have hn : ((l1 ++ (a, d) :: l2).map Prod.fst).Nodup := by rw [← he1]; exact h.inv.nodup
    rw [he2, ← filter_split_nodup l1 l2 a d hn, ← he1, h.entries]
    exact filter_stable_sort hcmp.entry _ r.stored h.dom
  · intro e he
    exact h.dom e (List.mem_filter.1 he).1
  · intro e he
    exact h.fresh e (List.mem_filter.1 he).1
  · exact h.order.sublist ((List.filter_sublist _).map _)

theorem locate_mem (a : Nat) (t : node T) (p : Path T) (res : Path T × node T)
    (h : locate a t p = some res) : a ∈ t.addrs := by
  obtain ⟨c, l, d, r, yp, hn, -, hz⟩ := locate_spec a t p res.1 res.2 h
  rw [← hz, hn]
  simp [node.addrs, entries_zip]

theorem refines_step {P : T → Prop} {cmp : T → T → Int} (hcmp : TotalPreorderOn P cmp)
    {q : priority_queue T} {r : RefModel T} (h : Refines P cmp q r) (o : Op T)
    (ho : ∀ x, o = Op.push x → P x) :
    (∀ r2, r.step cmp o = some r2 → ∃ q2, q.step cmp o = some q2 ∧ Refines P cmp q2 r2) ∧
      (r.step cmp o = none → q.step cmp o = none) := by
  cases o with
  | push x =>
      refine ⟨?_, by simp [RefModel.step]⟩
      intro r2 hr
      simp only [RefModel.step, Option.some.injEq] at hr
      subst hr
      exact refines_push hcmp h x (ho x rfl)
  | search x =>
      refine ⟨?_, by simp [RefModel.step]⟩
      intro r2 hr
      simp only [RefModel.step, Option.some.injEq] at hr
      subst hr
      exact ⟨q, rfl, h⟩
  | pop =>
      have hnone : ¬ r.step cmp Op.pop = none := by
        simp only [RefModel.step]; split <;> simp
      refine ⟨?_, fun hn => absurd hn hnone⟩
      intro r2 hr
      simp only [RefModel.step] at hr
      split at hr
      · rename_i hnil
        cases hr
        refine ⟨q, ?_, h⟩
        have : q.sz = 0 := by
          rw [h.inv.size, size_eq_length, h.entries, hnil]; rfl
        exact pop_empty q this
      · rename_i e rest hcons
        cases hr
        have hsz : q.sz ≠ 0 := by
          rw [h.inv.size, size_eq_length, h.entries, hcons]; simp
        obtain ⟨q2, hpop, hinv, he, -, hnext⟩ := pop_spec q h.inv hsz
        refine ⟨q2, hpop, ?_⟩
        have he1 : q.root.entries = [] ++ (e.1, e.2) :: rest := by
          rw [h.entries, hcons]; rfl
        exact refines_remove hcmp h hinv [] rest e.1 e.2 he1 (by rw [he, he1]; rfl) hnext
  | erase it =>
      cases hc : it.current with
      | none => simp [RefModel.step, priority_queue.step, priority_queue.erase, hc]
      | some p =>
          simp only [RefModel.step, hc, priority_queue.step]
          split
          · rename_i hmem
            refine ⟨?_, by simp⟩
            intro r2 hr
            cases hr
            obtain ⟨q2, l1, d, l2, hera, hinv, he1, he2, -, hnext⟩ :=
              erase_spec q h.inv p.addr p.data ((h.addrs _).2 hmem)
            refine ⟨q2, ?_, refines_remove hcmp h hinv l1 l2 p.addr d he1 he2 hnext⟩
            rw [← hera]
            congr 1
            cases it
            simp only at hc
            subst hc
            rfl
          · rename_i hmem
            refine ⟨by simp, fun _ => ?_⟩
            have hna : p.addr ∉ q.root.addrs := fun hx => hmem ((h.addrs _).1 hx)
            simp only [priority_queue.erase, hc]
            cases hl : locate p.addr q.root [] with
            | none => rfl
            | some res => exact absurd (locate_mem _ _ _ _ hl) hna

/-! ## Sequences of operations -/

theorem refines_run {P : T → Prop} {cmp : T → T → Int} (hcmp : TotalPreorderOn P cmp)
    (ops : List (Op T)) (hops : pushes_in P ops) {q : priority_queue T} {r : RefModel T}
    (h : Refines P cmp q r) :
    (∀ r2, r.run cmp ops = some r2 → ∃ q2, q.run cmp ops = some q2 ∧ Refines P cmp q2 r2) ∧
      (r.run cmp ops = none → q.run cmp ops = none) := by
  induction ops generalizing q r with
  | nil =>
      refine ⟨?_, by simp [RefModel.run]⟩
      intro r2 hr
      simp only [RefModel.run, Option.some.injEq] at hr
      subst hr
      exact ⟨q, rfl, h⟩
  | cons o os ih =>
      have ho : ∀ x, o = Op.push x → P x := fun x hx => hops x (by simp [hx])
      have hos : pushes_in P os := fun x hx => hops x (by simp [hx])
      obtain ⟨hs1, hs2⟩ := refines_step hcmp h o ho
      simp only [RefModel.run, priority_queue.run]
      cases hr : r.step cmp o with
      | none => simp [hs2 hr]
      | some r1 =>
          obtain ⟨q1, hq1, href⟩ := hs1 r1 hr
          simp only [hq1, Option.some_bind]
          exact ih hos href

theorem push_all_spec {P : T → Prop} {cmp : T → T → Int} (hcmp : TotalPreorderOn P cmp)
    (xs : List T) (hxs : ∀ x ∈ xs, P x) (q : priority_queue T) (hq : q.Inv)
    (ho : q.Ordered P cmp) :
    ∃ q2, push_all cmp q xs = some q2 ∧ q2.Inv ∧ q2.Ordered P cmp ∧
      q2.root.toList.Perm (q.root.toList ++ xs) ∧ q2.sz = q.sz + xs.length := by
  induction xs generalizing q with
  | nil => exact ⟨q, rfl, hq, ho, by simp, rfl⟩
  | cons x xs ih =>
      obtain ⟨q1, hpush, hinv, hord, hsz, -, he⟩ :=
        push_ordered hcmp q x hq ho (hxs x (by simp))
      obtain ⟨q2, hall, hinv2, hord2, hperm, hsz2⟩ :=
        ih (fun y hy => hxs y (by simp [hy])) q1 hinv hord
      refine ⟨q2, by simp [push_all, hpush, hall], hinv2, hord2, ?_, ?_⟩
      · refine hperm.trans ?_
        have h1 : q1.root.toList.Perm (x :: q.root.toList) := by
          unfold node.toList
          rw [he]
          simpa using (insert_sorted_perm (entry_cmp cmp) (q.next, x) q.root.entries).map Prod.snd
        exact (List.Perm.append_right xs h1).trans (by simpa using List.perm_middle.symm)
      · rw [hsz2, hsz]; simp; omega

theorem drain_spec (fuel : Nat) (q : priority_queue T) (hq : q.Inv) (hf : q.sz ≤ fuel) :
    drain fuel q = some q.root.toList := by
  induction fuel generalizing q with
  | zero =>
      have h0 : q.sz = 0 := by omega
      have hnil : q.root.entries = [] := by
        apply List.eq_nil_of_length_eq_zero
        rw [← size_eq_length, ← hq.size, h0]
      simp [drain, priority_queue.empty, h0, node.toList, hnil]
  | succ n ih =>
      by_cases h0 : q.sz = 0
      · have hnil : q.root.entries = [] := by
          apply List.eq_nil_of_length_eq_zero
          rw [← size_eq_length, ← hq.size, h0]
        simp [drain, priority_queue.empty, h0, node.toList, hnil]
      · obtain ⟨a, d, rest, he, htop⟩ := top_spec q hq h0
        obtain ⟨q2, hpop, hinv, he2, hsz, -⟩ := pop_spec q hq h0
        have hrec := ih q2 hinv (by omega)
        simp [drain, priority_queue.empty, h0, htop, hpop, hrec, node.toList, he, he2]

/-- C1: for every comparator that is a total preorder and every list of elements, pushing the
elements (in the order of the list, which is arbitrary) into an empty queue succeeds, and then
reading `top()` and calling `pop()` until `empty()` terminates and yields a permutation of the
pushed elements in which `cmp(earlier, later) ≥ 0` for every two consecutive outputs (and for
every two outputs). -/
theorem C1_push_then_pop_sorted (cmp : T → T → Int)
    (hcmp : TotalPreorderOn (fun _ => True) cmp) (xs : List T) :
    ∃ q out, push_all cmp priority_queue.new xs = some q ∧ drain xs.length q = some out ∧
      out.Perm xs ∧ out.Chain' (fun a b => 0 ≤ cmp a b) ∧ Ascending cmp out := by
  obtain ⟨q, hall, hinv, hord, hperm, hsz⟩ :=
    push_all_spec hcmp xs (fun _ _ => trivial) priority_queue.new Inv_new (Ordered_new _ cmp)
  refine ⟨q, q.root.toList, hall, ?_, ?_, ?_, hord.asc⟩
  · exact drain_spec _ q hinv (by rw [hsz]; simp [priority_queue.new])
  · simpa [priority_queue.new, node.toList] using hperm
  · exact List.Pairwise.chain' hord.asc

theorem C1_witness :
    TotalPreorderOn (fun _ => True) (fun a b : Int => b - a) ∧
      ∃ q out, push_all (fun a b : Int => b - a) priority_queue.new [3, 1, 2] = some q ∧
        drain [(3 : Int), 1, 2].length q = some out ∧ out.Perm [3, 1, 2] ∧
        out.Chain' (fun a b => 0 ≤ (fun a b : Int => b - a) a b) ∧
        Ascending (fun a b : Int => b - a) out :=
  ⟨⟨fun a b _ _ => by constructor <;> intro h <;> omega, fun a b c _ _ _ h1 h2 => by omega⟩,
    C1_push_then_pop_sorted (fun a b : Int => b - a)
      ⟨fun a b _ _ => by constructor <;> intro h <;> omega, fun a b c _ _ _ h1 h2 => by omega⟩
      [3, 1, 2]⟩

/-! ## Reachable states -/

theorem erase_result (q q2 : priority_queue T) (hq : q.Inv) (it : RBIterator T)
    (h : q.erase it = some q2) :
    ∃ p l1 d l2, it.current = some p ∧ q2.Inv ∧ q.root.entries = l1 ++ (p.addr, d) :: l2 ∧
      q2.root.entries = l1 ++ l2 ∧ q2.sz = q.sz - 1 ∧ q2.next = q.next := by
  cases hc : it.current with
  | none => simp [priority_queue.erase, hc] at h
  | some p =>
      have hit : it = ⟨some p⟩ := by cases it; simp only at hc; subst hc; rfl
      subst hit
      have hmem : p.addr ∈ q.root.addrs := by
        simp only [priority_queue.erase] at h
        cases hl : locate p.addr q.root [] with
        | none => simp [hl] at h
        | some res => exact locate_mem _ _ _ _ hl
      obtain ⟨q3, l1, d, l2, hera, hinv, he1, he2, hsz, hnext⟩ :=
        erase_spec q hq p.addr p.data hmem
      have : q2 = q3 := by
        have h2 : q.erase ⟨some p⟩ = some q3 := hera
        rw [h] at h2
        exact Option.some.inj h2
      subst this
      exact ⟨p, l1, d, l2, rfl, hinv, he1, he2, hsz, hnext⟩

theorem step_inv (cmp : T → T → Int) (q q2 : priority_queue T) (o : Op T) (hq : q.Inv)
    (h : q.step cmp o = some q2) : q2.Inv := by
  cases o with
  | push x =>
      obtain ⟨q3, hpush, hinv, -⟩ := push_spec cmp q x hq
      simp only [priority_queue.step, hpush, Option.some.injEq] at h
      exact h ▸ hinv
  | pop =>
      simp only [priority_queue.step] at h
      by_cases h0 : q.sz = 0
      · rw [pop_empty q h0] at h
        exact (Option.some.inj h) ▸ hq
      · obtain ⟨q3, hpop, hinv, -⟩ := pop_spec q hq h0
        rw [hpop] at h
        exact (Option.some.inj h) ▸ hinv
  | erase it =>
      obtain ⟨p, l1, d, l2, -, hinv, -⟩ := erase_result q q2 hq it h
      exact hinv
  | search x =>
      simp only [priority_queue.step, Option.some.injEq] at h
      exact h ▸ hq

theorem run_inv (cmp : T → T → Int) (ops : List (Op T)) (q q2 : priority_queue T)
    (hq : q.Inv) (h : q.run cmp ops = some q2) : q2.Inv := by
  induction ops generalizing q with
  | nil =>
      simp only [priority_queue.run, Option.some.injEq] at h
      exact h ▸ hq
  | cons o os ih =>
      simp only [priority_queue.run] at h
      cases hs : q.step cmp o with
      | none => simp [hs] at h
      | some q1 =>
          rw [hs] at h
          exact ih q1 (step_inv cmp q q1 o hq hs) h

theorem run_refines {P : T → Prop} {cmp : T → T → Int} (hcmp : TotalPreorderOn P cmp)
    (ops : List (Op T)) (hops : pushes_in P ops) (q : priority_queue T)
    (h : priority_queue.new.run cmp ops = some q) :
    ∃ r, RefModel.new.run cmp ops = some r ∧ Refines P cmp q r := by
  obtain ⟨h1, h2⟩ := refines_run hcmp ops hops (Refines_new P cmp)
  cases hr : (RefModel.new : RefModel T).run cmp ops with
  | none => rw [h2 hr] at h; cases h
  | some r =>
      obtain ⟨q2, hq2, href⟩ := h1 r hr
      rw [h] at hq2
      exact ⟨r, rfl, (Option.some.inj hq2) ▸ href⟩

theorem nodup_fst_unique {l : List (Nat × T)} (hn : (l.map Prod.fst).Nodup) {a : Nat}
    {d d2 : T} (h1 : (a, d) ∈ l) (h2 : (a, d2) ∈ l) : d = d2 := by
  induction l with
  | nil => simp at h1
  | cons e l ih =>
      simp only [List.map_cons, List.nodup_cons, List.mem_map, not_exists, not_and] at hn
      rcases List.mem_cons.1 h1 with e1 | h1
      · rcases List.mem_cons.1 h2 with e2 | h2
        · rw [← e2] at e1
          exact (Prod.mk.inj e1).2
        · exact absurd (by rw [← e1]) (hn.1 _ h2)
      · rcases List.mem_cons.1 h2 with e2 | h2
        · exact absurd (by rw [← e2]) (hn.1 _ h1)
        · exact ih hn.2 h1 h2

/-- C2: in every state reachable from the empty queue by `push`, `pop`, `erase` (and `search`)
under a comparator that is a total preorder, `search(x)` returns a cursor other than `end()` if
and only if some stored element `e` (an element of the iteration sequence) has
`cmp(x, e) == 0`; the element under a returned cursor is stored and equivalent to `x`; and
`push(x)` succeeds and `search(x)` right after it is not `end()`. -/
theorem C2_search_finds_equivalent (cmp : T → T → Int)
    (hcmp : TotalPreorderOn (fun _ => True) cmp) (ops : List (Op T)) (q : priority_queue T)
    (hq : priority_queue.new.run cmp ops = some q) (x : T) :
    ∃ stored, q.iterate = some stored ∧
      (q.search cmp x ≠ priority_queue.end_ ↔ ∃ e ∈ stored, cmp x e = 0) ∧
      (∀ c, (q.search cmp x).current = some c → c.data ∈ stored ∧ cmp x c.data = 0) ∧
      ∃ q2, q.push cmp x = some q2 ∧ q2.search cmp x ≠ priority_queue.end_ := by
  obtain ⟨r, -, href⟩ := run_refines hcmp ops (fun _ _ => trivial) q hq
  have hord := href.ordered hcmp
  refine ⟨q.root.toList, iterate_spec q href.inv, ⟨?_, ?_⟩, ?_, ?_⟩
  · intro hne
    cases hs : (q.search cmp x).current with
    | none =>
        exfalso; apply hne
        cases hq2 : q.search cmp x
        rw [hq2] at hs
        simp only at hs
        subst hs
        rfl
    | some c =>
        have hs2 : priority_queue.search_from cmp x q.root = ⟨some c⟩ := by
          cases hq2 : q.search cmp x
          rw [hq2] at hs
          simp only at hs
          subst hs
          exact hq2
        obtain ⟨h1, h2⟩ := search_from_sound cmp x q.root c hs2
        exact ⟨c.data, List.mem_map.2 ⟨_, h1, rfl⟩, h2⟩
  · rintro ⟨e, he, hxe⟩
    obtain ⟨e2, he2, rfl⟩ := List.mem_map.1 he
    exact search_from_complete hcmp x trivial q.root hord.dom hord.asc ⟨e2, he2, hxe⟩
  · intro c hs
    have hs2 : priority_queue.search_from cmp x q.root = ⟨some c⟩ := by
      cases hq2 : q.search cmp x
      rw [hq2] at hs
      simp only at hs
      subst hs
      exact hq2
    obtain ⟨h1, h2⟩ := search_from_sound cmp x q.root c hs2
    exact ⟨List.mem_map.2 ⟨_, h1, rfl⟩, h2⟩
  · obtain ⟨q2, hpush, hinv2, hord2, -, -, he⟩ :=
      push_ordered hcmp q x href.inv hord trivial
    refine ⟨q2, hpush, ?_⟩
    apply search_from_complete hcmp x trivial q2.root hord2.dom hord2.asc
    refine ⟨(q.next, x), ?_, hcmp.refl trivial⟩
    rw [he, mem_insert_sorted]
    exact Or.inl rfl

theorem C2_witness :
    TotalPreorderOn (fun _ => True) (fun a b : Int => b - a) ∧
      priority_queue.new.run (fun a b : Int => b - a)
          [Op.push 3, Op.push 1, Op.push 2, Op.pop] =
        some ⟨node.mk Color.BLACK node.nil 3 2
          (node.mk Color.RED node.nil 1 3 node.nil), 2, 4⟩ ∧
      ∃ stored,
        (⟨node.mk Color.BLACK node.nil 3 2 (node.mk Color.RED node.nil 1 3 node.nil), 2, 4⟩ :
            priority_queue Int).iterate = some stored ∧
        ((⟨node.mk Color.BLACK node.nil 3 2 (node.mk Color.RED node.nil 1 3 node.nil), 2, 4⟩ :
            priority_queue Int).search (fun a b : Int => b - a) 3 ≠ priority_queue.end_ ↔
          ∃ e ∈ stored, (fun a b : Int => b - a) 3 e = 0) ∧
        (∀ c, ((⟨node.mk Color.BLACK node.nil 3 2 (node.mk Color.RED node.nil 1 3 node.nil),
            2, 4⟩ : priority_queue Int).search (fun a b : Int => b - a) 3).current = some c →
          c.data ∈ stored ∧ (fun a b : Int => b - a) 3 c.data = 0) ∧
        ∃ q2, (⟨node.mk Color.BLACK node.nil 3 2 (node.mk Color.RED node.nil 1 3 node.nil),
            2, 4⟩ : priority_queue Int).push (fun a b : Int => b - a) 3 = some q2 ∧
          q2.search (fun a b : Int => b - a) 3 ≠ priority_queue.end_ :=
  ⟨⟨fun a b _ _ => by constructor <;> intro h <;> omega, fun a b c _ _ _ h1 h2 => by omega⟩,
    rfl,
    C2_search_finds_equivalent (fun a b : Int => b - a)
      ⟨fun a b _ _ => by constructor <;> intro h <;> omega, fun a b c _ _ _ h1 h2 => by omega⟩
      [Op.push 3, Op.push 1, Op.push 2, Op.pop] _ rfl 3⟩

/-- C3: in every state reachable from the empty queue (under any comparator), for every cursor
`c` that points to a stored element, `erase(c)` succeeds and removes exactly that element:
`size()` decreases by one, and the iteration sequence afterwards is the previous sequence with
the element at the position of `c` deleted, all other elements and their order unchanged. -/
theorem C3_erase_removes_exactly (cmp : T → T → Int) (ops : List (Op T))
    (q : priority_queue T) (hq : priority_queue.new.run cmp ops = some q) (c : node_ptr T)
    (hc : (c.addr, c.data) ∈ q.root.entries) :
    ∃ q2 e1 e2, q.erase ⟨some c⟩ = some q2 ∧ q2.size + 1 = q.size ∧
      q.root.entries = e1 ++ (c.addr, c.data) :: e2 ∧ q2.root.entries = e1 ++ e2 ∧
      q.iterate = some (e1.map Prod.snd ++ c.data :: e2.map Prod.snd) ∧
      q2.iterate = some (e1.map Prod.snd ++ e2.map Prod.snd) := by
  have hinv := run_inv cmp ops _ q Inv_new hq
  have hmem : c.addr ∈ q.root.addrs := List.mem_map.2 ⟨_, hc, rfl⟩
  obtain ⟨q2, l1, d, l2, hera, hinv2, he1, he2, hsz, -⟩ :=
    erase_spec q hinv c.addr c.data hmem
  have hd : d = c.data :=
    nodup_fst_unique hinv.nodup (by rw [he1]; simp) hc
  subst hd
  have hpos : q.sz ≠ 0 := by
    rw [hinv.size, size_eq_length, he1]; simp
  refine ⟨q2, l1, l2, hera, ?_, he1, he2, ?_, ?_⟩
  · show q2.sz + 1 = q.sz
    omega
  · rw [iterate_spec q hinv, node.toList, he1]; simp
  · rw [iterate_spec q2 hinv2, node.toList, he2]; simp

theorem C3_witness :
    priority_queue.new.run (fun a b : Int => b - a) [Op.push 3, Op.push 1, Op.push 2] =
        some ⟨node.mk Color.BLACK (node.mk Color.RED node.nil 2 1 node.nil) 3 2
          (node.mk Color.RED node.nil 1 3 node.nil), 3, 4⟩ ∧
      ((3 : Nat), (2 : Int)) ∈
        (node.mk Color.BLACK (node.mk Color.RED node.nil 2 1 node.nil) 3 2
          (node.mk Color.RED node.nil 1 3 node.nil)).entries ∧
      ∃ q2 e1 e2,
        (⟨node.mk Color.BLACK (node.mk Color.RED node.nil 2 1 node.nil) 3 2
          (node.mk Color.RED node.nil 1 3 node.nil), 3, 4⟩ : priority_queue Int).erase
            ⟨some ⟨3, 2⟩⟩ = some q2 ∧
        q2.size + 1 = (⟨node.mk Color.BLACK (node.mk Color.RED node.nil 2 1 node.nil) 3 2
          (node.mk Color.RED node.nil 1 3 node.nil), 3, 4⟩ : priority_queue Int).size ∧
        (node.mk Color.BLACK (node.mk Color.RED node.nil 2 1 node.nil) 3 2
          (node.mk Color.RED node.nil 1 3 node.nil)).entries = e1 ++ (3, 2) :: e2 ∧
        q2.root.entries = e1 ++ e2 ∧
        (⟨node.mk Color.BLACK (node.mk Color.RED node.nil 2 1 node.nil) 3 2
          (node.mk Color.RED node.nil 1 3 node.nil), 3, 4⟩ : priority_queue Int).iterate =
            some (e1.map Prod.snd ++ 2 :: e2.map Prod.snd) ∧
        q2.iterate = some (e1.map Prod.snd ++ e2.map Prod.snd) :=
  ⟨rfl, by decide,
    C3_erase_removes_exactly (fun a b : Int => b - a) [Op.push 3, Op.push 1, Op.push 2]
      ⟨node.mk Color.BLACK (node.mk Color.RED node.nil 2 1 node.nil) 3 2
        (node.mk Color.RED node.nil 1 3 node.nil), 3, 4⟩ rfl ⟨3, 2⟩ (by decide)⟩

/-! ## Stability of the reference sort, and counting -/

theorem sublist_insert_sorted {α : Type} (cmp : α → α → Int) (x : α) (l : List α) :
    l.Sublist (insert_sorted cmp x l) := by
  induction l with
  | nil => simp
  | cons b l ih =>
      simp only [insert_sorted]
      split
      · exact List.sublist_cons_self _ _
      · exact ih.cons₂ b

theorem stable_sort_stable {P : T → Prop} {cmp : T → T → Int} (hcmp : TotalPreorderOn P cmp)
    (l : List T) (hP : ∀ e ∈ l, P e) (e1 e2 : T) (hsub : [e1, e2].Sublist l)
    (hle : ¬ 0 < cmp e2 e1) : [e1, e2].Sublist (stable_sort cmp l) := by
  induction l using List.reverseRecOn with
  | nil => simp at hsub
  | append_singleton l x ih =>
      have hPl : ∀ e ∈ l, P e := fun e he => hP e (by simp [he])
      rw [stable_sort_snoc]
      obtain ⟨l1, l2, hl, h1, h2⟩ := List.sublist_append_iff.1 hsub
      have hlen : l2.length ≤ 1 := by simpa using h2.length_le
      match l2, hlen, hl, h2 with
      | [], _, hl, _ =>
          simp only [List.append_nil] at hl
          subst hl
          exact (ih hPl h1).trans (sublist_insert_sorted cmp x _)
      | [y], _, hl, h2 =>
          have hy : y = x := by simpa using h2
          subst hy
          have hl1 : l1 = [e1] ∧ y = e2 := by
            cases l1 with
            | nil => simp at hl
            | cons a t =>
                cases t with
                | nil => simp at hl; exact ⟨by rw [hl.1], hl.2.symm⟩
                | cons b t2 => simp at hl
          obtain ⟨hl1a, hl1b⟩ := hl1
          subst hl1a hl1b
          have he1 : e1 ∈ stable_sort cmp l :=
            (mem_stable_sort cmp l e1).2 (by simpa using h1)
          obtain ⟨m1, m2, hm, hm1, hm2⟩ := exists_split hcmp y (stable_sort cmp l)
            (hP y (by simp)) (fun e he => hPl e ((mem_stable_sort cmp l e).1 he))
            (stable_sort_ascending hcmp l hPl)
          rw [hm, insert_sorted_split cmp y m1 m2 hm1 hm2]
          rw [hm] at he1
          rcases List.mem_append.1 he1 with h | h
          · have : [e1].Sublist m1 := by simpa using h
            exact List.Sublist.append this ((List.nil_sublist m2).cons₂ y)
          · exact absurd (hm2 e1 h) hle
      | _ :: _ :: _, hlen, _, _ => simp at hlen

theorem filter_length_nodup (l : List (Nat × T)) (a : Nat)
    (hn : (l.map Prod.fst).Nodup) (ha : a ∈ l.map Prod.fst) :
    (l.filter (fun s => s.1 ≠ a)).length + 1 = l.length := by
  obtain ⟨e, he, hea⟩ := List.mem_map.1 ha
  obtain ⟨l1, l2, hl⟩ := List.append_of_mem he
  subst hl
  have he2 : e = (a, e.2) := by rw [← hea]
  rw [he2] at hn ⊢
  rw [filter_split_nodup l1 l2 a e.2 hn]
  simp
  omega

theorem ref_step_count {P : T → Prop} {cmp : T → T → Int} {q : priority_queue T}
    {r r2 : RefModel T} (h : Refines P cmp q r) (o : Op T) (ho : o.is_pop = false)
    (hr : r.step cmp o = some r2) :
    r2.stored.length + (if o.is_erase then 1 else 0) =
      r.stored.length + (if o.is_push then 1 else 0) := by
  cases o with
  | push x =>
      simp only [RefModel.step, Option.some.injEq] at hr
      subst hr
      simp [Op.is_erase, Op.is_push]
  | pop => simp [Op.is_pop] at ho
  | search x =>
      simp only [RefModel.step, Option.some.injEq] at hr
      subst hr
      simp [Op.is_erase, Op.is_push]
  | erase it =>
      simp only [RefModel.step] at hr
      split at hr
      · cases hr
      · rename_i p hc
        split at hr
        · rename_i hmem
          cases hr
          simp only [Op.is_erase, Op.is_push, if_true, Bool.false_eq_true, if_false, add_zero]
          exact filter_length_nodup r.stored p.addr
            (h.order.imp (fun hab => Nat.ne_of_lt hab)) hmem
        · cases hr

theorem ref_run_count {P : T → Prop} {cmp : T → T → Int} (hcmp : TotalPreorderOn P cmp)
    (ops : List (Op T)) (hops : pushes_in P ops) (hnopop : ∀ o ∈ ops, o.is_pop = false)
    {q : priority_queue T} {r r2 : RefModel T} (h : Refines P cmp q r)
    (hr : r.run cmp ops = some r2) :
    r2.stored.length + ops.countP Op.is_erase = r.stored.length + ops.countP Op.is_push := by
  induction ops generalizing q r with
  | nil =>
      simp only [RefModel.run, Option.some.injEq] at hr
      subst hr
      simp
  | cons o os ih =>
      simp only [RefModel.run] at hr
      cases hs : r.step cmp o with
      | none => simp [hs] at hr
      | some r1 =>
          rw [hs] at hr
          simp only [Option.some_bind] at hr
          obtain ⟨q1, -, href⟩ :=
            (refines_step hcmp h o (fun x hx => hops x (by simp [hx]))).1 r1 hs
          have h1 := ref_step_count h o (hnopop o (by simp)) hs
          have h2 := ih (fun x hx => hops x (by simp [hx]))
            (fun o2 ho2 => hnopop o2 (by simp [ho2])) href hr
          simp only [List.countP_cons]
          omega

/-! ## `erase(end())` -/

/-- C6 (as the code behaves): `erase(end())` is not a no-op. In every state the call runs
`delete_node` on the sentinel, whose `left` and `right` are `NULL`, and so has no defined result;
`erase` is defined only for a cursor to a stored element. -/
theorem C6_erase_end_undefined (q : priority_queue T) :
    q.erase priority_queue.end_ = none := rfl

/-- C6 fails as stated: on the empty queue `erase(end())` does not return a queue with the same
size and the same iteration sequence. -/
theorem C6_counterexample :
    ¬ ∃ q2, (priority_queue.new : priority_queue Int).erase priority_queue.end_ = some q2 ∧
      q2.size = (priority_queue.new : priority_queue Int).size ∧
      q2.iterate = (priority_queue.new : priority_queue Int).iterate := by
  rintro ⟨q2, h, -⟩
  cases h

/-! ## The dual ready structure at tick 0 -/

/-- C7 fails on the code: after the three arrivals of tick 0 (pid 1 at priority 49, stamped
`CLOCK_LAST`; pids 2 and 3 at priority 10, stamped 0) have been pushed, which succeeds, the
`pop()` of the first dispatch is undefined: `age_q.search` does not find the age entry of the
ready minimum and `age_q.erase(end())` is called. The same holds under the four ready-queue
comparators. -/
theorem C7_pop_after_tick0_arrivals_undefined :
    (ready_age_t.new.run mycmp_priority
        [ReadyOp.push pcb_top_user, ReadyOp.push pcb_low_2, ReadyOp.push pcb_low_3]).isSome
        = true ∧
      ready_age_t.new.run mycmp_priority
        [ReadyOp.push pcb_top_user, ReadyOp.push pcb_low_2, ReadyOp.push pcb_low_3,
          ReadyOp.pop] = none ∧
      ready_age_t.new.run mycmp_fifo
        [ReadyOp.push pcb_top_user, ReadyOp.push pcb_low_2, ReadyOp.push pcb_low_3,
          ReadyOp.pop] = none ∧
      ready_age_t.new.run mycmp_sjf
        [ReadyOp.push pcb_top_user, ReadyOp.push pcb_low_2, ReadyOp.push pcb_low_3,
          ReadyOp.pop] = none ∧
      ready_age_t.new.run mycmp_edf
        [ReadyOp.push pcb_top_user, ReadyOp.push pcb_low_2, ReadyOp.push pcb_low_3,
          ReadyOp.pop] = none :=
  ⟨rfl, rfl, rfl, rfl, rfl⟩

/-! ## The stamp comparison at tick 0 -/

/-- C9 fails on the code: for a stamp of tick 0 (pid 2) and the sentinel `CLOCK_LAST` (pid 1),
both arrived at tick 0, `mycmp_fifo` is negative in both directions, and so is `mycmp_sjf` (the
bursts are equal), so neither of the two PCBs pops before the other; `mycmp_priority` does the
same on two records of equal priority with these two stamps. -/
theorem C9_tick0_against_sentinel :
    mycmp_fifo pcb_low_2 pcb_top_user < 0 ∧ mycmp_fifo pcb_top_user pcb_low_2 < 0 ∧
      mycmp_sjf pcb_low_2 pcb_top_user < 0 ∧ mycmp_sjf pcb_top_user pcb_low_2 < 0 ∧
      mycmp_priority pcb_low_2 { pcb_low_2 with pid := 4, Clock := CLOCK_LAST } < 0 ∧
      mycmp_priority { pcb_low_2 with pid := 4, Clock := CLOCK_LAST } pcb_low_2 < 0 := by
  decide

/-! ## The comparators `mycmp_new` and `mycmp_edf` -/

theorem wrap32_of_range (x : Int) (h1 : -2147483648 ≤ x) (h2 : x < 2147483648) :
    wrap32 x = x := by
  unfold wrap32
  norm_num
  omega

theorem mycmp_new_sign (a b : PCB) (ha : key_valid a) (hb : key_valid b) :
    (0 < mycmp_new a b ↔ (a.arr < b.arr ∨ (a.arr = b.arr ∧ a.pid < b.pid))) ∧
      (mycmp_new a b < 0 ↔ (b.arr < a.arr ∨ (a.arr = b.arr ∧ b.pid < a.pid))) := by
  obtain ⟨ha1, ha2, ha3, ha4, -, -⟩ := ha
  obtain ⟨hb1, hb2, hb3, hb4, -, -⟩ := hb
  unfold mycmp_new
  by_cases h : a.arr = b.arr
  · rw [if_neg (not_not.2 h), wrap32_of_range _ (by omega) (by omega)]
    refine ⟨⟨fun h1 => Or.inr ⟨h, by omega⟩, fun h1 => ?_⟩,
      ⟨fun h1 => Or.inr ⟨h, by omega⟩, fun h1 => ?_⟩⟩
    · rcases h1 with h1 | h1 <;> omega
    · rcases h1 with h1 | h1 <;> omega
  · rw [if_pos h, wrap32_of_range _ (by omega) (by omega)]
    refine ⟨⟨fun h1 => Or.inl (by omega), fun h1 => ?_⟩,
      ⟨fun h1 => Or.inl (by omega), fun h1 => ?_⟩⟩
    · rcases h1 with h1 | h1 <;> omega
    · rcases h1 with h1 | h1 <;> omega

theorem mycmp_edf_sign (a b : PCB) (ha : key_valid a) (hb : key_valid b) :
    (0 < mycmp_edf a b ↔ (a.dline < b.dline ∨ (a.dline = b.dline ∧ a.pid < b.pid))) ∧
      (mycmp_edf a b < 0 ↔ (b.dline < a.dline ∨ (a.dline = b.dline ∧ b.pid < a.pid))) := by
  obtain ⟨ha1, ha2, -, -, ha3, ha4⟩ := ha
  obtain ⟨hb1, hb2, -, -, hb3, hb4⟩ := hb
  unfold mycmp_edf
  by_cases h : a.dline = b.dline
  · rw [if_neg (not_not.2 h), wrap32_of_range _ (by omega) (by omega)]
    refine ⟨⟨fun h1 => Or.inr ⟨h, by omega⟩, fun h1 => ?_⟩,
      ⟨fun h1 => Or.inr ⟨h, by omega⟩, fun h1 => ?_⟩⟩
    · rcases h1 with h1 | h1 <;> omega
    · rcases h1 with h1 | h1 <;> omega
  · rw [if_pos h, wrap32_of_range _ (by omega) (by omega)]
    refine ⟨⟨fun h1 => Or.inl (by omega), fun h1 => ?_⟩,
      ⟨fun h1 => Or.inl (by omega), fun h1 => ?_⟩⟩
    · rcases h1 with h1 | h1 <;> omega
    · rcases h1 with h1 | h1 <;> omega

/-- C8: on PCBs with loader-valid key fields, `mycmp_new` and `mycmp_edf` are total orders:
the sign of `cmp(a,b)` is the negation of the sign of `cmp(b,a)`, `cmp` is transitive (in the
weak and in the strict form), `cmp(a,b) == 0` exactly when the keys `(arr, pid)` resp.
`(dline, pid)` are equal, and `cmp(a,b) > 0` exactly when the key of `a` is lexicographically
smaller. -/
theorem C8_new_and_edf_total_orders (a b c : PCB) (ha : key_valid a) (hb : key_valid b)
    (hc : key_valid c) :
    ((0 < mycmp_new a b ↔ mycmp_new b a < 0) ∧ (mycmp_new a b = 0 ↔ mycmp_new b a = 0) ∧
      (0 ≤ mycmp_new a b → 0 ≤ mycmp_new b c → 0 ≤ mycmp_new a c) ∧
      (0 < mycmp_new a b → 0 < mycmp_new b c → 0 < mycmp_new a c) ∧
      (mycmp_new a b = 0 ↔ (a.arr = b.arr ∧ a.pid = b.pid)) ∧
      (0 < mycmp_new a b ↔ (a.arr < b.arr ∨ (a.arr = b.arr ∧ a.pid < b.pid)))) ∧
    ((0 < mycmp_edf a b ↔ mycmp_edf b a < 0) ∧ (mycmp_edf a b = 0 ↔ mycmp_edf b a = 0) ∧
      (0 ≤ mycmp_edf a b → 0 ≤ mycmp_edf b c → 0 ≤ mycmp_edf a c) ∧
      (0 < mycmp_edf a b → 0 < mycmp_edf b c → 0 < mycmp_edf a c) ∧
      (mycmp_edf a b = 0 ↔ (a.dline = b.dline ∧ a.pid = b.pid)) ∧
      (0 < mycmp_edf a b ↔ (a.dline < b.dline ∨ (a.dline = b.dline ∧ a.pid < b.pid)))) := by
  have n1 := mycmp_new_sign a b ha hb
  have n2 := mycmp_new_sign b a hb ha
  have n3 := mycmp_new_sign b c hb hc
  have n4 := mycmp_new_sign a c ha hc
  have e1 := mycmp_edf_sign a b ha hb
  have e2 := mycmp_edf_sign b a hb ha
  have e3 := mycmp_edf_sign b c hb hc
  have e4 := mycmp_edf_sign a c ha hc
  refine ⟨⟨?_, ?_, ?_, ?_, ?_, n1.1⟩, ⟨?_, ?_, ?_, ?_, ?_, e1.1⟩⟩
  · rw [n1.1, n2.2]; omega
  · have h1 : mycmp_new a b = 0 ↔ ¬ 0 < mycmp_new a b ∧ ¬ mycmp_new a b < 0 := by omega
    have h2 : mycmp_new b a = 0 ↔ ¬ 0 < mycmp_new b a ∧ ¬ mycmp_new b a < 0 := by omega
    rw [h1, h2, n1.1, n1.2, n2.1, n2.2]; omega
  · intro h1 h2
    have h1' : ¬ mycmp_new a b < 0 := by omega
    have h2' : ¬ mycmp_new b c < 0 := by omega
    by_contra h3
    have h3' : mycmp_new a c < 0 := by omega
    rw [n1.2] at h1'; rw [n3.2] at h2'; rw [n4.2] at h3'
    omega
  · intro h1 h2
    rw [n1.1] at h1; rw [n3.1] at h2; rw [n4.1]
    omega
  · have h1 : mycmp_new a b = 0 ↔ ¬ 0 < mycmp_new a b ∧ ¬ mycmp_new a b < 0 := by omega
    rw [h1, n1.1, n1.2]; omega
  · rw [e1.1, e2.2]; omega
  · have h1 : mycmp_edf a b = 0 ↔ ¬ 0 < mycmp_edf a b ∧ ¬ mycmp_edf a b < 0 := by omega
    have h2 : mycmp_edf b a = 0 ↔ ¬ 0 < mycmp_edf b a ∧ ¬ mycmp_edf b a < 0 := by omega
    rw [h1, h2, e1.1, e1.2, e2.1, e2.2]; omega
  · intro h1 h2
    have h1' : ¬ mycmp_edf a b < 0 := by omega
    have h2' : ¬ mycmp_edf b c < 0 := by omega
    by_contra h3
    have h3' : mycmp_edf a c < 0 := by omega
    rw [e1.2] at h1'; rw [e3.2] at h2'; rw [e4.2] at h3'
    omega
  · intro h1 h2
    rw [e1.1] at h1; rw [e3.1] at h2; rw [e4.1]
    omega
  · have h1 : mycmp_edf a b = 0 ↔ ¬ 0 < mycmp_edf a b ∧ ¬ mycmp_edf a b < 0 := by omega
    rw [h1, e1.1, e1.2]; omega

theorem C8_witness :
    key_valid pcb_top_user ∧ key_valid pcb_low_2 ∧ key_valid pcb_low_3 ∧
    (((0 < mycmp_new pcb_top_user pcb_low_2 ↔ mycmp_new pcb_low_2 pcb_top_user < 0) ∧ (mycmp_new pcb_top_user pcb_low_2 = 0 ↔ mycmp_new pcb_low_2 pcb_top_user = 0) ∧
      (0 ≤ mycmp_new pcb_top_user pcb_low_2 → 0 ≤ mycmp_new pcb_low_2 pcb_low_3 → 0 ≤ mycmp_new pcb_top_user pcb_low_3) ∧
      (0 < mycmp_new pcb_top_user pcb_low_2 → 0 < mycmp_new pcb_low_2 pcb_low_3 → 0 < mycmp_new pcb_top_user pcb_low_3) ∧
      (mycmp_new pcb_top_user pcb_low_2 = 0 ↔ (pcb_top_user.arr = pcb_low_2.arr ∧ pcb_top_user.pid = pcb_low_2.pid)) ∧
      (0 < mycmp_new pcb_top_user pcb_low_2 ↔ (pcb_top_user.arr < pcb_low_2.arr ∨ (pcb_top_user.arr = pcb_low_2.arr ∧ pcb_top_user.pid < pcb_low_2.pid)))) ∧
    ((0 < mycmp_edf pcb_top_user pcb_low_2 ↔ mycmp_edf pcb_low_2 pcb_top_user < 0) ∧ (mycmp_edf pcb_top_user pcb_low_2 = 0 ↔ mycmp_edf pcb_low_2 pcb_top_user = 0) ∧
      (0 ≤ mycmp_edf pcb_top_user pcb_low_2 → 0 ≤ mycmp_edf pcb_low_2 pcb_low_3 → 0 ≤ mycmp_edf pcb_top_user pcb_low_3) ∧
      (0 < mycmp_edf pcb_top_user pcb_low_2 → 0 < mycmp_edf pcb_low_2 pcb_low_3 → 0 < mycmp_edf pcb_top_user pcb_low_3) ∧
      (mycmp_edf pcb_top_user pcb_low_2 = 0 ↔ (pcb_top_user.dline = pcb_low_2.dline ∧ pcb_top_user.pid = pcb_low_2.pid)) ∧
      (0 < mycmp_edf pcb_top_user pcb_low_2 ↔ (pcb_top_user.dline < pcb_low_2.dline ∨ (pcb_top_user.dline = pcb_low_2.dline ∧ pcb_top_user.pid < pcb_low_2.pid))))) :=
  ⟨by decide, by decide, by decide,
    C8_new_and_edf_total_orders pcb_top_user pcb_low_2 pcb_low_3 (by decide) (by decide)
      (by decide)⟩

/-! ## `demote_priority` and `promote_priority` -/

theorem ISKERNEL_true (x : Int) : ISKERNEL x = true ↔ 50 ≤ x ∧ x ≤ 99 := by
  simp [ISKERNEL]

theorem ISKERNEL_false (x : Int) : ISKERNEL x = false ↔ ¬ (50 ≤ x ∧ x ≤ 99) := by
  rw [← ISKERNEL_true]; simp

/-- C10: for every PCB and every configuration for which the subtraction of the quantum stays
in the range of `int`, `demote_priority` sets `pri` to `max(50, pri - kernel_tq)` when
`50 ≤ pri ≤ 99` and to `max(0, pri - user_tq)` otherwise, and changes no other field. -/
theorem C10_demote_priority (x : PCB) (env : env_t)
    (hk : (50 ≤ x.pri ∧ x.pri ≤ 99) →
      -2147483648 ≤ x.pri - env.kernel_tq ∧ x.pri - env.kernel_tq < 2147483648)
    (hu : ¬ (50 ≤ x.pri ∧ x.pri ≤ 99) →
      -2147483648 ≤ x.pri - env.user_tq ∧ x.pri - env.user_tq < 2147483648) :
    demote_priority x env =
      { x with pri := if 50 ≤ x.pri ∧ x.pri ≤ 99 then max 50 (x.pri - env.kernel_tq)
                      else max 0 (x.pri - env.user_tq) } := by
  unfold demote_priority
  by_cases h : 50 ≤ x.pri ∧ x.pri ≤ 99
  · rw [if_pos ((ISKERNEL_true _).2 h), if_pos h]
    simp only [wrap32_of_range _ (hk h).1 (hk h).2]
    congr 1
    rcases le_or_lt 50 (x.pri - env.kernel_tq) with h2 | h2
    · rw [if_neg (not_lt.2 h2), max_eq_right h2]
    · rw [if_pos h2, max_eq_left (le_of_lt h2)]
  · have hk2 : ¬ ISKERNEL x.pri = true := fun e => h ((ISKERNEL_true _).1 e)
    rw [if_neg hk2, if_neg h]
    simp only [wrap32_of_range _ (hu h).1 (hu h).2]
    congr 1
    rcases le_or_lt 0 (x.pri - env.user_tq) with h2 | h2
    · rw [if_neg (not_lt.2 h2), max_eq_right h2]
    · rw [if_pos h2, max_eq_left (le_of_lt h2)]

theorem C10_witness :
    ((50 ≤ pcb_low_2.pri ∧ pcb_low_2.pri ≤ 99) →
        -2147483648 ≤ pcb_low_2.pri - default_env.kernel_tq ∧
          pcb_low_2.pri - default_env.kernel_tq < 2147483648) ∧
      (¬ (50 ≤ pcb_low_2.pri ∧ pcb_low_2.pri ≤ 99) →
        -2147483648 ≤ pcb_low_2.pri - default_env.user_tq ∧
          pcb_low_2.pri - default_env.user_tq < 2147483648) ∧
      demote_priority pcb_low_2 default_env =
        { pcb_low_2 with pri := if 50 ≤ pcb_low_2.pri ∧ pcb_low_2.pri ≤ 99 then
                                  max 50 (pcb_low_2.pri - default_env.kernel_tq)
                                else max 0 (pcb_low_2.pri - default_env.user_tq) } :=
  ⟨by decide, by decide, C10_demote_priority pcb_low_2 default_env (by decide) (by decide)⟩

/-- C11: for every PCB and every configuration for which the addition stays in the range of
`int`, `promote_priority(x, op)` sets `pri` to `min(cap, pri + inc)`, where `inc` is `x.io` for
`IO` and `age_val` for `AGE`, and `cap` is 99 if the old `pri` is in `[50, 99]` and 49
otherwise; no other field changes. -/
theorem C11_promote_priority (x : PCB) (op : ops_t) (env : env_t)
    (h1 : -2147483648 ≤ x.pri + (if op = ops_t.IO_ then x.io else env.age_val))
    (h2 : x.pri + (if op = ops_t.IO_ then x.io else env.age_val) < 2147483648) :
    promote_priority x op env =
      { x with pri := min (if 50 ≤ x.pri ∧ x.pri ≤ 99 then 99 else 49)
                        (x.pri + (if op = ops_t.IO_ then x.io else env.age_val)) } := by
  unfold promote_priority
  simp only [wrap32_of_range _ h1 h2]
  by_cases h : 50 ≤ x.pri ∧ x.pri ≤ 99
  · rw [if_pos ((ISKERNEL_true _).2 h), if_pos h]
    rcases le_or_lt 99 (x.pri + (if op = ops_t.IO_ then x.io else env.age_val)) with h3 | h3
    · rw [if_pos (ge_iff_le.2 h3), min_eq_left h3]
    · rw [if_neg (not_le.2 h3), min_eq_right (le_of_lt h3)]
  · have hk2 : ¬ ISKERNEL x.pri = true := fun e => h ((ISKERNEL_true _).1 e)
    rw [if_neg hk2, if_neg h]
    rcases le_or_lt 49 (x.pri + (if op = ops_t.IO_ then x.io else env.age_val)) with h3 | h3
    · rw [if_pos (ge_iff_le.2 h3), min_eq_left h3]
    · rw [if_neg (not_le.2 h3), min_eq_right (le_of_lt h3)]

theorem C11_witness :
    -2147483648 ≤ pcb_low_2.pri + (if ops_t.AGE = ops_t.IO_ then pcb_low_2.io
        else default_env.age_val) ∧
      pcb_low_2.pri + (if ops_t.AGE = ops_t.IO_ then pcb_low_2.io
        else default_env.age_val) < 2147483648 ∧
      promote_priority pcb_low_2 ops_t.AGE default_env =
        { pcb_low_2 with
          pri := min (if 50 ≤ pcb_low_2.pri ∧ pcb_low_2.pri ≤ 99 then 99 else 49)
                  (pcb_low_2.pri + (if ops_t.AGE = ops_t.IO_ then pcb_low_2.io
                    else default_env.age_val)) } :=
  ⟨by decide, by decide, C11_promote_priority pcb_low_2 ops_t.AGE default_env (by decide)
    (by decide)⟩

/-- C12 fails on the code: with the accepted option `--age_amount=-10` (and the default
quanta), the aging promotion takes a kernel process of priority 50 to priority 40, outside
`[50, 99]`, and a user process of priority 5 to priority -5, outside `[0, 49]`. -/
theorem C12_negative_age_amount_leaves_class :
    (promote_priority (arrived 1 5 0 50 100 0 0) ops_t.AGE
        { default_env with age_val := -10 }).pri = 40 ∧
      (promote_priority (arrived 2 5 0 5 100 0 0) ops_t.AGE
        { default_env with age_val := -10 }).pri = -5 := by
  decide

/-! ## The priority comparator on the PCBs of the data model -/

theorem ISMAXED_true (x : Int) : ISMAXED x = true ↔ x = 49 ∨ x = 99 := by
  simp [ISMAXED]

theorem ISMAXED_false (x : Int) : ISMAXED x = false ↔ x ≠ 49 ∧ x ≠ 99 := by
  simp [ISMAXED]

theorem stamp_diff_ticks (a b : Nat) (ha : a < 2147483648) (hb : b < 2147483648) :
    size_to_int (size_sub b a) = (b : Int) - (a : Int) := by
  unfold size_to_int size_sub wrap32
  have h1 : a % 2 ^ 64 = a := Nat.mod_eq_of_lt (by omega)
  rw [h1]
  norm_num
  omega

theorem ready_pcb_stamps (a b : PCB) (ha : ready_pcb a) (hb : ready_pcb b)
    (hp : a.pri = b.pri) (hc : a.Clock ≠ b.Clock) :
    a.Clock < 2147483648 ∧ b.Clock < 2147483648 := by
  obtain ⟨-, -, -, -, ha5⟩ := ha
  obtain ⟨-, -, -, -, hb5⟩ := hb
  rw [hp] at ha5
  rcases ha5 with ⟨h1, h2⟩ | ⟨h1, h2⟩
  · rcases hb5 with ⟨h3, h4⟩ | ⟨h3, h4⟩
    · exact absurd (h2.trans h4.symm) hc
    · rw [h1] at h3; cases h3
  · rcases hb5 with ⟨h3, h4⟩ | ⟨h3, h4⟩
    · rw [h1] at h3; cases h3
    · exact ⟨by simpa using h2, by simpa using h4⟩

theorem mycmp_priority_sign (a b : PCB) (ha : ready_pcb a) (hb : ready_pcb b) :
    (0 < mycmp_priority a b ↔
      (b.pri < a.pri ∨ (a.pri = b.pri ∧
        (a.Clock < b.Clock ∨ (a.Clock = b.Clock ∧ a.pid < b.pid))))) ∧
    (mycmp_priority a b < 0 ↔
      (a.pri < b.pri ∨ (a.pri = b.pri ∧
        (b.Clock < a.Clock ∨ (a.Clock = b.Clock ∧ b.pid < a.pid))))) := by
  have ha0 := ha
  have hb0 := hb
  obtain ⟨ha1, ha2, ha3, ha4, -⟩ := ha
  obtain ⟨hb1, hb2, hb3, hb4, -⟩ := hb
  have e31 : (2 : Int) ^ 31 = 2147483648 := by norm_num
  rw [e31] at ha2 hb2
  unfold mycmp_priority
  by_cases hp : a.pri = b.pri
  · rw [if_neg (not_not.2 hp)]
    by_cases hc : b.Clock = a.Clock
    · rw [if_neg (not_not.2 hc), wrap32_of_range _ (by omega) (by omega)]
      refine ⟨⟨fun h1 => Or.inr ⟨hp, Or.inr ⟨hc.symm, by omega⟩⟩, fun h1 => ?_⟩,
        ⟨fun h1 => Or.inr ⟨hp, Or.inr ⟨hc.symm, by omega⟩⟩, fun h1 => ?_⟩⟩
      · rcases h1 with h1 | ⟨-, h1 | ⟨-, h1⟩⟩ <;> omega
      · rcases h1 with h1 | ⟨-, h1 | ⟨-, h1⟩⟩ <;> omega
    · rw [if_pos hc]
      obtain ⟨hta, htb⟩ := ready_pcb_stamps a b ha0 hb0 hp (fun e => hc e.symm)
      rw [stamp_diff_ticks _ _ hta htb]
      refine ⟨⟨fun h1 => Or.inr ⟨hp, Or.inl (by omega)⟩, fun h1 => ?_⟩,
        ⟨fun h1 => Or.inr ⟨hp, Or.inl (by omega)⟩, fun h1 => ?_⟩⟩
      · rcases h1 with h1 | ⟨-, h1 | ⟨h1, -⟩⟩ <;> omega
      · rcases h1 with h1 | ⟨-, h1 | ⟨h1, -⟩⟩ <;> omega
  · rw [if_pos hp, wrap32_of_range _ (by omega) (by omega)]
    refine ⟨⟨fun h1 => Or.inl (by omega), fun h1 => ?_⟩,
      ⟨fun h1 => Or.inl (by omega), fun h1 => ?_⟩⟩
    · rcases h1 with h1 | ⟨h1, -⟩ <;> omega
    · rcases h1 with h1 | ⟨h1, -⟩ <;> omega

theorem mycmp_priority_total : TotalPreorderOn ready_pcb mycmp_priority := by
  constructor
  · intro a b ha hb
    rw [(mycmp_priority_sign a b ha hb).1, (mycmp_priority_sign b a hb ha).2]
    constructor
    · rintro (h | ⟨h, h3 | ⟨h3, h4⟩⟩)
      · exact Or.inl h
      · exact Or.inr ⟨h.symm, Or.inl h3⟩
      · exact Or.inr ⟨h.symm, Or.inr ⟨h3.symm, h4⟩⟩
    · rintro (h | ⟨h, h3 | ⟨h3, h4⟩⟩)
      · exact Or.inl h
      · exact Or.inr ⟨h.symm, Or.inl h3⟩
      · exact Or.inr ⟨h.symm, Or.inr ⟨h3.symm, h4⟩⟩
  · intro a b c ha hb hc hab hbc
    have h1 := (mycmp_priority_sign a b ha hb).2
    have h2 := (mycmp_priority_sign b c hb hc).2
    have h3 := (mycmp_priority_sign a c ha hc).2
    by_contra hn
    have hn2 : mycmp_priority a c < 0 := by omega
    have hab2 : ¬ mycmp_priority a b < 0 := by omega
    have hbc2 : ¬ mycmp_priority b c < 0 := by omega
    rw [h3] at hn2
    rw [h1] at hab2
    rw [h2] at hbc2
    omega

/-! ## Sequences of operations under the priority comparator, and stability -/

/-- C4: for every sequence of `push`, `search` and `erase` operations applied to the empty
queue under `mycmp_priority`, in which the pushed PCBs are PCBs of the data model and every
`erase` is given a cursor to a stored element, the run succeeds, `size()` plus the number of
erases is the number of pushes, and the iteration from `begin()` to `end()` yields the remaining
elements (`r.stored`, in push order, as the reference model keeps them) in the order of the
reference stable sort by `cmp`. -/
theorem C4_size_and_iteration_order (ops : List (Op PCB)) (r : RefModel PCB)
    (hP : pushes_in ready_pcb ops) (hnopop : ∀ o ∈ ops, o.is_pop = false)
    (hr : RefModel.new.run mycmp_priority ops = some r) :
    ∃ q, priority_queue.new.run mycmp_priority ops = some q ∧
      q.size + ops.countP Op.is_erase = ops.countP Op.is_push ∧
      q.iterate = some (stable_sort mycmp_priority (r.stored.map Prod.snd)) := by
  obtain ⟨q, hq, href⟩ :=
    (refines_run mycmp_priority_total ops hP (Refines_new ready_pcb mycmp_priority)).1 r hr
  refine ⟨q, hq, ?_, ?_⟩
  · have h1 := ref_run_count mycmp_priority_total ops hP hnopop
      (Refines_new ready_pcb mycmp_priority) hr
    have h2 : q.size = r.stored.length := href.size
    simp only [RefModel.new, List.length_nil, zero_add] at h1
    omega
  · rw [iterate_spec q href.inv, node.toList, href.entries, map_stable_sort]

theorem C4_witness :
    pushes_in ready_pcb
        [Op.push pcb_top_user, Op.push pcb_low_2, Op.search pcb_low_2,
          Op.erase ⟨some ⟨2, pcb_low_2⟩⟩, Op.push pcb_low_3] ∧
      (∀ o ∈ [Op.push pcb_top_user, Op.push pcb_low_2, Op.search pcb_low_2,
          Op.erase ⟨some ⟨2, pcb_low_2⟩⟩, Op.push pcb_low_3], o.is_pop = false) ∧
      RefModel.new.run mycmp_priority
          [Op.push pcb_top_user, Op.push pcb_low_2, Op.search pcb_low_2,
            Op.erase ⟨some ⟨2, pcb_low_2⟩⟩, Op.push pcb_low_3] =
        some ⟨[(1, pcb_top_user), (3, pcb_low_3)], 4⟩ ∧
      ∃ q, priority_queue.new.run mycmp_priority
          [Op.push pcb_top_user, Op.push pcb_low_2, Op.search pcb_low_2,
            Op.erase ⟨some ⟨2, pcb_low_2⟩⟩, Op.push pcb_low_3] = some q ∧
        q.size + [Op.push pcb_top_user, Op.push pcb_low_2, Op.search pcb_low_2,
            Op.erase ⟨some ⟨2, pcb_low_2⟩⟩, Op.push pcb_low_3].countP Op.is_erase =
          [Op.push pcb_top_user, Op.push pcb_low_2, Op.search pcb_low_2,
            Op.erase ⟨some ⟨2, pcb_low_2⟩⟩, Op.push pcb_low_3].countP Op.is_push ∧
        q.iterate = some (stable_sort mycmp_priority
          ((⟨[(1, pcb_top_user), (3, pcb_low_3)], 4⟩ : RefModel PCB).stored.map Prod.snd)) :=
  have hP : pushes_in ready_pcb
      [Op.push pcb_top_user, Op.push pcb_low_2, Op.search pcb_low_2,
        Op.erase ⟨some ⟨2, pcb_low_2⟩⟩, Op.push pcb_low_3] := by
    intro x hx
    simp only [List.mem_cons, Op.push.injEq, reduceCtorEq, List.mem_singleton, false_or,
      List.not_mem_nil, or_false] at hx
    rcases hx with rfl | rfl | rfl <;> decide
  have hn : ∀ o ∈ [Op.push pcb_top_user, Op.push pcb_low_2, Op.search pcb_low_2,
      Op.erase ⟨some ⟨2, pcb_low_2⟩⟩, Op.push pcb_low_3], o.is_pop = false := by
    intro o ho
    simp only [List.mem_cons, List.mem_singleton, List.not_mem_nil, or_false] at ho
    rcases ho with rfl | rfl | rfl | rfl | rfl <;> rfl
  ⟨hP, hn, rfl, C4_size_and_iteration_order _ _ hP hn rfl⟩

/-- C5: for every sequence of `push`, `pop`, `erase` and `search` operations applied to the empty
queue under a comparator that is a total preorder, in which every `erase` is given a cursor to a
stored element, the run succeeds and any two stored elements `e1`, `e2` that are equivalent
under `cmp`, `e1` pushed before `e2` (they stand in this order in `r.stored`, the stored elements
in push order with their push numbers), are visited in this order by the iteration from
`begin()`; `pop()` removes the first element of the iteration sequence, so equivalent elements
are also popped in the order in which they were pushed. -/
theorem C5_equivalents_in_push_order (cmp : T → T → Int)
    (hcmp : TotalPreorderOn (fun _ => True) cmp) (ops : List (Op T)) (r : RefModel T)
    (hr : RefModel.new.run cmp ops = some r) :
    ∃ q, priority_queue.new.run cmp ops = some q ∧ q.root.entries.Perm r.stored ∧
      q.iterate = some (q.root.entries.map Prod.snd) ∧
      (∀ e1 e2, [e1, e2].Sublist r.stored → cmp e1.2 e2.2 = 0 →
        [e1, e2].Sublist q.root.entries) ∧
      (q.empty = false → ∃ e rest q2, q.root.entries = e :: rest ∧ q.top = some e.2 ∧
        q.pop = some q2 ∧ q2.root.entries = rest) := by
  obtain ⟨q, hq, href⟩ :=
    (refines_run hcmp ops (fun _ _ => trivial) (Refines_new _ cmp)).1 r hr
  refine ⟨q, hq, ?_, iterate_spec q href.inv, ?_, ?_⟩
  · rw [href.entries]; exact stable_sort_perm _ _
  · intro e1 e2 hsub heq
    rw [href.entries]
    apply stable_sort_stable hcmp.entry r.stored (fun _ _ => trivial) e1 e2 hsub
    have h0 : cmp e2.2 e1.2 = 0 := hcmp.symm_zero trivial trivial heq
    show ¬ 0 < cmp e2.2 e1.2
    omega
  · intro hne
    have hsz : q.sz ≠ 0 := by
      simpa [priority_queue.empty] using hne
    obtain ⟨a, d, rest, he, htop⟩ := top_spec q href.inv hsz
    obtain ⟨q2, hpop, -, he2, -, -⟩ := pop_spec q href.inv hsz
    exact ⟨(a, d), rest, q2, he, htop, hpop, by rw [he2, he]; rfl⟩

theorem C5_witness :
    TotalPreorderOn (fun _ => True) tens_cmp ∧
      RefModel.new.run tens_cmp
          [Op.push 15, Op.push 12, Op.push 3, Op.erase ⟨some ⟨3, 3⟩⟩, Op.push 11, Op.pop] =
        some ⟨[(2, 12), (4, 11)], 5⟩ ∧
      ∃ q, priority_queue.new.run tens_cmp
          [Op.push 15, Op.push 12, Op.push 3, Op.erase ⟨some ⟨3, 3⟩⟩, Op.push 11, Op.pop] =
            some q ∧
        q.root.entries.Perm (⟨[(2, 12), (4, 11)], 5⟩ : RefModel Int).stored ∧
        q.iterate = some (q.root.entries.map Prod.snd) ∧
        (∀ e1 e2, [e1, e2].Sublist (⟨[(2, 12), (4, 11)], 5⟩ : RefModel Int).stored →
          tens_cmp e1.2 e2.2 = 0 → [e1, e2].Sublist q.root.entries) ∧
        (q.empty = false → ∃ e rest q2, q.root.entries = e :: rest ∧ q.top = some e.2 ∧
          q.pop = some q2 ∧ q2.root.entries = rest) :=
  have h : TotalPreorderOn (fun _ => True) tens_cmp :=
    ⟨fun a b _ _ => by unfold tens_cmp; constructor <;> intro h <;> omega,
      fun a b c _ _ _ h1 h2 => by unfold tens_cmp at *; omega⟩
  ⟨h, rfl, C5_equivalents_in_push_order tens_cmp h _ _ rfl⟩

/-! ## The red-black invariants of reachable states -/

theorem RB_no_red_red {t : node T} (h : t.RB) : t.no_red_red := by
  induction t with
  | nil => trivial
  | mk c l a d r ihl ihr =>
      simp only [RB_mk] at h
      exact ⟨h.2.2.2, ihl h.1, ihr h.2.1⟩

theorem RB_path_blacks {t : node T} (h : t.RB) : ∀ n ∈ t.path_blacks, n = t.bh := by
  induction t with
  | nil => intro n hn; simpa [node.path_blacks] using hn
  | mk c l a d r ihl ihr =>
      simp only [RB_mk] at h
      intro n hn
      simp only [node.path_blacks, List.mem_map, List.mem_append] at hn
      obtain ⟨m, hm, rfl⟩ := hn
      simp only [bh_mk]
      rcases hm with hm | hm
      · rw [ihl h.1 m hm]
      · rw [ihr h.2.1 m hm, h.2.2.1]

theorem ascending_BST {cmp : T → T → Int} (hcmp : TotalPreorderOn (fun _ => True) cmp)
    (t : node T) (hs : Ascending cmp t.toList) : t.BST cmp := by
  induction t with
  | nil => trivial
  | mk c l a d r ihl ihr =>
      simp only [Ascending, node.toList, entries_mk, List.map_append, List.map_cons,
        List.pairwise_append, List.pairwise_cons, List.mem_map, List.mem_cons,
        forall_exists_index, and_imp] at hs
      obtain ⟨hsl, ⟨hdr, hsr⟩, hlr⟩ := hs
      refine ⟨?_, ?_, ihl hsl, ihr hsr⟩
      · intro e he
        obtain ⟨e2, he2, rfl⟩ := List.mem_map.1 he
        have := hlr e2.2 e2 he2 rfl d (Or.inl rfl)
        omega
      · intro e he
        obtain ⟨e2, he2, rfl⟩ := List.mem_map.1 he
        exact hcmp.not_lt_of_le trivial trivial (hdr e2.2 e2 he2 rfl)

/-- C29: after every sequence of `push`, `pop`, `erase` (and `search`) operations that runs on
the initially empty queue, under any comparator, the root is BLACK, no RED node has a RED child
and every path from the root to a `nil` leaf contains the same number of BLACK nodes; if the
comparator is a total preorder, the tree is also a binary search tree under it. -/
theorem C29_red_black_invariants (cmp : T → T → Int) (ops : List (Op T))
    (q : priority_queue T) (hq : priority_queue.new.run cmp ops = some q) :
    q.root.color = Color.BLACK ∧ q.root.no_red_red ∧
      (∀ n ∈ q.root.path_blacks, n = q.root.bh) ∧
      (TotalPreorderOn (fun _ => True) cmp → q.root.BST cmp) := by
  have hinv := run_inv cmp ops _ q Inv_new hq
  refine ⟨hinv.black, RB_no_red_red hinv.rb, RB_path_blacks hinv.rb, ?_⟩
  intro hcmp
  obtain ⟨r, -, href⟩ := run_refines hcmp ops (fun _ _ => trivial) q hq
  exact ascending_BST hcmp q.root (href.ordered hcmp).asc

theorem C29_witness :
    priority_queue.new.run (fun a b : Int => b - a)
        [Op.push 3, Op.push 1, Op.push 2, Op.pop] =
      some ⟨node.mk Color.BLACK node.nil 3 2 (node.mk Color.RED node.nil 1 3 node.nil), 2, 4⟩ ∧
    ((⟨node.mk Color.BLACK node.nil 3 2 (node.mk Color.RED node.nil 1 3 node.nil), 2, 4⟩ :
        priority_queue Int).root.color = Color.BLACK ∧
      (⟨node.mk Color.BLACK node.nil 3 2 (node.mk Color.RED node.nil 1 3 node.nil), 2, 4⟩ :
        priority_queue Int).root.no_red_red ∧
      (∀ n ∈ (⟨node.mk Color.BLACK node.nil 3 2 (node.mk Color.RED node.nil 1 3 node.nil), 2,
          4⟩ : priority_queue Int).root.path_blacks,
        n = (⟨node.mk Color.BLACK node.nil 3 2 (node.mk Color.RED node.nil 1 3 node.nil), 2,
          4⟩ : priority_queue Int).root.bh) ∧
      (TotalPreorderOn (fun _ => True) (fun a b : Int => b - a) →
        (⟨node.mk Color.BLACK node.nil 3 2 (node.mk Color.RED node.nil 1 3 node.nil), 2, 4⟩ :
          priority_queue Int).root.BST (fun a b : Int => b - a))) :=
  ⟨rfl, C29_red_black_invariants (fun a b : Int => b - a)
    [Op.push 3, Op.push 1, Op.push 2, Op.pop] _ rfl⟩

/-! ## The scenarios -/

/-- C13: under the EDF scheduler the workload `(1,5,0,0,3,0)` gives process 1 the CPU although
it fails the admission test. At tick 0 the test `Clock + bst > dline` (`0 + 5 > 3`) holds, the
process is popped and `np` is decremented to 0 (it is the one entry of `aborted`); the ready
queue is then empty, the loop breaks, and the set-up that follows makes `x` run all the same:
`Gets CPU` is written at tick 0 and `End` at tick 5. -/
theorem C13_dropped_process_gets_cpu :
    (main (env_of scheduler_t.EDF 100 25 100 10) 100 [line_t.record 1 5 0 0 3 0]).map
        (fun st => (st.outfs, st.aborted, st.stats.np)) =
      Result.done ([⟨0, 1, action_t.GETS_CPU⟩, ⟨5, 1, action_t.END⟩], [1], 0) := rfl

/-- C16 (counterexample): under FIFO with the default quanta the workload `(1,3,0,0,100,0)`,
`(2,2,1,0,100,0)` does not write the trace `(0,1,Gets CPU)`, `(2,1,End)`, `(3,2,Gets CPU)`,
`(4,2,End)`. -/
theorem C16_counterexample :
    (main (env_of scheduler_t.FIFO 100 25 100 10) 100
        [line_t.record 1 3 0 0 100 0, line_t.record 2 2 1 0 100 0]).map (fun st => st.outfs) ≠
      Result.done
        [⟨0, 1, action_t.GETS_CPU⟩, ⟨2, 1, action_t.END⟩, ⟨3, 2, action_t.GETS_CPU⟩,
         ⟨4, 2, action_t.END⟩] := by
  intro h
  have h2 : (main (env_of scheduler_t.FIFO 100 25 100 10) 100
        [line_t.record 1 3 0 0 100 0, line_t.record 2 2 1 0 100 0]).map (fun st => st.outfs) =
      Result.done
        [⟨0, 1, action_t.GETS_CPU⟩, ⟨3, 1, action_t.END⟩, ⟨3, 2, action_t.GETS_CPU⟩,
         ⟨5, 2, action_t.END⟩] := rfl
  exact absurd (Result.done.inj (h2.symm.trans h)) (by decide)

/-- C16 (amended): under FIFO with the default quanta the workload `(1,3,0,0,100,0)`,
`(2,2,1,0,100,0)` writes exactly the trace `(0,1,Gets CPU)`, `(3,1,End)`, `(3,2,Gets CPU)`,
`(5,2,End)`: a process dispatched at tick `c` with burst `b` ends at tick `c + b`, since the
tick of the dispatch does not decrement `bst`. On return `np` is 2 and the turnaround
accumulator is `3 + 5 = 8`, so the average turnaround time is `8 / 2 = 4`. -/
theorem C16_fifo_scenario :
    (main (env_of scheduler_t.FIFO 100 25 100 10) 100
        [line_t.record 1 3 0 0 100 0, line_t.record 2 2 1 0 100 0]).map
        (fun st => (st.outfs, st.stats.np, st.stats.att)) =
      Result.done
        ([⟨0, 1, action_t.GETS_CPU⟩, ⟨3, 1, action_t.END⟩, ⟨3, 2, action_t.GETS_CPU⟩,
          ⟨5, 2, action_t.END⟩], 2, 8) ∧
      average 8 2 = some 4 :=
  ⟨rfl, by norm_num [average]⟩

/-- C17: under SJF with the default quanta the workload `(1,5,0,0,100,0)`, `(2,2,0,0,100,0)`,
`(3,2,0,0,100,0)` dispatches the processes in the order 2, 3, 1 and writes their `End` lines at
ticks 2, 4 and 9. -/
theorem C17_sjf_scenario :
    (main (env_of scheduler_t.SJF 100 25 100 10) 100
        [line_t.record 1 5 0 0 100 0, line_t.record 2 2 0 0 100 0,
         line_t.record 3 2 0 0 100 0]).map (fun st => st.outfs) =
      Result.done
        [⟨0, 2, action_t.GETS_CPU⟩, ⟨2, 2, action_t.END⟩, ⟨2, 3, action_t.GETS_CPU⟩,
         ⟨4, 3, action_t.END⟩, ⟨4, 1, action_t.GETS_CPU⟩, ⟨9, 1, action_t.END⟩] := rfl

/-- C18: under PRIORITY with `kernel_quantum=100`, `user_quantum=25`, `age_timer=3`,
`age_amount=10` and the workload `(1,10,0,40,100,0)`, `(2,10,0,30,100,0)`: after the ticks 0,
1 and 2 process 1 is running and process 2 waits in the ready queue with priority 30 and
stamp 0; after tick 3 process 1 is still running and process 2 waits with priority 40 and
stamp 3. -/
theorem C18_aging_scenario :
    (state_after (env_of scheduler_t.PRIORITY 100 25 3 10) 100 3
        [line_t.record 1 10 0 40 100 0, line_t.record 2 10 0 30 100 0]).map
        (fun r => (r.1, r.2.running, r.2.x.pid, r.2.ready)) =
      Result.done (3, true, 1,
        [{ pid := 2, bst := 10, arr := 0, pri := 30, dline := 100, io := 0, io_counter := 0,
           Clock := 0 }]) ∧
    (state_after (env_of scheduler_t.PRIORITY 100 25 3 10) 100 4
        [line_t.record 1 10 0 40 100 0, line_t.record 2 10 0 30 100 0]).map
        (fun r => (r.1, r.2.running, r.2.x.pid, r.2.ready)) =
      Result.done (4, true, 1,
        [{ pid := 2, bst := 10, arr := 0, pri := 40, dline := 100, io := 0, io_counter := 0,
           Clock := 3 }]) :=
  ⟨rfl, rfl⟩

/-- C19 (counterexample): under FIFO with `user_quantum=3` the workload `(1,4,0,0,100,3)` does
not give process 1 the CPU at tick 6: the trace has `Gets CPU` at tick 5 and no line of
tick 6. -/
theorem C19_counterexample :
    ∃ l, (main (env_of scheduler_t.FIFO 100 3 100 10) 100
        [line_t.record 1 4 0 0 100 3]).map (fun st => st.outfs) = Result.done l ∧
      (⟨5, 1, action_t.GETS_CPU⟩ : event_t) ∈ l ∧ ∀ e ∈ l, e.Clock ≠ 6 :=
  ⟨_, rfl, by decide, by decide⟩

/-- C19 (amended): under each of the schedulers FIFO, SJF and PRIORITY with `user_quantum=3`
the workload `(1,4,0,0,100,3)` writes the trace `(0,1,Gets CPU)`, `(2,1,I/O Interrupt)`,
`(5,1,Gets CPU)`, `(7,1,End)`. After tick 2 the process is the one entry of the I/O list, with
`io_counter = 0` and two ticks of burst left; after tick 4 it is still there with
`io_counter = 2`; in tick 5 the counter reaches 3, the process is pushed to the ready structure
with priority 3 and stamp 5 and is dispatched in the same tick. -/
theorem C19_io_scenario (s : scheduler_t) (hs : s ≠ scheduler_t.EDF) :
    (main (env_of s 100 3 100 10) 100 [line_t.record 1 4 0 0 100 3]).map
        (fun st => st.outfs) =
      Result.done
        [⟨0, 1, action_t.GETS_CPU⟩, ⟨2, 1, action_t.IO_INTER⟩, ⟨5, 1, action_t.GETS_CPU⟩,
         ⟨7, 1, action_t.END⟩] ∧
    (state_after (env_of s 100 3 100 10) 100 3 [line_t.record 1 4 0 0 100 3]).map
        (fun r => (r.2.running, r.2.ready, r.2.io_q)) =
      Result.done (false, [],
        [{ pid := 1, bst := 2, arr := 0, pri := 0, dline := 100, io := 3, io_counter := 0,
           Clock := 0 }]) ∧
    (state_after (env_of s 100 3 100 10) 100 5 [line_t.record 1 4 0 0 100 3]).map
        (fun r => (r.2.running, r.2.ready, r.2.io_q)) =
      Result.done (false, [],
        [{ pid := 1, bst := 2, arr := 0, pri := 0, dline := 100, io := 3, io_counter := 2,
           Clock := 0 }]) ∧
    (state_after (env_of s 100 3 100 10) 100 6 [line_t.record 1 4 0 0 100 3]).map
        (fun r => (r.2.running, r.2.x, r.2.ready, r.2.io_q)) =
      Result.done (true,
        { pid := 1, bst := 2, arr := 0, pri := 3, dline := 100, io := 3, io_counter := 3,
          Clock := 5 }, [], []) := by
  cases s
  · exact ⟨rfl, rfl, rfl, rfl⟩
  · exact ⟨rfl, rfl, rfl, rfl⟩
  · exact ⟨rfl, rfl, rfl, rfl⟩
  · exact absurd rfl hs

theorem C19_witness :
    scheduler_t.SJF ≠ scheduler_t.EDF ∧
    (main (env_of scheduler_t.SJF 100 3 100 10) 100 [line_t.record 1 4 0 0 100 3]).map
        (fun st => st.outfs) =
      Result.done
        [⟨0, 1, action_t.GETS_CPU⟩, ⟨2, 1, action_t.IO_INTER⟩, ⟨5, 1, action_t.GETS_CPU⟩,
         ⟨7, 1, action_t.END⟩] :=
  ⟨by decide, (C19_io_scenario scheduler_t.SJF (by decide)).1⟩

/-! ## The comparator `mycmp_age` -/

/-- C24 fails on the code at tick 0: for the age entry of pid 2 (priority 10, stamp 0) and the
age entry of pid 1 (priority 49, stamp `CLOCK_LAST`) the stamp difference `CLOCK_LAST - 0` is
`INT_MIN` as an `int`, so `mycmp_age` is negative in both directions instead of positive for
the entry that is not at its ceiling. After the pushes of pid 1 and then pid 2 the age queue
holds the entry at its ceiling first: its minimum has priority 49 while an entry of priority 10
is stored behind it. -/
theorem C24_tick0_entry_sorts_after_maxed :
    mycmp_age ⟨2, pcb_low_2⟩ ⟨1, pcb_top_user⟩ < 0 ∧
      mycmp_age ⟨1, pcb_top_user⟩ ⟨2, pcb_low_2⟩ < 0 ∧
      (ready_age_t.new.run mycmp_priority
          [ReadyOp.push pcb_top_user, ReadyOp.push pcb_low_2]).map
          (fun s => (s.age_q.begin.current.map fun p => p.data.data.pri,
            s.age_q.root.toList.map fun p => p.data.pri)) =
        some (some 49, [49, 10]) :=
  ⟨by decide, by decide, rfl⟩

theorem age_rank_eq (p : Int) (h1 : 0 ≤ p) (h2 : p ≤ 99) :
    age_rank p = if p < 50 then 2 * p else 2 * p - 99 := by
  unfold age_rank
  split_ifs with h
  · rw [wrap32_of_range _ (by omega) (by omega)]; ring
  · rw [wrap32_of_range (p - 50) (by omega) (by omega),
      wrap32_of_range ((p - 50) * 2) (by omega) (by omega),
      wrap32_of_range _ (by omega) (by omega)]
    ring

/-- C25: on the priorities `[0, 99]` the rank of `mycmp_age` is `2 * pri` below 50 and
`2 * pri - 99` from 50 on; it maps `[0, 99]` into `[0, 99]`, two different priorities have
different ranks, every number of `[0, 99]` is the rank of a priority, `rank 99 = 99` and
`rank 49 = 98` are the two largest ranks; and for two age entries with equal stamps and
different priorities `mycmp_age` is positive exactly when the rank of the left priority is
below the rank of the right one. -/
theorem C25_age_rank (i j : Nat) (a b : PCB) (ha : 0 ≤ a.pri ∧ a.pri ≤ 99)
    (hb : 0 ≤ b.pri ∧ b.pri ≤ 99) (hc : a.Clock = b.Clock) (hp : a.pri ≠ b.pri) :
    (age_rank a.pri = if a.pri < 50 then 2 * a.pri else 2 * a.pri - 99) ∧
      (0 ≤ age_rank a.pri ∧ age_rank a.pri ≤ 99) ∧
      age_rank a.pri ≠ age_rank b.pri ∧
      (∀ r : Int, 0 ≤ r → r ≤ 99 → ∃ p : Int, 0 ≤ p ∧ p ≤ 99 ∧ age_rank p = r) ∧
      age_rank 99 = 99 ∧ age_rank 49 = 98 ∧
      (∀ p : Int, 0 ≤ p → p ≤ 99 → p ≠ 99 → p ≠ 49 → age_rank p < 98) ∧
      (0 < mycmp_age ⟨i, a⟩ ⟨j, b⟩ ↔ age_rank a.pri < age_rank b.pri) := by
  have ea := age_rank_eq a.pri ha.1 ha.2
  have eb := age_rank_eq b.pri hb.1 hb.2
  refine ⟨ea, ?_, ?_, ?_, by decide, by decide, ?_, ?_⟩
  · rw [ea]; split_ifs <;> omega
  · rw [ea, eb]; split_ifs <;> omega
  · intro r h1 h2
    rcases Int.emod_two_eq_zero_or_one r with h | h
    · refine ⟨r / 2, by omega, by omega, ?_⟩
      rw [age_rank_eq _ (by omega) (by omega)]
      split_ifs <;> omega
    · refine ⟨(r + 99) / 2, by omega, by omega, ?_⟩
      rw [age_rank_eq _ (by omega) (by omega)]
      split_ifs <;> omega
  · intro p h1 h2 h3 h4
    rw [age_rank_eq p h1 h2]
    split_ifs <;> omega
  · have hr : wrap32 (age_rank b.pri - age_rank a.pri) = age_rank b.pri - age_rank a.pri := by
      apply wrap32_of_range
      · rw [ea, eb]; split_ifs <;> omega
      · rw [ea, eb]; split_ifs <;> omega
    unfold mycmp_age mycmp_age_pcb
    rw [if_neg (not_not_intro hc), if_pos hp, hr]
    omega

theorem C25_witness :
    (0 < mycmp_age ⟨1, pcb_low_2⟩ ⟨2, { pcb_low_2 with pid := 4, pri := 60 }⟩ ↔
      age_rank 10 < age_rank 60) ∧ age_rank 10 = 20 ∧ age_rank 60 = 21 :=
  ⟨(C25_age_rank 1 2 pcb_low_2 { pcb_low_2 with pid := 4, pri := 60 } (by decide) (by decide)
      rfl (by decide)).2.2.2.2.2.2.2, by decide, by decide⟩

/-! ## Runs that leave the specification -/

/-- C14 (counterexample): under EDF the workload `(1,2,0,0,100,0)`, `(2,2,0,0,100,0)`,
`(3,5,0,0,3,0)` returns with `np = 3`, while one pid (pid 2, which waits during the ticks 0
and 1) has a wait counter that is not 0: process 3 is dropped at tick 0 (`np` becomes 2), and
the final pass adds 1 for pid 2. -/
theorem C14_counterexample :
    (main (env_of scheduler_t.EDF 100 25 100 10) 100
        [line_t.record 1 2 0 0 100 0, line_t.record 2 2 0 0 100 0,
         line_t.record 3 5 0 0 3 0]).map
        (fun st => (st.stats.np, (st.wait.filter (fun n => n ≠ 0)).length, st.wait,
          st.aborted)) =
      Result.done (3, 1, [0, 0, 2, 0], [3]) := rfl

theorem erase_single (a : Nat) (x : PCB) :
    (⟨node.mk Color.BLACK node.nil a x node.nil, 1, a + 1⟩ : priority_queue PCB).erase
        ⟨some ⟨a, x⟩⟩ = some ⟨node.nil, 0, a + 1⟩ := by
  simp [priority_queue.erase, locate, delete_node, delete_finish, delete_fixup]

theorem aging_step (fuel a b : Nat) :
    do_aging_loop mycmp_priority (env_of scheduler_t.PRIORITY 100 3 0 0) 5 (fuel + 1)
        (single_ready a b pcb_back_from_io) =
      do_aging_loop mycmp_priority (env_of scheduler_t.PRIORITY 100 3 0 0) 5 fuel
        (single_ready (a + 1) (b + 1) pcb_back_from_io) := by
  have h1 : (single_ready a b pcb_back_from_io).age_q.begin.current =
      some ⟨b, ⟨a, pcb_back_from_io⟩⟩ := rfl
  have h2 : (single_ready a b pcb_back_from_io).ready_q.search mycmp_priority pcb_back_from_io =
      ⟨some ⟨a, pcb_back_from_io⟩⟩ := rfl
  have h3 : (single_ready a b pcb_back_from_io).age_q.pop = some ⟨node.nil, 0, b + 1⟩ := rfl
  have h4 : (single_ready a b pcb_back_from_io).ready_q.erase ⟨some ⟨a, pcb_back_from_io⟩⟩ =
      some ⟨node.nil, 0, a + 1⟩ := erase_single a _
  have h5 : ready_age_t.push mycmp_priority ⟨⟨node.nil, 0, a + 1⟩, ⟨node.nil, 0, b + 1⟩⟩
      pcb_back_from_io = some (single_ready (a + 1) (b + 1) pcb_back_from_io) := rfl
  have h6 : promote_priority pcb_back_from_io ops_t.AGE (env_of scheduler_t.PRIORITY 100 3 0 0) =
      pcb_back_from_io := rfl
  rw [do_aging_loop]
  simp only [h1, h2, h3, h4, h6]
  have h7 : (if ISMAXED pcb_back_from_io.pri = true then
      { pcb_back_from_io with Clock := CLOCK_LAST } else { pcb_back_from_io with Clock := 5 }) =
      pcb_back_from_io := rfl
  simp only [h7, h5]
  rfl

theorem aging_never_ends (fuel a b : Nat) :
    do_aging_loop mycmp_priority (env_of scheduler_t.PRIORITY 100 3 0 0) 5 fuel
      (single_ready a b pcb_back_from_io) = Result.out_of_fuel := by
  induction fuel generalizing a b with
  | zero => rfl
  | succ n ih => rw [aging_step]; exact ih _ _

/-- C22 fails on the code for `--age_timer=0`. The ready structure holds the one PCB that
`do_io` pushed at tick 5 (pid 1, priority 3, stamp 5). With `--age_amount=0` the call of
`do_aging` at tick 5 never returns: whatever the number of iterations allowed, the loop is
still running after them (each iteration finds `Clock - stamp == 0`, re-inserts the PCB with
priority 3 and stamp 5, and finds it again); the run of `main` on the workload
`(1,4,0,0,100,3)` with `--user_quantum=3` reaches this call. With `--age_amount=10` the call
returns, after five promotions of the one ready process (3, 13, 23, 33, 43, 49): five
iterations do not end the loop, the sixth does, with the process at priority 49. -/
theorem C22_aging_does_not_terminate (fuel : Nat) :
    (ready_age_t.new.push mycmp_priority pcb_back_from_io).map
        (do_aging_loop mycmp_priority (env_of scheduler_t.PRIORITY 100 3 0 0) 5 fuel) =
      some Result.out_of_fuel ∧
    main (env_of scheduler_t.PRIORITY 100 3 0 0) 100 [line_t.record 1 4 0 0 100 3] =
      Result.out_of_fuel ∧
    (ready_age_t.new.push mycmp_priority pcb_back_from_io).map
        (do_aging_loop mycmp_priority (env_of scheduler_t.PRIORITY 100 3 0 10) 5 5) =
      some Result.out_of_fuel ∧
    (ready_age_t.new.push mycmp_priority pcb_back_from_io).map
        (fun s => (do_aging_loop mycmp_priority (env_of scheduler_t.PRIORITY 100 3 0 10) 5 6
          s).map fun s2 => s2.ready_q.root.toList) =
      some (Result.done [{ pcb_back_from_io with pri := 49, Clock := CLOCK_LAST }]) := by
  refine ⟨?_, rfl, rfl, rfl⟩
  have h : ready_age_t.new.push mycmp_priority pcb_back_from_io =
      some (single_ready 1 1 pcb_back_from_io) := rfl
  rw [h, Option.map_some', aging_never_ends]

/-- C30 fails on the code: on the workload `(1,5,0,49,100,0)`, `(2,5,0,10,100,0)`,
`(3,5,0,10,100,0)` with the default quanta and age timer the tick loop does not reach its end
under any of the four schedulers. The three arrivals of tick 0 are pushed, and the `pop` of the
first dispatch is undefined (`age_q.erase(end())`): for every bound of at least 3 iterations on
the inner loops the run is undefined at tick 0. -/
theorem C30_tick_loop_undefined_at_tick0 (s : scheduler_t) (n : Nat) :
    main (env_of s 100 25 100 10) (n + 3) workload_tick0 = Result.undefined := by
  cases s <;> rfl

/-- C31 fails on the code for a negative `--age_amount`: under PRIORITY with the quanta 100
and 25, `--age_timer=1` and `--age_amount=-1`, on the workload `(1,5,0,10,100,0)`,
`(2,5,0,5,100,3)`, process 2 (`io = 3`) waits in the ready queue with priority 5 after tick 0
and with priority 4 after tick 1; it never receives a `Clock Interrupt`. -/
theorem C31_priority_of_io_process_decreases :
    (state_after (env_of scheduler_t.PRIORITY 100 25 1 (-1)) 100 1
        [line_t.record 1 5 0 10 100 0, line_t.record 2 5 0 5 100 3]).map
        (fun r => r.2.ready) =
      Result.done [{ pid := 2, bst := 5, arr := 0, pri := 5, dline := 100, io := 3,
                     io_counter := 0, Clock := 0 }] ∧
    (state_after (env_of scheduler_t.PRIORITY 100 25 1 (-1)) 100 2
        [line_t.record 1 5 0 10 100 0, line_t.record 2 5 0 5 100 3]).map
        (fun r => r.2.ready) =
      Result.done [{ pid := 2, bst := 5, arr := 0, pri := 4, dline := 100, io := 3,
                     io_counter := 0, Clock := 1 }] ∧
    (main (env_of scheduler_t.PRIORITY 100 25 1 (-1)) 100
        [line_t.record 1 5 0 10 100 0, line_t.record 2 5 0 5 100 3]).map
        (fun st => st.outfs) =
      Result.done
        [⟨0, 1, action_t.GETS_CPU⟩, ⟨5, 1, action_t.END⟩, ⟨5, 2, action_t.GETS_CPU⟩,
         ⟨10, 2, action_t.END⟩] :=
  ⟨rfl, rfl, rfl⟩

/-! ## The process count under EDF -/

theorem Result.bind_eq_done {α β : Type} {r : Result α} {f : α → Result β} {b : β}
    (h : r.bind f = Result.done b) : ∃ a, r = Result.done a ∧ f a = Result.done b := by
  cases r with
  | done a => exact ⟨a, rfl, h⟩
  | undefined => cases h
  | out_of_fuel => cases h

theorem Result.of_option_eq_done {α : Type} {o : Option α} {a : α}
    (h : Result.of_option o = Result.done a) : o = some a := by
  cases o with
  | none => cases h
  | some b => cases h; rfl

theorem advance_track (cmp : PCB → PCB → Int) (env : env_t) (Clock : Nat) (st st2 : sim_t)
    (h : advance cmp env Clock st = some st2) : np_track st2 = np_track st := by
  unfold advance at h
  simp only at h
  split_ifs at h
  · cases h; rfl
  · simp only [Option.map_eq_some'] at h
    obtain ⟨r, -, rfl⟩ := h
    rfl
  · cases h; rfl
  · cases h; rfl

theorem edf_scan_track (cmp : PCB → PCB → Int) (Clock fuel : Nat) (st st2 : sim_t)
    (h : edf_scan cmp Clock fuel st = Result.done st2) : np_track st2 = np_track st := by
  induction fuel generalizing st with
  | zero => cases h
  | succ n ih =>
      rw [edf_scan] at h
      split_ifs at h with h1 h2
      · split at h
        · cases h
        · rename_i r hr
          have hstep :
              np_track
                { st with wait := st.wait.set (int_to_size st.x.pid) 0,
                          ready_age_q := r,
                          stats := { st.stats with np := size_sub st.stats.np 1 },
                          aborted := st.aborted ++ [st.x.pid] } = np_track st := by
            simp only [np_track, size_sub, List.length_append, List.length_singleton]
            omega
          simp only at h
          split_ifs at h
          · cases h; exact hstep
          · split at h
            · cases h
            · rename_i y hy
              rw [ih _ h]
              exact hstep
      · cases h; rfl

theorem get_next_track (cmp : PCB → PCB → Int) (env : env_t) (Clock fuel : Nat) (st st2 : sim_t)
    (h : get_next cmp env Clock fuel st = Result.done st2) : np_track st2 = np_track st := by
  unfold get_next at h
  split_ifs at h
  · split at h
    · cases h
    · obtain ⟨st3, h3, h4⟩ := Result.bind_eq_done h
      have e3 := edf_scan_track _ _ _ _ _ h3
      split_ifs at h4
      · cases h4; exact e3
      · have h5 := Result.of_option_eq_done h4
        simp only [Option.map_eq_some'] at h5
        obtain ⟨r, -, rfl⟩ := h5
        exact e3
  · split at h
    · cases h; rfl
    · cases h

theorem dispatch_track (cmp : PCB → PCB → Int) (env : env_t) (Clock fuel : Nat) (st st2 : sim_t)
    (h : dispatch cmp env Clock fuel st = Result.done st2) : np_track st2 = np_track st := by
  unfold dispatch at h
  split_ifs at h
  · obtain ⟨st3, h3, h4⟩ := Result.bind_eq_done h
    cases h4
    have e := get_next_track _ _ _ _ _ _ h3
    exact e
  · cases h; rfl

theorem account_track (env : env_t) (st st2 : sim_t) (h : account env st = some st2) :
    np_track st2 = np_track st := by
  unfold account at h
  split_ifs at h
  · simp only [Option.bind_eq_some, Option.map_eq_some'] at h
    obtain ⟨l, -, w, -, rfl⟩ := h
    rfl
  · cases h; rfl

theorem tick_track (cmp : PCB → PCB → Int) (env : env_t) (fuel Clock : Nat) (st st2 : sim_t)
    (h : tick cmp env fuel Clock st = Result.done st2) : np_track st2 = np_track st := by
  unfold tick at h
  obtain ⟨r1, -, h⟩ := Result.bind_eq_done h
  obtain ⟨r2, -, h⟩ := Result.bind_eq_done h
  obtain ⟨r3, -, h⟩ := Result.bind_eq_done h
  unfold schedule at h
  obtain ⟨st4, h4, h⟩ := Result.bind_eq_done h
  obtain ⟨st5, h5, h⟩ := Result.bind_eq_done h
  rw [account_track _ _ _ (Result.of_option_eq_done h), dispatch_track _ _ _ _ _ _ h5]
  split_ifs at h4
  · have e := advance_track _ _ _ _ _ (Result.of_option_eq_done h4)
    exact e
  · cases h4; rfl

theorem ticks_track (cmp : PCB → PCB → Int) (env : env_t) (fuel n Clock : Nat) (st : sim_t)
    (r : Nat × sim_t) (h : ticks cmp env fuel n Clock st = Result.done r) :
    np_track r.2 = np_track st := by
  induction n generalizing Clock st with
  | zero => cases h; rfl
  | succ n ih =>
      rw [ticks] at h
      split_ifs at h
      · obtain ⟨st2, h2, h3⟩ := Result.bind_eq_done h
        rw [ih _ _ h3, tick_track _ _ _ _ _ _ h2]
      · cases h; rfl

theorem run_loop_track (cmp : PCB → PCB → Int) (env : env_t) (fuel Clock : Nat) (st st2 : sim_t)
    (h : run_loop cmp env fuel Clock st = Result.done st2) : np_track st2 = np_track st := by
  unfold run_loop at h
  obtain ⟨r, h2, h3⟩ := Result.bind_eq_done h
  split_ifs at h3
  cases h3
  exact ticks_track _ _ _ _ _ _ _ h2

/-- C14 (amended): for every scheduler, configuration and new queue, when the tick loop of
`run_scheduler` ends, `np` plus the number of processes that the EDF admission test dropped is
the number of processes of the new queue on entry (as `size_t` arithmetic): `np` starts as that
number and is decremented once for every dropped process, and nothing else changes it before the
final pass over the wait counters. -/
theorem C14_np_after_tick_loop (env : env_t) (fuel : Nat) (new_q : priority_queue PCB) :
    (run_loop (scheduler_cmp env.scheduler) env fuel 0
        (sim_t.init env new_q { awt := 0, att := 0, np := new_q.size })).map
        (fun st => (st.stats.np + st.aborted.length) % 2 ^ 64) =
      (run_loop (scheduler_cmp env.scheduler) env fuel 0
        (sim_t.init env new_q { awt := 0, att := 0, np := new_q.size })).map
        (fun _ => new_q.size % 2 ^ 64) := by
  cases h : run_loop (scheduler_cmp env.scheduler) env fuel 0
      (sim_t.init env new_q { awt := 0, att := 0, np := new_q.size }) with
  | done st =>
      exact congrArg Result.done (run_loop_track _ _ _ _ _ _ h)
  | undefined => rfl
  | out_of_fuel => rfl

/-! ## The loader -/

theorem VALID_iff (x : PCB) :
    VALID x = true ↔
      (x.pid > 0 ∧ x.bst > 0 ∧ x.arr ≥ 0 ∧ 0 ≤ x.pri ∧ x.pri ≤ 99 ∧ x.dline > 0 ∧ x.io ≥ 0) := by
  simp [VALID, and_assoc]

/-- C15: for a data line with exactly five tabs whose six integers are read as
`(pid, bst, arr, pri, dline, io)`, and a new queue that satisfies the queue invariant (as every
queue built by the loader does): if `pid > 0`, `bst > 0`, `arr >= 0`, `0 <= pri <= 99`,
`dline > 0` and `io >= 0`, the line's record is pushed (the queue holds one element more, the
record together with the elements held before), and otherwise the queue is left as it is; in
both cases the lines that follow are processed from the resulting queue. -/
theorem C15_loader_validation (new_q : priority_queue PCB) (hq : new_q.Inv)
    (pid bst arr pri dline io : Int) (rest : List line_t) :
    ((pid > 0 ∧ bst > 0 ∧ arr ≥ 0 ∧ 0 ≤ pri ∧ pri ≤ 99 ∧ dline > 0 ∧ io ≥ 0) →
      ∃ q2, create_new_queue_line new_q (line_t.record pid bst arr pri dline io) = some q2 ∧
        q2.Inv ∧ q2.size = new_q.size + 1 ∧
        q2.root.toList.Perm (record_pcb pid bst arr pri dline io :: new_q.root.toList) ∧
        create_new_queue_from new_q (line_t.record pid bst arr pri dline io :: rest) =
          create_new_queue_from q2 rest) ∧
    (¬ (pid > 0 ∧ bst > 0 ∧ arr ≥ 0 ∧ 0 ≤ pri ∧ pri ≤ 99 ∧ dline > 0 ∧ io ≥ 0) →
      create_new_queue_line new_q (line_t.record pid bst arr pri dline io) = some new_q ∧
        create_new_queue_from new_q (line_t.record pid bst arr pri dline io :: rest) =
          create_new_queue_from new_q rest) := by
  constructor
  · intro hv
    have hv2 := (VALID_iff (record_pcb pid bst arr pri dline io)).2 hv
    obtain ⟨q2, hpush, hinv, hsz, -, l1, l2, he1, he2⟩ := push_spec mycmp_new new_q
      (record_pcb pid bst arr pri dline io) hq
    have hline : create_new_queue_line new_q (line_t.record pid bst arr pri dline io) =
        some q2 := by
      simp only [create_new_queue_line, hv2, if_true, hpush]
    refine ⟨q2, hline, hinv, hsz, ?_, ?_⟩
    · unfold node.toList
      rw [he1, he2]
      simp only [List.map_append, List.map_cons]
      exact List.perm_middle
    · simp only [create_new_queue_from, hline, Option.some_bind]
  · intro hv
    have hv2 : ¬ VALID (record_pcb pid bst arr pri dline io) = true :=
      fun e => hv ((VALID_iff _).1 e)
    have hline : create_new_queue_line new_q (line_t.record pid bst arr pri dline io) =
        some new_q := by
      simp only [create_new_queue_line, hv2, if_false]
      rfl
    exact ⟨hline, by simp only [create_new_queue_from, hline, Option.some_bind]⟩

theorem C15_witness :
    (create_new_queue_line priority_queue.new (line_t.record 1 3 0 100 100 0) =
        some priority_queue.new ∧
      create_new_queue_from priority_queue.new
          [line_t.record 1 3 0 100 100 0, line_t.record 2 2 1 0 100 0] =
        create_new_queue_from priority_queue.new [line_t.record 2 2 1 0 100 0]) ∧
    (create_new_queue [line_t.record 1 3 0 100 100 0, line_t.record 2 2 1 0 100 0]).map
        (fun q => q.root.toList) =
      some [record_pcb 2 2 1 0 100 0] :=
  ⟨(C15_loader_validation priority_queue.new Inv_new 1 3 0 100 100 0
      [line_t.record 2 2 1 0 100 0]).2 (by decide), rfl⟩

/-! ## The running block -/

/-- C20: the block `if (running)` of a tick, for every state. With `x.bst` decremented and `tq`
incremented: (1) if `bst == 0`, `End` is written, `running` is cleared and `Clock` is added to
the turnaround accumulator; (2) else if `tq == org_tq`, `Clock Interrupt` is written, `x` is
demoted, stamped with `Clock` and pushed to the ready structure, and `running` is cleared;
(3) else if the scheduler is not EDF, `io != 0` and `tq == org_tq - 1`, `I/O Interrupt` is
written, `io_counter` is set to 0, `x` is appended to the I/O list and `running` is cleared;
(4) else only `x.bst` and `tq` change. -/
theorem C20_running_block (cmp : PCB → PCB → Int) (env : env_t) (Clock : Nat) (st : sim_t) :
    (wrap32 (st.x.bst - 1) = 0 →
      advance cmp env Clock st =
        some { st with x := { st.x with bst := wrap32 (st.x.bst - 1) },
                       tq := wrap32 (st.tq + 1), running := false,
                       outfs := st.outfs ++ [⟨Clock, st.x.pid, action_t.END⟩],
                       stats := { st.stats with att := st.stats.att + Clock } }) ∧
    (wrap32 (st.x.bst - 1) ≠ 0 → wrap32 (st.tq + 1) = st.org_tq →
      advance cmp env Clock st =
        (st.ready_age_q.push cmp
            { demote_priority { st.x with bst := wrap32 (st.x.bst - 1) } env with
              Clock := Clock }).map fun r =>
          { st with x := { demote_priority { st.x with bst := wrap32 (st.x.bst - 1) } env with
                           Clock := Clock },
                    tq := wrap32 (st.tq + 1), running := false, ready_age_q := r,
                    outfs := st.outfs ++ [⟨Clock, st.x.pid, action_t.TQ_INTER⟩] }) ∧
    (wrap32 (st.x.bst - 1) ≠ 0 → wrap32 (st.tq + 1) ≠ st.org_tq →
      (env.scheduler ≠ scheduler_t.EDF ∧ st.x.io ≠ 0 ∧
        wrap32 (st.tq + 1) = wrap32 (st.org_tq - 1)) →
      advance cmp env Clock st =
        some { st with x := { st.x with bst := wrap32 (st.x.bst - 1), io_counter := 0 },
                       tq := wrap32 (st.tq + 1), running := false,
                       io_q := st.io_q ++
                         [{ st.x with bst := wrap32 (st.x.bst - 1), io_counter := 0 }],
                       outfs := st.outfs ++ [⟨Clock, st.x.pid, action_t.IO_INTER⟩] }) ∧
    (wrap32 (st.x.bst - 1) ≠ 0 → wrap32 (st.tq + 1) ≠ st.org_tq →
      ¬ (env.scheduler ≠ scheduler_t.EDF ∧ st.x.io ≠ 0 ∧
        wrap32 (st.tq + 1) = wrap32 (st.org_tq - 1)) →
      advance cmp env Clock st =
        some { st with x := { st.x with bst := wrap32 (st.x.bst - 1) },
                       tq := wrap32 (st.tq + 1) }) := by
  refine ⟨fun h1 => ?_, fun h1 h2 => ?_, fun h1 h2 h3 => ?_, fun h1 h2 h3 => ?_⟩
  · unfold advance
    simp only [h1, if_true]
  · unfold advance
    simp only [h1, h2, if_true, if_false]
  · unfold advance
    simp only [h1, h2, if_false]
    rw [if_pos h3]
  · unfold advance
    simp only [h1, h2, if_false]
    rw [if_neg h3]
/-! ## `do_io` -/

theorem promote_priority_pri (x : PCB) (op : ops_t) (env : env_t)
    (h1 : -2147483648 ≤ x.pri + (if op = ops_t.IO_ then x.io else env.age_val))
    (h2 : x.pri + (if op = ops_t.IO_ then x.io else env.age_val) < 2147483648) :
    (promote_priority x op env).pri =
      min (if 50 ≤ x.pri ∧ x.pri ≤ 99 then 99 else 49)
        (x.pri + (if op = ops_t.IO_ then x.io else env.age_val)) := by
  unfold promote_priority
  simp only [wrap32_of_range _ h1 h2]
  by_cases h : 50 ≤ x.pri ∧ x.pri ≤ 99
  · rw [if_pos ((ISKERNEL_true _).2 h), if_pos h]
    rcases le_or_lt 99 (x.pri + (if op = ops_t.IO_ then x.io else env.age_val)) with h3 | h3
    · rw [if_pos (ge_iff_le.2 h3), min_eq_left h3]
    · rw [if_neg (not_le.2 h3), min_eq_right (le_of_lt h3)]
  · have hk2 : ¬ ISKERNEL x.pri = true := fun e => h ((ISKERNEL_true _).1 e)
    rw [if_neg hk2, if_neg h]
    rcases le_or_lt 49 (x.pri + (if op = ops_t.IO_ then x.io else env.age_val)) with h3 | h3
    · rw [if_pos (ge_iff_le.2 h3)]
      exact (min_eq_left h3).symm
    · rw [if_neg (not_le.2 h3)]
      exact (min_eq_right (le_of_lt h3)).symm

theorem stamp_pri (x : PCB) (Clock : Nat) : (stamp x Clock).pri = x.pri := by
  unfold stamp; split_ifs <;> rfl

theorem stamp_Clock (x : PCB) (Clock : Nat) :
    (stamp x Clock).Clock = if x.pri = 49 ∨ x.pri = 99 then CLOCK_LAST else Clock := by
  unfold stamp
  by_cases h : x.pri = 49 ∨ x.pri = 99
  · rw [if_pos ((ISMAXED_true _).2 h), if_pos h]
  · rw [if_neg (fun e => h ((ISMAXED_true _).1 e)), if_neg h]

theorem do_io_loop_spec (cmp : PCB → PCB → Int) (env : env_t) (Clock : Nat) (rest : List PCB) :
    ∀ (s : ready_age_t) (done : List PCB),
      do_io_loop cmp env Clock s done rest =
        (s.push_list cmp (((rest.map io_tick).filter io_completed).map fun p =>
            stamp (promote_priority p ops_t.IO_ env) Clock)).map fun s2 =>
          (s2, done ++ (rest.map io_tick).filter fun p => !io_completed p) := by
  induction rest with
  | nil => intro s done; simp [do_io_loop, ready_age_t.push_list]
  | cons p rest ih =>
      intro s done
      rw [do_io_loop]
      by_cases hc : (io_tick p).io_counter = (io_tick p).io
      · have hc2 : io_completed (io_tick p) = true := by simp [io_completed, hc]
        have hc3 : wrap32 (p.io_counter + 1) = p.io := hc
        simp only [if_pos hc3, if_true, List.map_cons, List.filter_cons, hc2,
          ready_age_t.push_list, Bool.not_true, Bool.false_eq_true, if_false]
        cases hp : s.push cmp (stamp (promote_priority (io_tick p) ops_t.IO_ env) Clock) with
        | none =>
            have hp2 : s.push cmp (stamp (promote_priority
                { p with io_counter := wrap32 (p.io_counter + 1) } ops_t.IO_ env) Clock) =
                none := hp
            simp only [hp2, Option.none_bind, Option.map_none']
        | some s2 =>
            have hp2 : s.push cmp (stamp (promote_priority
                { p with io_counter := wrap32 (p.io_counter + 1) } ops_t.IO_ env) Clock) =
                some s2 := hp
            simp only [hp2, Option.some_bind]
            by_cases he : (done ++ rest).isEmpty = true
            · rw [if_pos he]
              have he2 : done ++ rest = [] := List.isEmpty_iff.1 he
              obtain ⟨hd, hr⟩ := List.append_eq_nil.1 he2
              subst hd hr
              simp [ready_age_t.push_list]
            · rw [if_neg he]
              exact ih s2 done
      · have hc2 : io_completed (io_tick p) = false := by simp [io_completed, hc]
        have hc3 : ¬ wrap32 (p.io_counter + 1) = p.io := hc
        simp only [if_neg hc3, if_false, List.map_cons, List.filter_cons, hc2, Bool.not_false,
          if_true, Bool.false_eq_true]
        have e := ih s (done ++ [{ p with io_counter := wrap32 (p.io_counter + 1) }])
        rw [e]
        simp [io_tick]

/-- C27: one call of `do_io` at tick `Clock`, for every I/O list and every ready structure.
Every entry's `io_counter` is incremented; the entries whose incremented counter equals `io`
are promoted, stamped and pushed to the ready structure, once each and in the order of the
list, and the I/O list that is left holds the other entries, incremented, in their order (the
call is undefined exactly when one of the pushes is). For an entry with `io_counter < io` the
increment is by one; for an entry with priority in `[0, 99]` and `1 <= io`, the priority pushed
is `min(cap, pri + io)` with the cap 99 for `pri` in `[50, 99]` and 49 otherwise, and the stamp
pushed is `CLOCK_LAST` if that priority is 49 or 99, else `Clock`. -/
theorem C27_do_io (cmp : PCB → PCB → Int) (env : env_t) (Clock : Nat) (s : ready_age_t)
    (io_q : List PCB) :
    do_io cmp env Clock s io_q =
        (s.push_list cmp (((io_q.map io_tick).filter io_completed).map fun p =>
            stamp (promote_priority p ops_t.IO_ env) Clock)).map
          (fun s2 => (s2, (io_q.map io_tick).filter fun p => !io_completed p)) ∧
      (∀ p : PCB, -2147483648 ≤ p.io_counter → p.io_counter < p.io → p.io < 2147483648 →
        io_tick p = { p with io_counter := p.io_counter + 1 }) ∧
      (∀ p : PCB, 0 ≤ p.pri → p.pri ≤ 99 → 1 ≤ p.io → p.io < 2147483548 →
        (stamp (promote_priority (io_tick p) ops_t.IO_ env) Clock).pri =
            min (if 50 ≤ p.pri ∧ p.pri ≤ 99 then 99 else 49) (p.pri + p.io) ∧
          (stamp (promote_priority (io_tick p) ops_t.IO_ env) Clock).Clock =
            if min (if 50 ≤ p.pri ∧ p.pri ≤ 99 then 99 else 49) (p.pri + p.io) = 49 ∨
                min (if 50 ≤ p.pri ∧ p.pri ≤ 99 then 99 else 49) (p.pri + p.io) = 99
              then CLOCK_LAST else Clock) := by
  refine ⟨?_, ?_, ?_⟩
  · have e := do_io_loop_spec cmp env Clock io_q s []
    simpa [do_io] using e
  · intro p h1 h2 h3
    unfold io_tick
    rw [wrap32_of_range _ (by omega) (by omega)]
  · intro p h1 h2 h3 h4
    have hp : (promote_priority (io_tick p) ops_t.IO_ env).pri =
        min (if 50 ≤ p.pri ∧ p.pri ≤ 99 then 99 else 49) (p.pri + p.io) := by
      have e := promote_priority_pri (io_tick p) ops_t.IO_ env
        (by simp only [io_tick, if_true]; omega) (by simp only [io_tick, if_true]; omega)
      simpa [io_tick] using e
    rw [stamp_pri, stamp_Clock, hp]
    exact ⟨rfl, rfl⟩

/-! ## The effect of the operations of the dual ready structure on the ready queue -/

theorem ready_push_effect (cmp : PCB → PCB → Int) (s s2 : ready_age_t) (x : PCB)
    (hs : s.ready_q.Inv) (h : s.push cmp x = some s2) :
    s2.ready_q.Inv ∧ s2.ready_q.root.toList.Perm (x :: s.ready_q.root.toList) := by
  obtain ⟨rq, hpush, hinv, -, -, l1, l2, he1, he2⟩ := push_spec cmp s.ready_q x hs
  unfold ready_age_t.push at h
  rw [hpush, Option.some_bind] at h
  split at h
  · cases h
  · simp only [Option.bind_eq_some] at h
    obtain ⟨aq, -, h⟩ := h
    split_ifs at h
    cases h
    refine ⟨hinv, ?_⟩
    unfold node.toList
    rw [he1, he2]
    simp only [List.map_append, List.map_cons]
    exact List.perm_middle

theorem top_eq_some (q : priority_queue T) (hq : q.Inv) (t : T) (h : q.top = some t) :
    q.sz ≠ 0 := by
  intro hz
  have hr : q.root = node.nil := by
    have := hq.size
    rw [hz] at this
    cases hroot : q.root with
    | nil => rfl
    | mk c l a d r => rw [hroot] at this; simp only [node.size] at this; omega
  simp [priority_queue.top, hr, tree_minimum] at h

theorem ready_pop_effect (cmp : PCB → PCB → Int) (s s2 : ready_age_t)
    (hs : s.ready_q.Inv) (h : s.pop cmp = some s2) :
    s2.ready_q.Inv ∧ ∃ t, s.top = some t ∧
      s.ready_q.root.toList = t :: s2.ready_q.root.toList := by
  unfold ready_age_t.pop at h
  simp only [Option.bind_eq_some] at h
  obtain ⟨t, ht, h⟩ := h
  have hsz := top_eq_some s.ready_q hs t ht
  obtain ⟨a, d, rest, he, htop⟩ := top_spec s.ready_q hs hsz
  obtain ⟨rq, hpop, hinv, hent, -, -⟩ := pop_spec s.ready_q hs hsz
  split at h
  · cases h
  · simp only [Option.bind_eq_some] at h
    obtain ⟨aq, -, rq2, hrq2, h⟩ := h
    rw [hpop] at hrq2
    cases hrq2
    split_ifs at h
    cases h
    refine ⟨hinv, t, ht, ?_⟩
    rw [htop] at ht
    cases ht
    unfold node.toList
    rw [hent, he]
    rfl

theorem ready_empty_iff (s : ready_age_t) (hs : s.ready_q.Inv) :
    s.empty = true ↔ s.ready_q.root.toList = [] := by
  unfold ready_age_t.empty priority_queue.empty
  rw [beq_iff_eq, hs.size, size_eq_length]
  unfold node.toList
  rw [List.length_eq_zero, List.map_eq_nil_iff]

theorem ready_top_head (s : ready_age_t) (hs : s.ready_q.Inv) (t : PCB)
    (h : s.top = some t) : ∃ rest, s.ready_q.root.toList = t :: rest := by
  have hsz := top_eq_some s.ready_q hs t h
  obtain ⟨a, d, rest, he, htop⟩ := top_spec s.ready_q hs hsz
  unfold ready_age_t.top at h
  rw [htop] at h
  cases h
  exact ⟨rest.map Prod.snd, by unfold node.toList; rw [he]; rfl⟩

theorem ready_push_list_effect (cmp : PCB → PCB → Int) (l : List PCB) :
    ∀ (s s2 : ready_age_t), s.ready_q.Inv → s.push_list cmp l = some s2 →
      s2.ready_q.Inv ∧ s2.ready_q.root.toList.Perm (l ++ s.ready_q.root.toList) := by
  induction l with
  | nil =>
      intro s s2 hs h
      cases h
      exact ⟨hs, List.Perm.refl _⟩
  | cons x l ih =>
      intro s s2 hs h
      simp only [ready_age_t.push_list, Option.bind_eq_some] at h
      obtain ⟨s1, h1, h2⟩ := h
      obtain ⟨hinv1, hp1⟩ := ready_push_effect cmp s s1 x hs h1
      obtain ⟨hinv2, hp2⟩ := ih s1 s2 hinv1 h2
      refine ⟨hinv2, hp2.trans ?_⟩
      exact (List.Perm.append_left l hp1).trans List.perm_middle

/-! ## The components of a tick as sequences of moves -/

theorem Moves.one {env : env_t} {Clock : Nat} {a b : procs_t} (h : Move env Clock a b) :
    Moves env Clock a b := Relation.ReflTransGen.single h

theorem Moves.then {env : env_t} {Clock : Nat} {a b c : procs_t} (h1 : Moves env Clock a b)
    (h2 : Moves env Clock b c) : Moves env Clock a c := Relation.ReflTransGen.trans h1 h2

theorem Moves.rfl_ {env : env_t} {Clock : Nat} {a : procs_t} : Moves env Clock a a :=
  Relation.ReflTransGen.refl

theorem do_io_moves (cmp : PCB → PCB → Int) (env : env_t) (Clock : Nat) (s s2 : ready_age_t)
    (io io2 n : List PCB) (x : Option PCB) (hs : s.ready_q.Inv)
    (h : do_io cmp env Clock s io = some (s2, io2)) :
    s2.ready_q.Inv ∧
      Moves env Clock ⟨n, s.ready_q.root.toList, io, x⟩ ⟨n, s2.ready_q.root.toList, io2, x⟩ := by
  unfold do_io at h
  rw [do_io_loop_spec, Option.map_eq_some'] at h
  obtain ⟨s3, h3, h4⟩ := h
  simp only [List.nil_append, Prod.mk.injEq] at h4
  obtain ⟨rfl, rfl⟩ := h4
  obtain ⟨hinv, hperm⟩ := ready_push_list_effect cmp _ s s3 hs h3
  exact ⟨hinv, (Moves.one (Move.io_done n _ io x)).then
    (Moves.one (Move.reorder n _ _ _ x hperm.symm))⟩

theorem search_cursor_mem (cmp : PCB → PCB → Int) (q : priority_queue PCB) (d : PCB)
    (p : node_ptr PCB) (h : (q.search cmp d).current = some p) :
    (p.addr, p.data) ∈ q.root.entries := by
  have h2 : priority_queue.search_from cmp d q.root = ⟨some p⟩ := by
    unfold priority_queue.search at h
    cases hsf : priority_queue.search_from cmp d q.root with
    | mk c =>
        rw [hsf] at h
        simp only at h
        rw [h]
  exact (search_from_sound cmp d q.root p h2).1

theorem erase_cursor_effect (q q2 : priority_queue PCB) (hq : q.Inv) (p : node_ptr PCB)
    (hmem : (p.addr, p.data) ∈ q.root.entries) (h : q.erase ⟨some p⟩ = some q2) :
    q2.Inv ∧ q.root.toList.Perm (p.data :: q2.root.toList) := by
  obtain ⟨p2, l1, d, l2, hc, hinv, he1, he2, -, -⟩ := erase_result q q2 hq _ h
  cases hc
  have hd : d = p.data := by
    apply nodup_fst_unique hq.nodup (a := p.addr) _ hmem
    rw [he1]
    simp
  subst hd
  refine ⟨hinv, ?_⟩
  unfold node.toList
  rw [he1, he2]
  simp only [List.map_append, List.map_cons]
  exact List.perm_middle

theorem do_aging_moves (cmp : PCB → PCB → Int) (env : env_t) (Clock : Nat) (n i : List PCB)
    (x : Option PCB) :
    ∀ (fuel : Nat) (s s2 : ready_age_t), s.ready_q.Inv →
      do_aging_loop cmp env Clock fuel s = Result.done s2 →
      s2.ready_q.Inv ∧
        Moves env Clock ⟨n, s.ready_q.root.toList, i, x⟩ ⟨n, s2.ready_q.root.toList, i, x⟩ := by
  intro fuel
  induction fuel with
  | zero => intro s s2 _ h; cases h
  | succ k ih =>
      intro s s2 hs h
      rw [do_aging_loop] at h
      split at h
      · cases h; exact ⟨hs, Moves.rfl_⟩
      · rename_i iter_age hbegin
        simp only at h
        split_ifs at h with h1 h2
        · cases h; exact ⟨hs, Moves.rfl_⟩
        · split at h
          · cases h
          · rename_i p hp
            split at h
            · rename_i rq aq hrq haq
              split at h
              · rename_i s3 hs3
                have hmem := search_cursor_mem cmp s.ready_q _ p hp
                have hit : s.ready_q.search cmp iter_age.data.data = ⟨some p⟩ := by
                  cases hsr : s.ready_q.search cmp iter_age.data.data with
                  | mk c => rw [hsr] at hp; simp only at hp; rw [hp]
                rw [hit] at hrq
                obtain ⟨hinv1, hperm1⟩ := erase_cursor_effect s.ready_q rq hs p hmem hrq
                obtain ⟨hinv3, hperm3⟩ := ready_push_effect cmp ⟨rq, aq⟩ s3 _ hinv1 hs3
                obtain ⟨hinv2, hm⟩ := ih s3 s2 hinv3 h
                refine ⟨hinv2, ?_⟩
                refine (Moves.one (Move.reorder n _ _ i x hperm1)).then ?_
                refine (Moves.one (Move.age n p.data _ i x)).then ?_
                exact (Moves.one (Move.reorder n _ _ i x hperm3.symm)).then hm
              · cases h
            · cases h
        · cases h; exact ⟨hs, Moves.rfl_⟩
theorem queue_top_pop (q q2 : priority_queue PCB) (hq : q.Inv) (t : PCB) (ht : q.top = some t)
    (hp : q.pop = some q2) : q2.Inv ∧ q.root.toList = t :: q2.root.toList := by
  have hsz := top_eq_some q hq t ht
  obtain ⟨a, d, rest, he, htop⟩ := top_spec q hq hsz
  obtain ⟨q3, hpop, hinv, hent, -, -⟩ := pop_spec q hq hsz
  rw [hpop] at hp
  cases hp
  rw [htop] at ht
  cases ht
  refine ⟨hinv, ?_⟩
  unfold node.toList
  rw [hent, he]
  rfl

theorem update_moves (cmp : PCB → PCB → Int) (env : env_t) (Clock : Nat) (i : List PCB)
    (x : Option PCB) :
    ∀ (fuel : Nat) (nq : priority_queue PCB) (r : ready_age_t) (res : priority_queue PCB ×
      ready_age_t), nq.Inv → r.ready_q.Inv →
      update_loop cmp Clock fuel nq r = Result.done res →
      res.1.Inv ∧ res.2.ready_q.Inv ∧
        Moves env Clock ⟨nq.root.toList, r.ready_q.root.toList, i, x⟩
          ⟨res.1.root.toList, res.2.ready_q.root.toList, i, x⟩ := by
  intro fuel
  induction fuel with
  | zero => intro nq r res _ _ h; cases h
  | succ k ih =>
      intro nq r res hn hr h
      rw [update_loop] at h
      split at h
      · cases h
      · rename_i t ht
        split_ifs at h with harr
        · split at h
          · rename_i r2 n2 hr2 hn2
            obtain ⟨hinvr, hperm⟩ := ready_push_effect cmp r r2 _ hr hr2
            obtain ⟨hinvn, hlist⟩ := queue_top_pop nq n2 hn t ht hn2
            have hm : Moves env Clock ⟨nq.root.toList, r.ready_q.root.toList, i, x⟩
                ⟨n2.root.toList, r2.ready_q.root.toList, i, x⟩ := by
              rw [hlist]
              exact (Moves.one (Move.arrive t _ _ i x harr)).then
                (Moves.one (Move.reorder _ _ _ i x hperm.symm))
            split_ifs at h
            · cases h
              exact ⟨hinvn, hinvr, hm⟩
            · obtain ⟨h1, h2, h3⟩ := ih n2 r2 res hinvn hinvr h
              exact ⟨h1, h2, hm.then h3⟩
          · cases h
        · cases h
          exact ⟨hn, hr, Moves.rfl_⟩

theorem advance_moves (cmp : PCB → PCB → Int) (env : env_t) (Clock : Nat) (st st2 : sim_t)
    (hi : st.Inv) (hr : st.running = true) (h : advance cmp env Clock st = some st2) :
    st2.Inv ∧ Moves env Clock st.procs st2.procs := by
  have hp : st.procs = ⟨st.new_q.root.toList, st.ready_age_q.ready_q.root.toList, st.io_q,
      some st.x⟩ := by
    simp only [sim_t.procs, sim_t.ready, hr, if_true]
  rw [hp]
  unfold advance at h
  simp only at h
  split_ifs at h
  · cases h
    exact ⟨⟨hi.new_inv, hi.ready_inv⟩, Moves.one (Move.finish _ _ _ _)⟩
  · simp only [Option.map_eq_some'] at h
    obtain ⟨r, hpush, rfl⟩ := h
    obtain ⟨hinv, hperm⟩ := ready_push_effect cmp _ r _ hi.ready_inv hpush
    refine ⟨⟨hi.new_inv, hinv⟩, ?_⟩
    exact (Moves.one (Move.tq_inter _ _ _ st.x)).then
      (Moves.one (Move.reorder _ _ _ _ _ hperm.symm))
  · cases h
    exact ⟨⟨hi.new_inv, hi.ready_inv⟩, Moves.one (Move.io_inter _ _ _ st.x)⟩
  · cases h
    refine ⟨⟨hi.new_inv, hi.ready_inv⟩, ?_⟩
    simp only [sim_t.procs, sim_t.ready, hr, if_true]
    exact Moves.one (Move.step _ _ _ st.x)
theorem procs_idle (st : sim_t) (hr : st.running = false) :
    st.procs = ⟨st.new_q.root.toList, st.ready_age_q.ready_q.root.toList, st.io_q, none⟩ := by
  simp only [sim_t.procs, sim_t.ready, hr, Bool.false_eq_true, if_false]

theorem edf_scan_moves (cmp : PCB → PCB → Int) (env : env_t) (Clock : Nat) :
    ∀ (fuel : Nat) (st st2 : sim_t), edf_scan cmp Clock fuel st = Result.done st2 →
      st.Inv → st.running = false →
      (∃ rest, st.ready_age_q.ready_q.root.toList = st.x :: rest) →
      st2.Inv ∧ st2.running = false ∧
        ∃ R, Moves env Clock st.procs ⟨st2.new_q.root.toList, st2.x :: R, st2.io_q, none⟩ ∧
          (st2.ready_age_q.ready_q.root.toList = st2.x :: R ∨
            (st2.ready_age_q.ready_q.root.toList = [] ∧ R = [])) := by
  intro fuel
  induction fuel with
  | zero => intro st st2 h _ _ _; cases h
  | succ k ih =>
      intro st st2 h hi hr hx
      obtain ⟨rest, hrest⟩ := hx
      rw [edf_scan] at h
      split_ifs at h with h1 h2
      · split at h
        · cases h
        · rename_i r hpop
          obtain ⟨hinv, t, -, hlist⟩ := ready_pop_effect cmp _ r hi.ready_inv hpop
          rw [hrest] at hlist
          obtain ⟨-, hr2⟩ := List.cons.inj hlist
          simp only at h
          split_ifs at h with he
          · cases h
            have hnil : r.ready_q.root.toList = [] := (ready_empty_iff r hinv).1 he
            refine ⟨⟨hi.new_inv, hinv⟩, hr, [], ?_, Or.inr ⟨hnil, rfl⟩⟩
            rw [procs_idle st hr, hrest, hr2, hnil]
            exact Moves.rfl_
          · split at h
            · cases h
            · rename_i y hy
              obtain ⟨rest2, hrest2⟩ := ready_top_head r hinv y hy
              obtain ⟨hinv2, hrun2, R, hm, hor⟩ := ih _ st2 h ⟨hi.new_inv, hinv⟩ hr
                ⟨rest2, hrest2⟩
              refine ⟨hinv2, hrun2, R, ?_, hor⟩
              refine Moves.then ?_ hm
              simp only [sim_t.procs, sim_t.ready, hr, Bool.false_eq_true, if_false, hrest, hr2]
              exact Moves.one (Move.drop _ _ _ _ _)
      · cases h
        refine ⟨hi, hr, rest, ?_, Or.inl hrest⟩
        rw [procs_idle st hr, hrest]
        exact Moves.rfl_

theorem get_next_moves (cmp : PCB → PCB → Int) (env : env_t) (Clock fuel : Nat)
    (st st2 : sim_t) (hi : st.Inv) (hr : st.running = false)
    (h : get_next cmp env Clock fuel st = Result.done st2) :
    st2.Inv ∧ st2.running = false ∧
      Moves env Clock st.procs
        ⟨st2.new_q.root.toList, st2.x :: st2.ready_age_q.ready_q.root.toList, st2.io_q,
          none⟩ := by
  unfold get_next at h
  split_ifs at h
  · split at h
    · cases h
    · rename_i y hy
      obtain ⟨rest, hrest⟩ := ready_top_head _ hi.ready_inv y hy
      obtain ⟨st3, h3, h4⟩ := Result.bind_eq_done h
      obtain ⟨hinv3, hrun3, R, hm, hor⟩ := edf_scan_moves cmp env Clock fuel
        { st with x := y } st3 h3 ⟨hi.new_inv, hi.ready_inv⟩ hr ⟨rest, hrest⟩
      have hm2 : Moves env Clock st.procs
          ⟨st3.new_q.root.toList, st3.x :: R, st3.io_q, none⟩ := by
        simp only [sim_t.procs, sim_t.ready, hr, Bool.false_eq_true, if_false] at hm ⊢
        exact hm
      split_ifs at h4 with he
      · cases h4
        have hnil := (ready_empty_iff _ hinv3.ready_inv).1 he
        rcases hor with hA | ⟨-, hB⟩
        · rw [hA] at hnil; cases hnil
        · refine ⟨hinv3, hrun3, ?_⟩
          rw [hnil, ← hB]
          exact hm2
      · have h5 := Result.of_option_eq_done h4
        simp only [Option.map_eq_some'] at h5
        obtain ⟨r, hpop, rfl⟩ := h5
        obtain ⟨hinv, t, -, hlist⟩ := ready_pop_effect cmp _ r hinv3.ready_inv hpop
        rcases hor with hA | ⟨hB, -⟩
        · rw [hA] at hlist
          obtain ⟨-, hR⟩ := List.cons.inj hlist
          refine ⟨⟨hinv3.new_inv, hinv⟩, hrun3, ?_⟩
          rw [hR] at hm2
          exact hm2
        · rw [hB] at hlist; cases hlist
  · split at h
    · rename_i y r hy hpop
      cases h
      obtain ⟨hinv, t, ht, hlist⟩ := ready_pop_effect cmp _ r hi.ready_inv hpop
      rw [hy] at ht
      cases ht
      refine ⟨⟨hi.new_inv, hinv⟩, hr, ?_⟩
      rw [procs_idle st hr, hlist]
      exact Moves.rfl_
    · cases h

theorem dispatch_moves (cmp : PCB → PCB → Int) (env : env_t) (Clock fuel : Nat)
    (st st2 : sim_t) (hi : st.Inv) (h : dispatch cmp env Clock fuel st = Result.done st2) :
    st2.Inv ∧ Moves env Clock st.procs st2.procs := by
  unfold dispatch at h
  split_ifs at h with hc
  · simp only [Bool.and_eq_true, Bool.not_eq_true'] at hc
    obtain ⟨st3, h3, h4⟩ := Result.bind_eq_done h
    cases h4
    obtain ⟨hinv, -, hm⟩ := get_next_moves cmp env Clock fuel st st3 hi hc.1 h3
    refine ⟨⟨hinv.new_inv, hinv.ready_inv⟩, hm.then ?_⟩
    simp only [sim_t.procs, sim_t.ready, if_true]
    exact Moves.one (Move.dispatch _ _ _ _)
  · cases h
    exact ⟨hi, Moves.rfl_⟩

theorem account_procs (env : env_t) (st st2 : sim_t) (hi : st.Inv)
    (h : account env st = some st2) : st2.Inv ∧ st2.procs = st.procs := by
  unfold account at h
  split_ifs at h
  · simp only [Option.bind_eq_some, Option.map_eq_some'] at h
    obtain ⟨l, -, w, -, rfl⟩ := h
    exact ⟨⟨hi.new_inv, hi.ready_inv⟩, rfl⟩
  · cases h
    exact ⟨⟨hi.new_inv, hi.ready_inv⟩, rfl⟩

theorem tick_moves (cmp : PCB → PCB → Int) (env : env_t) (fuel Clock : Nat) (st st2 : sim_t)
    (hi : st.Inv) (h : tick cmp env fuel Clock st = Result.done st2) :
    st2.Inv ∧ Moves env Clock st.procs st2.procs := by
  unfold tick at h
  obtain ⟨r1, h1, h⟩ := Result.bind_eq_done h
  obtain ⟨r2, h2, h⟩ := Result.bind_eq_done h
  obtain ⟨r3, h3, h⟩ := Result.bind_eq_done h
  unfold schedule at h
  obtain ⟨st4, h4, h⟩ := Result.bind_eq_done h
  obtain ⟨st5, h5, h⟩ := Result.bind_eq_done h
  have h1b : do_io cmp env Clock st.ready_age_q st.io_q = some (r1.1, r1.2) :=
    Result.of_option_eq_done h1
  obtain ⟨hinv1, hm1⟩ := do_io_moves cmp env Clock _ _ _ _ st.new_q.root.toList
    st.procs.run hi.ready_inv h1b
  have hinv2 : r2.ready_q.Inv ∧ Moves env Clock
      ⟨st.new_q.root.toList, r1.1.ready_q.root.toList, r1.2, st.procs.run⟩
      ⟨st.new_q.root.toList, r2.ready_q.root.toList, r1.2, st.procs.run⟩ := by
    split_ifs at h2
    · exact do_aging_moves cmp env Clock _ _ _ fuel r1.1 r2 hinv1 h2
    · cases h2; exact ⟨hinv1, Moves.rfl_⟩
  obtain ⟨hinv2, hm2⟩ := hinv2
  have hinv3 : r3.1.Inv ∧ r3.2.ready_q.Inv ∧ Moves env Clock
      ⟨st.new_q.root.toList, r2.ready_q.root.toList, r1.2, st.procs.run⟩
      ⟨r3.1.root.toList, r3.2.ready_q.root.toList, r1.2, st.procs.run⟩ := by
    split_ifs at h3
    · exact update_moves cmp env Clock _ _ fuel st.new_q r2 r3 hi.new_inv hinv2 h3
    · cases h3; exact ⟨hi.new_inv, hinv2, Moves.rfl_⟩
  obtain ⟨hinv3n, hinv3r, hm3⟩ := hinv3
  have hm03 : Moves env Clock st.procs
      ({ st with new_q := r3.1, ready_age_q := r3.2, io_q := r1.2 } : sim_t).procs :=
    (hm1.then hm2).then hm3
  have hinv4 : st4.Inv ∧ Moves env Clock st.procs st4.procs := by
    split_ifs at h4 with hrun
    · obtain ⟨hi4, hm4⟩ := advance_moves cmp env Clock
        { st with new_q := r3.1, ready_age_q := r3.2, io_q := r1.2 } st4 ⟨hinv3n, hinv3r⟩ hrun
        (Result.of_option_eq_done h4)
      exact ⟨hi4, hm03.then hm4⟩
    · cases h4
      exact ⟨⟨hinv3n, hinv3r⟩, hm03⟩
  obtain ⟨hinv4, hm4⟩ := hinv4
  obtain ⟨hinv5, hm5⟩ := dispatch_moves cmp env Clock fuel st4 st5 hinv4 h5
  obtain ⟨hinv6, hp6⟩ := account_procs env st5 st2 hinv5 (Result.of_option_eq_done h)
  refine ⟨hinv6, ?_⟩
  rw [hp6]
  exact hm4.then hm5

theorem moves_preserve {env : env_t} {Clock : Nat} (I : procs_t → Prop)
    (hI : ∀ a b, Move env Clock a b → I a → I b) {a b : procs_t} (h : Moves env Clock a b)
    (ha : I a) : I b := by
  induction h with
  | refl => exact ha
  | tail _ hstep ih => exact hI _ _ hstep ih

theorem ticks_preserve (cmp : PCB → PCB → Int) (env : env_t) (fuel : Nat)
    (I : procs_t → Prop) (bound : Nat) (hb : bound < 2 ^ 64)
    (hI : ∀ Clock, Clock < bound → ∀ a b, Move env Clock a b → I a → I b) :
    ∀ (n Clock : Nat) (st : sim_t) (r : Nat × sim_t), st.Inv → I st.procs → Clock + n ≤ bound →
      ticks cmp env fuel n Clock st = Result.done r → r.2.Inv ∧ I r.2.procs := by
  intro n
  induction n with
  | zero => intro Clock st r hi hp _ h; cases h; exact ⟨hi, hp⟩
  | succ k ih =>
      intro Clock st r hi hp hle h
      rw [ticks] at h
      split_ifs at h
      · obtain ⟨st2, h2, h3⟩ := Result.bind_eq_done h
        obtain ⟨hi2, hm⟩ := tick_moves cmp env fuel Clock st st2 hi h2
        have hp2 := moves_preserve I (hI Clock (by omega)) hm hp
        have hc : (Clock + 1) % 2 ^ 64 = Clock + 1 := Nat.mod_eq_of_lt (by omega)
        rw [hc] at h3
        exact ih (Clock + 1) st2 r hi2 hp2 (by omega) h3
      · cases h; exact ⟨hi, hp⟩

/-! ## The loader builds the new queue of the accepted records -/

theorem create_new_queue_from_spec (lines : List line_t) :
    ∀ q : priority_queue PCB, q.Inv →
      ∃ q2, create_new_queue_from q lines = some q2 ∧ q2.Inv ∧
        q2.root.toList.Perm (accepted lines ++ q.root.toList) := by
  induction lines with
  | nil => intro q hq; exact ⟨q, rfl, hq, List.Perm.refl _⟩
  | cons l ls ih =>
      intro q hq
      cases l with
      | incomplete =>
          obtain ⟨q2, h1, h2, h3⟩ := ih q hq
          exact ⟨q2, by simpa [create_new_queue_from, create_new_queue_line] using h1, h2,
            by simpa [accepted] using h3⟩
      | record pid bst arr pri dline io =>
          by_cases hv : VALID (record_pcb pid bst arr pri dline io) = true
          · obtain ⟨q1, hpush, hinv, -, -, l1, l2, he1, he2⟩ := push_spec mycmp_new q
              (record_pcb pid bst arr pri dline io) hq
            obtain ⟨q2, h1, h2, h3⟩ := ih q1 hinv
            refine ⟨q2, ?_, h2, ?_⟩
            · simp only [create_new_queue_from, create_new_queue_line, hv, if_true, hpush,
                Option.some_bind]
              exact h1
            · simp only [accepted, hv, if_true]
              refine h3.trans ?_
              have hp : q1.root.toList.Perm
                  (record_pcb pid bst arr pri dline io :: q.root.toList) := by
                unfold node.toList
                rw [he1, he2]
                simp only [List.map_append, List.map_cons]
                exact List.perm_middle
              exact (List.Perm.append_left _ hp).trans List.perm_middle
          · obtain ⟨q2, h1, h2, h3⟩ := ih q hq
            refine ⟨q2, ?_, h2, ?_⟩
            · simp only [create_new_queue_from, create_new_queue_line, hv, if_false,
                Option.some_bind, Bool.false_eq_true]
              exact h1
            · simp only [accepted, hv, if_false, Bool.false_eq_true]
              exact h3

theorem create_new_queue_spec (lines : List line_t) :
    ∃ q, create_new_queue lines = some q ∧ q.Inv ∧ q.root.toList.Perm (accepted lines) := by
  obtain ⟨q, h1, h2, h3⟩ := create_new_queue_from_spec lines priority_queue.new Inv_new
  refine ⟨q, h1, h2, ?_⟩
  simpa [priority_queue.new, node.toList] using h3

theorem state_after_start (env : env_t) (fuel n : Nat) (lines : List line_t)
    (r : Nat × sim_t) (h : state_after env fuel n lines = Result.done r) :
    ∃ q, create_new_queue lines = some q ∧ q.Inv ∧ q.root.toList.Perm (accepted lines) ∧
      ticks (scheduler_cmp env.scheduler) env fuel n 0
        (sim_t.init env q { awt := 0, att := 0, np := q.size }) = Result.done r := by
  obtain ⟨q, h1, h2, h3⟩ := create_new_queue_spec lines
  refine ⟨q, h1, h2, h3, ?_⟩
  unfold state_after at h
  rw [h1] at h
  exact h

theorem init_Inv (env : env_t) (q : priority_queue PCB) (stats : stats_t) (hq : q.Inv) :
    (sim_t.init env q stats).Inv :=
  ⟨hq, Inv_new⟩

theorem init_procs (env : env_t) (q : priority_queue PCB) (stats : stats_t) :
    (sim_t.init env q stats).procs = ⟨q.root.toList, [], [], none⟩ := rfl

/-! ## The pids of a state -/

theorem pid_count_append (q : Int) (l1 l2 : List PCB) :
    pid_count q (l1 ++ l2) = pid_count q l1 + pid_count q l2 := by
  simp [pid_count, List.count_append]

theorem pid_count_cons (q : Int) (p : PCB) (l : List PCB) :
    pid_count q (p :: l) = pid_count q l + (if p.pid = q then 1 else 0) := by
  simp [pid_count, List.count_cons]

theorem pid_count_nil (q : Int) : pid_count q [] = 0 := rfl

theorem pid_count_perm (q : Int) {l1 l2 : List PCB} (h : l1.Perm l2) :
    pid_count q l1 = pid_count q l2 :=
  (h.map PCB.pid).count_eq q

theorem pid_count_map (q : Int) (f : PCB → PCB) (hf : ∀ p, (f p).pid = p.pid) (l : List PCB) :
    pid_count q (l.map f) = pid_count q l := by
  induction l with
  | nil => rfl
  | cons p l ih => rw [List.map_cons, pid_count_cons, pid_count_cons, ih, hf]

theorem pid_count_filter (q : Int) (c : PCB → Bool) (l : List PCB) :
    pid_count q (l.filter c) + pid_count q (l.filter fun p => !c p) = pid_count q l := by
  induction l with
  | nil => rfl
  | cons p l ih =>
      cases hc : c p
      · simp only [List.filter_cons, hc, Bool.not_false, if_true, pid_count_cons,
          Bool.false_eq_true, if_false]
        omega
      · simp only [List.filter_cons, hc, Bool.not_true, if_true, pid_count_cons,
          Bool.false_eq_true, if_false]
        omega

theorem stamp_pid (x : PCB) (Clock : Nat) : (stamp x Clock).pid = x.pid := by
  unfold stamp; split_ifs <;> rfl

theorem promote_priority_pid (x : PCB) (op : ops_t) (env : env_t) :
    (promote_priority x op env).pid = x.pid := by
  unfold promote_priority
  simp only
  split_ifs <;> rfl

theorem demote_priority_pid (x : PCB) (env : env_t) : (demote_priority x env).pid = x.pid := by
  unfold demote_priority
  simp only
  split_ifs <;> rfl

theorem move_pid_count (env : env_t) (Clock : Nat) (q : Int) (a b : procs_t)
    (h : Move env Clock a b) : pid_count q b.all ≤ pid_count q a.all := by
  cases h with
  | reorder n r r2 i x hp =>
      simp only [procs_t.all, pid_count_append, pid_count_perm q hp]
      exact le_refl _
  | io_done n r i x =>
      have h1 := pid_count_filter q io_completed (i.map io_tick)
      have h2 := pid_count_map q io_tick (fun _ => rfl) i
      have h3 := pid_count_map q (fun p => stamp (promote_priority p ops_t.IO_ env) Clock)
        (fun p => by rw [stamp_pid, promote_priority_pid])
        ((i.map io_tick).filter io_completed)
      simp only [procs_t.all, pid_count_append, h3]
      omega
  | age n p r i x =>
      simp only [procs_t.all, pid_count_append, pid_count_cons, stamp_pid,
        promote_priority_pid]
      exact le_refl _
  | arrive p n r i x harr =>
      simp only [procs_t.all, pid_count_append, pid_count_cons, stamp_pid]
      omega
  | finish n r i p =>
      simp only [procs_t.all, pid_count_append, Option.toList, pid_count_nil]
      omega
  | tq_inter n r i p =>
      have e : (demote_priority { p with bst := wrap32 (p.bst - 1) } env).pid = p.pid :=
        demote_priority_pid _ env
      simp only [procs_t.all, pid_count_append, pid_count_cons, Option.toList, pid_count_nil, e]
      omega
  | io_inter n r i p =>
      simp only [procs_t.all, pid_count_append, pid_count_cons, Option.toList, pid_count_nil]
      omega
  | step n r i p =>
      simp only [procs_t.all, pid_count_append, pid_count_cons, Option.toList, pid_count_nil]
      exact le_refl _
  | dispatch n p r i =>
      simp only [procs_t.all, pid_count_append, pid_count_cons, Option.toList, pid_count_nil]
      omega
  | drop n p r i x =>
      simp only [procs_t.all, pid_count_append, pid_count_cons]
      omega

theorem Result.map_eq_done {α β : Type} {f : α → β} {r : Result α} {b : β}
    (h : r.map f = Result.done b) : ∃ a, r = Result.done a ∧ f a = b := by
  cases r with
  | done a => exact ⟨a, rfl, Result.done.inj h⟩
  | undefined => cases h
  | out_of_fuel => cases h

/-- C28: for every scheduler and configuration and every workload whose accepted records have
pairwise different pids, in every state that `run_scheduler` reaches at the end of a tick
(after any number `n` of iterations of the tick loop) the pids of the new queue, the ready
queue, the I/O list and the running process are pairwise different (no pid occurs in two of
them or twice in one), and each of them is the pid of an accepted record. -/
theorem C28_pids_distinct (env : env_t) (fuel n : Nat) (lines : List line_t) (r : Nat × sim_t)
    (hd : ((accepted lines).map PCB.pid).Nodup) (hn : n < 2 ^ 64)
    (h : state_after env fuel n lines = Result.done r) :
    (r.2.procs.all.map PCB.pid).Nodup ∧
      ∀ p ∈ r.2.procs.all, p.pid ∈ (accepted lines).map PCB.pid := by
  obtain ⟨q, -, hq, hperm, ht⟩ := state_after_start env fuel n lines r h
  have key := ticks_preserve (scheduler_cmp env.scheduler) env fuel
    (fun a => ∀ k, pid_count k a.all ≤ pid_count k (accepted lines)) n hn
    (fun Clock _ a b hm ha k => le_trans (move_pid_count env Clock k a b hm) (ha k))
    n 0 _ r (init_Inv env q _ hq)
    (fun k => by
      rw [init_procs]
      simp only [procs_t.all, List.append_nil, Option.toList, pid_count_perm k hperm]
      exact le_refl _)
    (by omega) ht
  obtain ⟨-, hc⟩ := key
  constructor
  · rw [List.nodup_iff_count_le_one]
    intro k
    exact le_trans (hc k) (List.nodup_iff_count_le_one.1 hd k)
  · intro p hp
    have h1 : 0 < pid_count p.pid r.2.procs.all :=
      List.count_pos_iff.2 (List.mem_map_of_mem _ hp)
    exact List.count_pos_iff.1 (lt_of_lt_of_le h1 (hc p.pid))

theorem C28_witness :
    ∃ r, state_after (env_of scheduler_t.FIFO 100 3 100 10) 100 4
        [line_t.record 1 4 0 0 100 3, line_t.record 2 2 1 0 100 0,
         line_t.record 3 2 5 0 100 0] = Result.done r ∧
      (r.2.procs.all.map PCB.pid).Nodup ∧ r.2.procs.all.map PCB.pid = [3, 1, 2] := by
  obtain ⟨r, hr, he⟩ := Result.map_eq_done
    (rfl : (state_after (env_of scheduler_t.FIFO 100 3 100 10) 100 4
        [line_t.record 1 4 0 0 100 3, line_t.record 2 2 1 0 100 0,
         line_t.record 3 2 5 0 100 0]).map (fun r => r.2.procs.all.map PCB.pid) =
      Result.done [3, 1, 2])
  exact ⟨r, hr, (C28_pids_distinct _ 100 4 _ r (by decide) (by decide) hr).1, he⟩

/-! ## The stamps of the ready queue -/

theorem stamp_ok_stamp (x : PCB) (Clock : Nat) (hc : Clock ≠ CLOCK_LAST) :
    stamp_ok (stamp x Clock) := by
  unfold stamp_ok
  rw [stamp_pri, stamp_Clock]
  by_cases h : x.pri = 49 ∨ x.pri = 99
  · simp only [h, if_true]
  · simp only [h, if_false, iff_false]
    exact hc

theorem stamp_io (x : PCB) (Clock : Nat) : (stamp x Clock).io = x.io := by
  unfold stamp; split_ifs <;> rfl

theorem promote_priority_io (x : PCB) (op : ops_t) (env : env_t) :
    (promote_priority x op env).io = x.io := by
  unfold promote_priority
  simp only
  split_ifs <;> rfl

theorem demote_priority_io (x : PCB) (env : env_t) : (demote_priority x env).io = x.io := by
  unfold demote_priority
  simp only
  split_ifs <;> rfl

theorem bounded_stamp (x : PCB) (Clock : Nat) (h : pcb_bounded x) :
    pcb_bounded (stamp x Clock) := by
  unfold pcb_bounded
  rw [stamp_pri, stamp_io]
  exact h

theorem bounded_promote (x : PCB) (op : ops_t) (env : env_t) (h : pcb_bounded x)
    (ha : 0 ≤ env.age_val ∧ env.age_val + 99 < 2147483648) :
    pcb_bounded (promote_priority x op env) := by
  obtain ⟨h1, h2, h3, h4⟩ := h
  have hd : 0 ≤ (if op = ops_t.IO_ then x.io else env.age_val) ∧
      (if op = ops_t.IO_ then x.io else env.age_val) + 99 < 2147483648 := by
    split_ifs
    · exact ⟨h3, h4⟩
    · exact ha
  have e := promote_priority_pri x op env (by omega) (by omega)
  unfold pcb_bounded
  rw [promote_priority_io, e]
  refine ⟨?_, ?_, h3, h4⟩
  · apply le_min
    · split_ifs <;> omega
    · omega
  · apply le_trans (min_le_left _ _)
    split_ifs <;> omega

theorem bounded_demote (x : PCB) (env : env_t) (h : pcb_bounded x)
    (hq : 0 < env.kernel_tq ∧ env.kernel_tq < 2147483648 ∧ 0 < env.user_tq ∧
      env.user_tq < 2147483648) :
    pcb_bounded (demote_priority x env) ∧ (demote_priority x env).pri ≠ 49 ∧
      (demote_priority x env).pri ≠ 99 := by
  obtain ⟨h1, h2, h3, h4⟩ := h
  obtain ⟨q1, q2, q3, q4⟩ := hq
  unfold pcb_bounded
  rw [demote_priority_io]
  unfold demote_priority
  by_cases hk : 50 ≤ x.pri ∧ x.pri ≤ 99
  · rw [if_pos ((ISKERNEL_true _).2 hk)]
    simp only [wrap32_of_range (x.pri - env.kernel_tq) (by omega) (by omega)]
    split_ifs <;> refine ⟨⟨?_, ?_, h3, h4⟩, ?_, ?_⟩ <;> omega
  · rw [if_neg (fun e => hk ((ISKERNEL_true _).1 e))]
    simp only [wrap32_of_range (x.pri - env.user_tq) (by omega) (by omega)]
    split_ifs <;> refine ⟨⟨?_, ?_, h3, h4⟩, ?_, ?_⟩ <;> omega

theorem move_stamps (env : env_t) (Clock : Nat) (hc : Clock ≠ CLOCK_LAST)
    (hq : 0 < env.kernel_tq ∧ env.kernel_tq < 2147483648 ∧ 0 < env.user_tq ∧
      env.user_tq < 2147483648)
    (ha : 0 ≤ env.age_val ∧ env.age_val + 99 < 2147483648) (a b : procs_t)
    (h : Move env Clock a b)
    (hI : (∀ p ∈ a.ready, stamp_ok p) ∧ ∀ p ∈ a.all, pcb_bounded p) :
    (∀ p ∈ b.ready, stamp_ok p) ∧ ∀ p ∈ b.all, pcb_bounded p := by
  obtain ⟨hs, hb⟩ := hI
  cases h with
  | reorder n r r2 i x hp =>
      refine ⟨fun p hp2 => hs p (hp.mem_iff.2 hp2), fun p hp2 => hb p ?_⟩
      simp only [procs_t.all, List.mem_append] at hp2 ⊢
      rcases hp2 with ((h | h) | h) | h
      · exact Or.inl (Or.inl (Or.inl h))
      · exact Or.inl (Or.inl (Or.inr (hp.mem_iff.2 h)))
      · exact Or.inl (Or.inr h)
      · exact Or.inr h
  | io_done n r i x =>
      have hio : ∀ p ∈ i, pcb_bounded p := fun p hp =>
        hb p (by simp only [procs_t.all, List.mem_append]; exact Or.inl (Or.inr hp))
      have hpushed : ∀ p ∈ ((i.map io_tick).filter io_completed).map (fun p =>
          stamp (promote_priority p ops_t.IO_ env) Clock), stamp_ok p ∧ pcb_bounded p := by
        intro p hp
        simp only [List.mem_map, List.mem_filter] at hp
        obtain ⟨p1, ⟨⟨p0, hp0, rfl⟩, -⟩, rfl⟩ := hp
        exact ⟨stamp_ok_stamp _ _ hc, bounded_stamp _ _ (bounded_promote _ _ _ (hio p0 hp0) ha)⟩
      have hkept : ∀ p ∈ (i.map io_tick).filter (fun p => !io_completed p),
          pcb_bounded p := by
        intro p hp
        simp only [List.mem_map, List.mem_filter] at hp
        obtain ⟨⟨p0, hp0, rfl⟩, -⟩ := hp
        exact hio p0 hp0
      constructor
      · intro p hp
        rcases List.mem_append.1 hp with h | h
        · exact (hpushed p h).1
        · exact hs p h
      · intro p hp
        simp only [procs_t.all, List.mem_append] at hp
        rcases hp with ((h | h | h) | h) | h
        · exact hb p (by simp only [procs_t.all, List.mem_append]; exact Or.inl (Or.inl (Or.inl h)))
        · exact (hpushed p h).2
        · exact hb p (by simp only [procs_t.all, List.mem_append]; exact Or.inl (Or.inl (Or.inr h)))
        · exact hkept p h
        · exact hb p (by simp only [procs_t.all, List.mem_append]; exact Or.inr h)
  | age n p0 r i x =>
      have hp0 : pcb_bounded p0 := hb p0 (by simp [procs_t.all])
      constructor
      · intro p hp
        rcases List.mem_cons.1 hp with rfl | h
        · exact stamp_ok_stamp _ _ hc
        · exact hs p (List.mem_cons_of_mem _ h)
      · intro p hp
        simp only [procs_t.all, List.mem_append, List.mem_cons] at hp
        rcases hp with ((h | h | h) | h) | h
        · exact hb p (by simp [procs_t.all, h])
        · rw [h]; exact bounded_stamp _ _ (bounded_promote _ _ _ hp0 ha)
        · exact hb p (by simp [procs_t.all, h])
        · exact hb p (by simp [procs_t.all, h])
        · exact hb p (by simp only [procs_t.all, List.mem_append]; exact Or.inr h)
  | arrive p0 n r i x harr =>
      have hp0 : pcb_bounded p0 := hb p0 (by simp [procs_t.all])
      constructor
      · intro p hp
        rcases List.mem_cons.1 hp with rfl | h
        · exact stamp_ok_stamp _ _ hc
        · exact hs p h
      · intro p hp
        simp only [procs_t.all, List.mem_append, List.mem_cons] at hp
        rcases hp with ((h | h | h) | h) | h
        · exact hb p (by simp [procs_t.all, h])
        · rw [h]; exact bounded_stamp _ _ hp0
        · exact hb p (by simp [procs_t.all, h])
        · exact hb p (by simp [procs_t.all, h])
        · exact hb p (by simp only [procs_t.all, List.mem_append]; exact Or.inr h)
  | finish n r i p0 =>
      refine ⟨hs, fun p hp => hb p ?_⟩
      simp only [procs_t.all, List.mem_append, Option.toList, List.not_mem_nil, or_false] at hp
      simp only [procs_t.all, List.mem_append]
      exact Or.inl hp
  | tq_inter n r i p0 =>
      have hp0 : pcb_bounded p0 := hb p0 (by simp [procs_t.all])
      have hp1 : pcb_bounded { p0 with bst := wrap32 (p0.bst - 1) } := hp0
      obtain ⟨hd1, hd2, hd3⟩ := bounded_demote _ env hp1 hq
      constructor
      · intro p hp
        rcases List.mem_cons.1 hp with rfl | h
        · unfold stamp_ok
          simp only [hd2, hd3, or_self, iff_false]
          exact hc
        · exact hs p h
      · intro p hp
        simp only [procs_t.all, List.mem_append, List.mem_cons, Option.toList,
          List.not_mem_nil, or_false] at hp
        rcases hp with (h | h | h) | h
        · exact hb p (by simp [procs_t.all, h])
        · rw [h]; exact hd1
        · exact hb p (by simp [procs_t.all, h])
        · exact hb p (by simp [procs_t.all, h])
  | io_inter n r i p0 =>
      have hp0 : pcb_bounded p0 := hb p0 (by simp [procs_t.all])
      refine ⟨hs, fun p hp => ?_⟩
      simp only [procs_t.all, List.mem_append, List.mem_cons, Option.toList,
        List.not_mem_nil, or_false, List.mem_singleton] at hp
      rcases hp with (h | h) | h | h
      · exact hb p (by simp [procs_t.all, h])
      · exact hb p (by simp [procs_t.all, h])
      · exact hb p (by simp [procs_t.all, h])
      · rw [h]; exact hp0
  | step n r i p0 =>
      have hp0 : pcb_bounded p0 := hb p0 (by simp [procs_t.all])
      refine ⟨hs, fun p hp => ?_⟩
      simp only [procs_t.all, List.mem_append, Option.toList, List.mem_singleton] at hp
      rcases hp with ((h | h) | h) | h
      · exact hb p (by simp [procs_t.all, h])
      · exact hb p (by simp [procs_t.all, h])
      · exact hb p (by simp [procs_t.all, h])
      · rw [h]; exact hp0
  | dispatch n p0 r i =>
      refine ⟨fun p hp => hs p (List.mem_cons_of_mem _ hp), fun p hp => hb p ?_⟩
      simp only [procs_t.all, List.mem_append, Option.toList, List.mem_singleton,
        List.mem_cons, List.not_mem_nil, or_false] at hp ⊢
      tauto
  | drop n p0 r i x =>
      refine ⟨fun p hp => hs p (List.mem_cons_of_mem _ hp), fun p hp => hb p ?_⟩
      simp only [procs_t.all, List.mem_append, List.mem_cons] at hp ⊢
      rcases hp with ((h | h) | h) | h
      · exact Or.inl (Or.inl (Or.inl h))
      · exact Or.inl (Or.inl (Or.inr (Or.inr h)))
      · exact Or.inl (Or.inr h)
      · exact Or.inr h

theorem accepted_valid (lines : List line_t) : ∀ p ∈ accepted lines, VALID p = true := by
  induction lines with
  | nil => intro p hp; cases hp
  | cons l ls ih =>
      intro p hp
      cases l with
      | incomplete => exact ih p hp
      | record pid bst arr pri dline io =>
          simp only [accepted] at hp
          split_ifs at hp with hv
          · rcases List.mem_cons.1 hp with rfl | h
            · exact hv
            · exact ih p h
          · exact ih p hp

/-- C23: for every scheduler, every workload and every configuration with positive quanta and
an age amount that is not negative (all of them values for which `pri + io`, `pri + age_val`
and `pri - quantum` fit an `int`), in every state that `run_scheduler` reaches at the end of a
tick before tick `CLOCK_LAST`, each PCB of the ready queue has the stamp `CLOCK_LAST` if and
only if its priority is 49 or 99. -/
theorem C23_stamp_invariant (env : env_t) (fuel n : Nat) (lines : List line_t)
    (r : Nat × sim_t)
    (hq : 0 < env.kernel_tq ∧ env.kernel_tq < 2147483648 ∧ 0 < env.user_tq ∧
      env.user_tq < 2147483648)
    (ha : 0 ≤ env.age_val ∧ env.age_val + 99 < 2147483648)
    (hio : ∀ p ∈ accepted lines, p.io + 99 < 2147483648) (hn : n < CLOCK_LAST)
    (h : state_after env fuel n lines = Result.done r) :
    ∀ p ∈ r.2.ready, (p.Clock = CLOCK_LAST ↔ (p.pri = 49 ∨ p.pri = 99)) := by
  obtain ⟨q, -, hinv, hperm, ht⟩ := state_after_start env fuel n lines r h
  have hcl : CLOCK_LAST < 2 ^ 64 := by decide
  have key := ticks_preserve (scheduler_cmp env.scheduler) env fuel
    (fun a => (∀ p ∈ a.ready, stamp_ok p) ∧ ∀ p ∈ a.all, pcb_bounded p) CLOCK_LAST hcl
    (fun Clock hlt a b hm hI => move_stamps env Clock (Nat.ne_of_lt hlt) hq ha a b hm hI)
    n 0 _ r (init_Inv env q _ hinv)
    (by
      rw [init_procs]
      refine ⟨fun p hp => (by cases hp), fun p hp => ?_⟩
      simp only [procs_t.all, List.append_nil, Option.toList] at hp
      have hp2 := hperm.mem_iff.1 hp
      have hv := (VALID_iff p).1 (accepted_valid lines p hp2)
      exact ⟨hv.2.2.2.1, hv.2.2.2.2.1, hv.2.2.2.2.2.2, hio p hp2⟩)
    (by omega) ht
  exact fun p hp => key.2.1 p hp

theorem C23_witness :
    ∃ r, state_after (env_of scheduler_t.PRIORITY 100 25 3 10) 100 7
        [line_t.record 1 10 0 40 100 0, line_t.record 2 10 0 30 100 0] = Result.done r ∧
      r.2.ready = [{ pid := 2, bst := 10, arr := 0, pri := 49, dline := 100, io := 0,
                     io_counter := 0, Clock := CLOCK_LAST }] ∧
      ∀ p ∈ r.2.ready, (p.Clock = CLOCK_LAST ↔ (p.pri = 49 ∨ p.pri = 99)) := by
  obtain ⟨r, hr, he⟩ := Result.map_eq_done
    (rfl : (state_after (env_of scheduler_t.PRIORITY 100 25 3 10) 100 7
        [line_t.record 1 10 0 40 100 0, line_t.record 2 10 0 30 100 0]).map
        (fun r => r.2.ready) =
      Result.done [{ pid := 2, bst := 10, arr := 0, pri := 49, dline := 100, io := 0,
                     io_counter := 0, Clock := CLOCK_LAST }])
  exact ⟨r, hr, he, C23_stamp_invariant _ 100 7 _ r (by decide) (by decide) (by decide)
    (by decide) hr⟩

/-! ## The new queue during the run -/

theorem mycmp_new_total : TotalPreorderOn key_valid mycmp_new := by
  constructor
  · intro a b ha hb
    rw [(mycmp_new_sign a b ha hb).1, (mycmp_new_sign b a hb ha).2]
    omega
  · intro a b c ha hb hc h1 h2
    have n1 := (mycmp_new_sign a b ha hb).2
    have n3 := (mycmp_new_sign b c hb hc).2
    have n4 := (mycmp_new_sign a c ha hc).2
    have h1' : ¬ mycmp_new a b < 0 := by omega
    have h2' : ¬ mycmp_new b c < 0 := by omega
    by_contra h3
    have h3' : mycmp_new a c < 0 := by omega
    rw [n1] at h1'; rw [n3] at h2'; rw [n4] at h3'
    omega

theorem create_new_queue_from_ordered (lines : List line_t)
    (hk : ∀ p ∈ accepted lines, key_valid p) :
    ∀ q : priority_queue PCB, q.Inv → q.Ordered key_valid mycmp_new →
      ∀ q2, create_new_queue_from q lines = some q2 → q2.Ordered key_valid mycmp_new := by
  induction lines with
  | nil => intro q _ ho q2 h; cases h; exact ho
  | cons l ls ih =>
      intro q hq ho q2 h
      cases l with
      | incomplete =>
          exact ih (fun p hp => hk p (by simpa [accepted] using hp)) q hq ho q2
            (by simpa [create_new_queue_from, create_new_queue_line] using h)
      | record pid bst arr pri dline io =>
          by_cases hv : VALID (record_pcb pid bst arr pri dline io) = true
          · have hx : key_valid (record_pcb pid bst arr pri dline io) :=
              hk _ (by simp [accepted, hv])
            obtain ⟨q1, hpush, hinv, hord, -, -, -⟩ := push_ordered mycmp_new_total q
              (record_pcb pid bst arr pri dline io) hq ho hx
            simp only [create_new_queue_from, create_new_queue_line, hv, if_true, hpush,
              Option.some_bind] at h
            exact ih (fun p hp => hk p (by simp [accepted, hv, hp])) q1 hinv hord q2 h
          · simp only [create_new_queue_from, create_new_queue_line, hv, if_false,
              Option.some_bind, Bool.false_eq_true] at h
            exact ih (fun p hp => hk p (by simpa [accepted, hv] using hp)) q hq ho q2 h

theorem int_to_size_eq (i : Int) (c : Nat) (h1 : 0 ≤ i) (h2 : i < 2147483648) :
    int_to_size i = c ↔ i = (c : Int) := by
  unfold int_to_size
  have e : i % 2 ^ 64 = i := Int.emod_eq_of_lt h1 (by omega)
  rw [e]
  omega

theorem ordered_tail (q q2 : priority_queue PCB) (ho : q.Ordered key_valid mycmp_new)
    (h : q2.root.entries = q.root.entries.tail) : q2.Ordered key_valid mycmp_new := by
  constructor
  · intro e he
    rw [h] at he
    exact ho.dom e (List.mem_of_mem_tail he)
  · have := ho.asc
    unfold Ascending node.toList at this ⊢
    rw [h, List.map_tail]
    exact List.Pairwise.tail this

theorem update_loop_spec (cmp : PCB → PCB → Int) (Clock : Nat) :
    ∀ (fuel : Nat) (nq : priority_queue PCB) (ready : ready_age_t)
      (res : priority_queue PCB × ready_age_t), nq.Inv → nq.Ordered key_valid mycmp_new →
      (∀ p ∈ nq.root.toList, (Clock : Int) ≤ p.arr) →
      update_loop cmp Clock fuel nq ready = Result.done res →
      res.1.Inv ∧ res.1.Ordered key_valid mycmp_new ∧
        res.1.root.toList = nq.root.toList.filter (fun p => decide ((Clock : Int) < p.arr)) ∧
        ready.push_list cmp
            ((nq.root.toList.filter (fun p => decide (p.arr = (Clock : Int)))).map
              fun p => stamp p Clock) = some res.2 := by
  intro fuel
  induction fuel with
  | zero => intro nq ready res _ _ _ h; cases h
  | succ k ih =>
      intro nq ready res hn ho hge h
      rw [update_loop] at h
      split at h
      · cases h
      · rename_i t ht
        have hsz := top_eq_some nq hn t ht
        obtain ⟨a, d, rest, he, htop⟩ := top_spec nq hn hsz
        have hdt : d = t := by
          rw [htop] at ht
          exact Option.some.inj ht
        subst hdt
        have hlist : nq.root.toList = d :: rest.map Prod.snd := by
          unfold node.toList; rw [he]; rfl
        have hd : key_valid d := ho.dom (a, d) (by rw [he]; exact List.mem_cons_self _ _)
        have harr := int_to_size_eq d.arr Clock hd.2.2.1 hd.2.2.2.1
        split_ifs at h with hcond
        · have hdc : d.arr = (Clock : Int) := harr.1 hcond
          split at h
          · rename_i r2 n2 hr2 hn2
            obtain ⟨q3, hpop, hinv, hent, -, -⟩ := pop_spec nq hn hsz
            rw [hpop] at hn2
            cases hn2
            have hord := ordered_tail nq n2 ho hent
            have hl2 : n2.root.toList = rest.map Prod.snd := by
              unfold node.toList; rw [hent, he]; rfl
            have hf1 : nq.root.toList.filter (fun p => decide ((Clock : Int) < p.arr)) =
                n2.root.toList.filter (fun p => decide ((Clock : Int) < p.arr)) := by
              rw [hlist, hl2, List.filter_cons]
              simp [hdc]
            have hf2 : nq.root.toList.filter (fun p => decide (p.arr = (Clock : Int))) =
                d :: n2.root.toList.filter (fun p => decide (p.arr = (Clock : Int))) := by
              rw [hlist, hl2, List.filter_cons]
              simp [hdc]
            split_ifs at h with hemp
            · cases h
              have hnil : n2.root.toList = [] := by
                unfold priority_queue.empty at hemp
                rw [beq_iff_eq, hinv.size, size_eq_length] at hemp
                unfold node.toList
                rw [List.map_eq_nil_iff]
                exact List.length_eq_zero.1 hemp
              refine ⟨hinv, hord, ?_, ?_⟩
              · rw [hf1, hnil]; rfl
              · rw [hf2, hnil]
                simp only [List.filter_nil, List.map_cons, List.map_nil,
                  ready_age_t.push_list, hr2, Option.some_bind]
            · have hge2 : ∀ p ∈ n2.root.toList, (Clock : Int) ≤ p.arr := by
                intro p hp
                apply hge p
                rw [hlist, ← hl2]
                exact List.mem_cons_of_mem _ hp
              obtain ⟨h1, h2, h3, h4⟩ := ih n2 r2 res hinv hord hge2 h
              refine ⟨h1, h2, ?_, ?_⟩
              · rw [hf1]; exact h3
              · rw [hf2]
                simp only [List.map_cons, ready_age_t.push_list, hr2, Option.some_bind]
                exact h4
          · cases h
        · cases h
          have hdc : d.arr ≠ (Clock : Int) := fun e => hcond (harr.2 e)
          have hdgt : (Clock : Int) < d.arr := by
            have := hge d (by rw [hlist]; exact List.mem_cons_self _ _)
            omega
          have hall : ∀ p ∈ nq.root.toList, (Clock : Int) < p.arr := by
            intro p hp
            rw [hlist] at hp
            rcases List.mem_cons.1 hp with rfl | hp2
            · exact hdgt
            · have hasc := ho.asc
              unfold Ascending at hasc
              rw [hlist, List.pairwise_cons] at hasc
              have h0 := hasc.1 p hp2
              have hpk : key_valid p := by
                obtain ⟨e, he2, rfl⟩ := List.mem_map.1 hp2
                exact ho.dom e (by rw [he]; exact List.mem_cons_of_mem _ he2)
              have hs := (mycmp_new_sign d p hd hpk).2
              have : ¬ mycmp_new d p < 0 := by omega
              rw [hs] at this
              omega
          refine ⟨hn, ho, ?_, ?_⟩
          · symm
            rw [List.filter_eq_self]
            intro p hp
            simpa using hall p hp
          · have : nq.root.toList.filter (fun p => decide (p.arr = (Clock : Int))) = [] := by
              rw [List.filter_eq_nil_iff]
              intro p hp
              have := hall p hp
              simp only [decide_eq_true_eq]
              omega
            rw [this]
            rfl
theorem advance_new_q (cmp : PCB → PCB → Int) (env : env_t) (Clock : Nat) (st st2 : sim_t)
    (h : advance cmp env Clock st = some st2) : st2.new_q = st.new_q := by
  unfold advance at h
  simp only at h
  split_ifs at h
  · cases h; rfl
  · simp only [Option.map_eq_some'] at h
    obtain ⟨r, -, rfl⟩ := h
    rfl
  · cases h; rfl
  · cases h; rfl

theorem edf_scan_new_q (cmp : PCB → PCB → Int) (Clock fuel : Nat) (st st2 : sim_t)
    (h : edf_scan cmp Clock fuel st = Result.done st2) : st2.new_q = st.new_q := by
  induction fuel generalizing st with
  | zero => cases h
  | succ n ih =>
      rw [edf_scan] at h
      split_ifs at h with h1 h2
      · split at h
        · cases h
        · simp only at h
          split_ifs at h
          · cases h; rfl
          · split at h
            · cases h
            · rw [ih _ h]
      · cases h; rfl

theorem get_next_new_q (cmp : PCB → PCB → Int) (env : env_t) (Clock fuel : Nat)
    (st st2 : sim_t) (h : get_next cmp env Clock fuel st = Result.done st2) :
    st2.new_q = st.new_q := by
  unfold get_next at h
  split_ifs at h
  · split at h
    · cases h
    · obtain ⟨st3, h3, h4⟩ := Result.bind_eq_done h
      have e3 := edf_scan_new_q _ _ _ _ _ h3
      split_ifs at h4
      · cases h4; exact e3
      · have h5 := Result.of_option_eq_done h4
        simp only [Option.map_eq_some'] at h5
        obtain ⟨r, -, rfl⟩ := h5
        exact e3
  · split at h
    · cases h; rfl
    · cases h

theorem dispatch_new_q (cmp : PCB → PCB → Int) (env : env_t) (Clock fuel : Nat)
    (st st2 : sim_t) (h : dispatch cmp env Clock fuel st = Result.done st2) :
    st2.new_q = st.new_q := by
  unfold dispatch at h
  split_ifs at h
  · obtain ⟨st3, h3, h4⟩ := Result.bind_eq_done h
    cases h4
    have e := get_next_new_q _ _ _ _ _ _ h3
    exact e
  · cases h; rfl

theorem account_new_q (env : env_t) (st st2 : sim_t) (h : account env st = some st2) :
    st2.new_q = st.new_q := by
  unfold account at h
  split_ifs at h
  · simp only [Option.bind_eq_some, Option.map_eq_some'] at h
    obtain ⟨l, -, w, -, rfl⟩ := h
    rfl
  · cases h; rfl

theorem tick_new_q (cmp : PCB → PCB → Int) (env : env_t) (fuel Clock : Nat) (st st2 : sim_t)
    (h : tick cmp env fuel Clock st = Result.done st2) :
    (st.new_q.empty = true ∧ st2.new_q = st.new_q) ∨
      ∃ ready res, update_loop cmp Clock fuel st.new_q ready = Result.done res ∧
        st2.new_q = res.1 := by
  unfold tick at h
  obtain ⟨r1, -, h⟩ := Result.bind_eq_done h
  obtain ⟨r2, -, h⟩ := Result.bind_eq_done h
  obtain ⟨r3, h3, h⟩ := Result.bind_eq_done h
  unfold schedule at h
  obtain ⟨st4, h4, h⟩ := Result.bind_eq_done h
  obtain ⟨st5, h5, h⟩ := Result.bind_eq_done h
  have e : st2.new_q = r3.1 := by
    rw [account_new_q _ _ _ (Result.of_option_eq_done h), dispatch_new_q _ _ _ _ _ _ h5]
    split_ifs at h4
    · have e4 := advance_new_q _ _ _ _ _ (Result.of_option_eq_done h4)
      exact e4
    · cases h4; rfl
  by_cases hemp : st.new_q.empty = true
  · left
    simp only [hemp, Bool.not_true, Bool.false_eq_true, if_false] at h3
    cases h3
    exact ⟨hemp, e⟩
  · right
    simp only [hemp, Bool.not_false, if_true] at h3
    exact ⟨r2, r3, h3, e⟩

theorem filter_arr_succ (W : List PCB) (Clock : Nat) :
    (W.filter fun p => decide ((Clock : Int) ≤ p.arr)).filter
        (fun p => decide ((Clock : Int) < p.arr)) =
      W.filter fun p => decide (((Clock + 1 : Nat) : Int) ≤ p.arr) := by
  rw [List.filter_filter]
  congr 1
  funext p
  simp only [Nat.cast_add, Nat.cast_one, Bool.and_eq_decide, decide_eq_decide]
  omega

theorem ticks_new_q (cmp : PCB → PCB → Int) (env : env_t) (fuel : Nat) (W : List PCB) :
    ∀ (n Clock : Nat) (st : sim_t) (r : Nat × sim_t), Clock + n < 2 ^ 64 →
      st.new_q.Inv → st.new_q.Ordered key_valid mycmp_new →
      st.new_q.root.toList = W.filter (fun p => decide ((Clock : Int) ≤ p.arr)) →
      ticks cmp env fuel n Clock st = Result.done r →
      r.2.new_q.Inv ∧ r.2.new_q.Ordered key_valid mycmp_new ∧
        r.2.new_q.root.toList = W.filter (fun p => decide ((r.1 : Int) ≤ p.arr)) := by
  intro n
  induction n with
  | zero => intro Clock st r _ hi ho hl h; cases h; exact ⟨hi, ho, hl⟩
  | succ k ih =>
      intro Clock st r hlt hi ho hl h
      rw [ticks] at h
      split_ifs at h
      · obtain ⟨st2, h2, h3⟩ := Result.bind_eq_done h
        have hc : (Clock + 1) % 2 ^ 64 = Clock + 1 := Nat.mod_eq_of_lt (by omega)
        rw [hc] at h3
        have hnext : st2.new_q.Inv ∧ st2.new_q.Ordered key_valid mycmp_new ∧
            st2.new_q.root.toList =
              W.filter (fun p => decide (((Clock + 1 : Nat) : Int) ≤ p.arr)) := by
          rcases tick_new_q cmp env fuel Clock st st2 h2 with ⟨hemp, e⟩ | ⟨ready, res, hu, e⟩
          · rw [e]
            refine ⟨hi, ho, ?_⟩
            have hnil : st.new_q.root.toList = [] := by
              unfold priority_queue.empty at hemp
              rw [beq_iff_eq, hi.size, size_eq_length] at hemp
              unfold node.toList
              rw [List.map_eq_nil_iff]
              exact List.length_eq_zero.1 hemp
            rw [← filter_arr_succ, ← hl, hnil]
            rfl
          · have hge : ∀ p ∈ st.new_q.root.toList, (Clock : Int) ≤ p.arr := by
              intro p hp
              rw [hl, List.mem_filter] at hp
              simpa using hp.2
            obtain ⟨u1, u2, u3, -⟩ := update_loop_spec cmp Clock fuel st.new_q ready res hi ho
              hge hu
            rw [e]
            refine ⟨u1, u2, ?_⟩
            rw [u3, hl, filter_arr_succ]
        exact ih (Clock + 1) st2 r (by omega) hnext.1 hnext.2.1 hnext.2.2 h3
      · cases h; exact ⟨hi, ho, hl⟩

theorem accepted_key_valid (lines : List line_t)
    (hr : ∀ p ∈ accepted lines, p.pid < 2147483648 ∧ p.arr < 2147483648 ∧
      p.dline < 2147483648) : ∀ p ∈ accepted lines, key_valid p := by
  intro p hp
  have hv := (VALID_iff p).1 (accepted_valid lines p hp)
  obtain ⟨r1, r2, r3⟩ := hr p hp
  exact ⟨hv.1, r1, hv.2.2.1, r2, hv.2.2.2.2.2.1, r3⟩

/-- C26: for every scheduler and configuration and every workload whose accepted records hold
values of an `int`, let `W` be the new queue that the loader builds (the accepted records in
the order of arrival time, then pid). In the state that `run_scheduler` reaches after the
ticks before tick `t` the new queue holds exactly the processes of `W` with `arr >= t`, in
order; and the arrival step of tick `t` (the loop of `update` on this new queue, whatever the
ready structure it is called with), when it returns, leaves exactly the processes with
`arr > t` in the new queue and has pushed exactly the processes of `W` with `arr = t` to the
ready structure, in order, each stamped `CLOCK_LAST` if its priority is 49 or 99 and `t`
otherwise. -/
theorem C26_arrivals (env : env_t) (fuel n : Nat) (lines : List line_t) (r : Nat × sim_t)
    (hr : ∀ p ∈ accepted lines, p.pid < 2147483648 ∧ p.arr < 2147483648 ∧
      p.dline < 2147483648)
    (hn : n < 2 ^ 64) (h : state_after env fuel n lines = Result.done r) :
    ∃ q0, create_new_queue lines = some q0 ∧
      r.2.new_q.root.toList = q0.root.toList.filter (fun p => decide ((r.1 : Int) ≤ p.arr)) ∧
      ∀ (cmp : PCB → PCB → Int) (fuel2 : Nat) (ready : ready_age_t)
        (res : priority_queue PCB × ready_age_t),
        update_loop cmp r.1 fuel2 r.2.new_q ready = Result.done res →
        res.1.root.toList = q0.root.toList.filter (fun p => decide ((r.1 : Int) < p.arr)) ∧
          ready.push_list cmp
              ((q0.root.toList.filter (fun p => decide (p.arr = (r.1 : Int)))).map
                fun p => stamp p r.1) = some res.2 := by
  obtain ⟨q, hq, hinv, hperm, ht⟩ := state_after_start env fuel n lines r h
  have hk := accepted_key_valid lines hr
  have hord : q.Ordered key_valid mycmp_new :=
    create_new_queue_from_ordered lines hk priority_queue.new Inv_new
      (Ordered_new key_valid mycmp_new) q hq
  have hge0 : q.root.toList = q.root.toList.filter (fun p => decide (((0 : Nat) : Int) ≤ p.arr)) := by
    symm
    rw [List.filter_eq_self]
    intro p hp
    have := (hk p (hperm.mem_iff.1 hp)).2.2.1
    simpa using this
  obtain ⟨k1, k2, k3⟩ := ticks_new_q (scheduler_cmp env.scheduler) env fuel q.root.toList n 0
    (sim_t.init env q { awt := 0, att := 0, np := q.size }) r (by omega) hinv hord hge0 ht
  refine ⟨q, hq, k3, ?_⟩
  intro cmp fuel2 ready res hu
  have hge : ∀ p ∈ r.2.new_q.root.toList, (r.1 : Int) ≤ p.arr := by
    intro p hp
    rw [k3, List.mem_filter] at hp
    simpa using hp.2
  obtain ⟨-, -, u3, u4⟩ := update_loop_spec cmp r.1 fuel2 r.2.new_q ready res k1 k2 hge hu
  constructor
  · rw [u3, k3, List.filter_filter]
    congr 1
    funext p
    simp only [Bool.and_eq_decide, decide_eq_decide]
    omega
  · rw [← u4, k3, List.filter_filter]
    congr 3
    funext p
    simp only [Bool.and_eq_decide, decide_eq_decide]
    omega

theorem C26_witness :
    ∃ r, state_after (env_of scheduler_t.FIFO 100 25 100 10) 100 1
        [line_t.record 2 2 1 0 100 0, line_t.record 1 3 0 0 100 0,
         line_t.record 3 2 1 49 100 0] = Result.done r ∧ r.1 = 1 ∧
      r.2.new_q.root.toList = [record_pcb 2 2 1 0 100 0, record_pcb 3 2 1 49 100 0] ∧
      ∃ q0, create_new_queue
          [line_t.record 2 2 1 0 100 0, line_t.record 1 3 0 0 100 0,
           line_t.record 3 2 1 49 100 0] = some q0 ∧
        r.2.new_q.root.toList =
          q0.root.toList.filter (fun p => decide ((r.1 : Int) ≤ p.arr)) := by
  obtain ⟨r, hr, he⟩ := Result.map_eq_done
    (rfl : (state_after (env_of scheduler_t.FIFO 100 25 100 10) 100 1
        [line_t.record 2 2 1 0 100 0, line_t.record 1 3 0 0 100 0,
         line_t.record 3 2 1 49 100 0]).map (fun r => (r.1, r.2.new_q.root.toList)) =
      Result.done (1, [record_pcb 2 2 1 0 100 0, record_pcb 3 2 1 49 100 0]))
  obtain ⟨q0, h1, h2, -⟩ := C26_arrivals _ 100 1 _ r (by decide) (by decide) hr
  exact ⟨r, hr, (Prod.mk.inj he).1, (Prod.mk.inj he).2, q0, h1, h2⟩

/-! ## The run does not depend on the shape of the new queue -/

theorem sorted_perm_eq {α : Type} (R : α → α → Prop) :
    ∀ (l1 l2 : List α), l1.Pairwise R → l2.Pairwise R → l1.Perm l2 →
      (∀ a ∈ l1, ∀ b ∈ l1, R a b → R b a → a = b) → l1 = l2 := by
  intro l1
  induction l1 with
  | nil => intro l2 _ _ hp _; exact hp.nil_eq
  | cons a l ih =>
      intro l2 h1 h2 hp hanti
      cases l2 with
      | nil => exact absurd hp.symm.nil_eq (by simp)
      | cons b m =>
          have hab : a = b := by
            by_contra hne
            have ha : a ∈ m := by
              have := hp.mem_iff.1 (List.mem_cons_self a l)
              rcases List.mem_cons.1 this with e | e
              · exact absurd e hne
              · exact e
            have hb : b ∈ l := by
              have := hp.mem_iff.2 (List.mem_cons_self b m)
              rcases List.mem_cons.1 this with e | e
              · exact absurd e.symm hne
              · exact e
            have r1 : R a b := (List.pairwise_cons.1 h1).1 b hb
            have r2 : R b a := (List.pairwise_cons.1 h2).1 a ha
            exact hne (hanti a (List.mem_cons_self _ _) b (List.mem_cons_of_mem _ hb) r1 r2)
          subst hab
          have hl : l = m := ih m (List.pairwise_cons.1 h1).2 (List.pairwise_cons.1 h2).2
            (List.Perm.cons_inv hp)
            (fun x hx y hy => hanti x (List.mem_cons_of_mem _ hx) y (List.mem_cons_of_mem _ hy))
          rw [hl]

theorem pid_inj_of_nodup (l : List PCB) (hd : (l.map PCB.pid).Nodup) (a b : PCB) (ha : a ∈ l)
    (hb : b ∈ l) (h : a.pid = b.pid) : a = b :=
  List.inj_on_of_nodup_map hd ha hb h

theorem empty_iff_nil (q : priority_queue PCB) (hq : q.Inv) :
    q.empty = true ↔ q.root.toList = [] := by
  unfold priority_queue.empty
  rw [beq_iff_eq, hq.size, size_eq_length]
  unfold node.toList
  rw [List.length_eq_zero, List.map_eq_nil_iff]

theorem same_queue.empty_eq {q1 q2 : priority_queue PCB} (h : same_queue q1 q2) :
    q1.empty = q2.empty := by
  have e1 := empty_iff_nil q1 h.1
  have e2 := empty_iff_nil q2 h.2.1
  rw [h.2.2] at e1
  cases h1 : q1.empty <;> cases h2 : q2.empty <;> simp_all

theorem same_queue.size_eq {q1 q2 : priority_queue PCB} (h : same_queue q1 q2) :
    q1.size = q2.size := by
  unfold priority_queue.size
  rw [h.1.size, h.2.1.size, size_eq_length, size_eq_length]
  have := congrArg List.length h.2.2
  simpa [node.toList] using this

theorem top_of_nil (q : priority_queue PCB) (h : q.root.toList = []) : q.top = none := by
  have hr : q.root = node.nil := by
    unfold node.toList at h
    rw [List.map_eq_nil_iff] at h
    exact entries_eq_nil.1 h
  simp [priority_queue.top, hr, tree_minimum]

theorem top_of_cons (q : priority_queue PCB) (hq : q.Inv) (t : PCB) (rest : List PCB)
    (h : q.root.toList = t :: rest) : q.top = some t ∧
      ∃ q2, q.pop = some q2 ∧ q2.Inv ∧ q2.root.toList = rest := by
  have hsz : q.sz ≠ 0 := by
    rw [hq.size, size_eq_length]
    intro e
    have := List.length_eq_zero.1 e
    unfold node.toList at h
    rw [this] at h
    cases h
  obtain ⟨a, d, rest2, he, htop⟩ := top_spec q hq hsz
  obtain ⟨q2, hpop, hinv, hent, -, -⟩ := pop_spec q hq hsz
  have hl : q.root.toList = d :: rest2.map Prod.snd := by
    unfold node.toList; rw [he]; rfl
  rw [h] at hl
  obtain ⟨e1, e2⟩ := List.cons.inj hl
  refine ⟨by rw [htop, e1], q2, hpop, hinv, ?_⟩
  unfold node.toList
  rw [hent, he, e2]
  rfl

theorem update_loop_agree (cmp : PCB → PCB → Int) (Clock : Nat) :
    ∀ (fuel : Nat) (q1 q2 : priority_queue PCB) (r : ready_age_t), same_queue q1 q2 →
      Result.agree (fun a b => same_queue a.1 b.1 ∧ a.2 = b.2)
        (update_loop cmp Clock fuel q1 r) (update_loop cmp Clock fuel q2 r) := by
  intro fuel
  induction fuel with
  | zero => intro q1 q2 r _; exact trivial
  | succ k ih =>
      intro q1 q2 r hs
      rw [update_loop, update_loop]
      cases hl : q1.root.toList with
      | nil =>
          rw [top_of_nil q1 hl, top_of_nil q2 (hs.2.2 ▸ hl)]
          exact trivial
      | cons t rest =>
          obtain ⟨ht1, p1, hp1, hi1, hl1⟩ := top_of_cons q1 hs.1 t rest hl
          obtain ⟨ht2, p2, hp2, hi2, hl2⟩ := top_of_cons q2 hs.2.1 t rest (hs.2.2 ▸ hl)
          rw [ht1, ht2, hp1, hp2]
          simp only
          have hsame : same_queue p1 p2 := ⟨hi1, hi2, hl1.trans hl2.symm⟩
          split_ifs with hc
          · cases hpush : r.push cmp (stamp t Clock) with
            | none => exact trivial
            | some r2 =>
                simp only
                rw [← hsame.empty_eq]
                split_ifs
                · exact ⟨hsame, rfl⟩
                · exact ih p1 p2 r2 hsame
          · exact ⟨hs, rfl⟩

theorem advance_frame (cmp : PCB → PCB → Int) (env : env_t) (Clock : Nat)
    (q : priority_queue PCB) (st : sim_t) :
    advance cmp env Clock (st.set_new_q q) =
      (advance cmp env Clock st).map (sim_t.set_new_q q) := by
  unfold advance sim_t.set_new_q
  simp only
  split_ifs
  · rfl
  · cases st.ready_age_q.push cmp _ <;> rfl
  · rfl
  · rfl

theorem edf_scan_frame (cmp : PCB → PCB → Int) (Clock : Nat) (q : priority_queue PCB) :
    ∀ (fuel : Nat) (st : sim_t),
      edf_scan cmp Clock fuel (st.set_new_q q) =
        (edf_scan cmp Clock fuel st).map (sim_t.set_new_q q) := by
  intro fuel
  induction fuel with
  | zero => intro st; rfl
  | succ k ih =>
      intro st
      rw [edf_scan, edf_scan]
      simp only [sim_t.set_new_q]
      split_ifs with h1 h2
      · cases hpop : st.ready_age_q.pop cmp with
        | none => rfl
        | some r =>
            simp only
            split_ifs
            · rfl
            · cases htop : r.top with
              | none => rfl
              | some y =>
                  simp only
                  have e := ih
                    { st with wait := st.wait.set (int_to_size st.x.pid) 0,
                              ready_age_q := r,
                              stats := { st.stats with np := size_sub st.stats.np 1 },
                              aborted := st.aborted ++ [st.x.pid],
                              x := y }
                  exact e
      · rfl
      · rfl

theorem Result.map_bind {α β γ : Type} (f : α → β) (g : β → Result γ) (r : Result α) :
    (r.map f).bind g = r.bind fun a => g (f a) := by
  cases r <;> rfl

theorem Result.bind_map {α β γ : Type} (f : β → γ) (g : α → Result β) (r : Result α) :
    (r.bind g).map f = r.bind fun a => (g a).map f := by
  cases r <;> rfl

theorem Result.of_option_map {α β : Type} (f : α → β) (o : Option α) :
    Result.of_option (o.map f) = (Result.of_option o).map f := by
  cases o <;> rfl

theorem get_next_frame (cmp : PCB → PCB → Int) (env : env_t) (Clock fuel : Nat)
    (q : priority_queue PCB) (st : sim_t) :
    get_next cmp env Clock fuel (st.set_new_q q) =
      (get_next cmp env Clock fuel st).map (sim_t.set_new_q q) := by
  unfold get_next
  have e : (st.set_new_q q).ready_age_q = st.ready_age_q := rfl
  rw [e]
  split_ifs
  · cases htop : st.ready_age_q.top with
    | none => rfl
    | some y =>
        show (edf_scan cmp Clock fuel (sim_t.set_new_q q { st with x := y })).bind _ = _
        rw [edf_scan_frame, Result.map_bind, Result.bind_map]
        congr 1
        funext st2
        have e4 : (st2.set_new_q q).ready_age_q = st2.ready_age_q := rfl
        rw [e4]
        split_ifs
        · rfl
        · cases st2.ready_age_q.pop cmp <;> rfl
  · cases st.ready_age_q.top <;> cases st.ready_age_q.pop cmp <;> rfl

theorem dispatch_frame (cmp : PCB → PCB → Int) (env : env_t) (Clock fuel : Nat)
    (q : priority_queue PCB) (st : sim_t) :
    dispatch cmp env Clock fuel (st.set_new_q q) =
      (dispatch cmp env Clock fuel st).map (sim_t.set_new_q q) := by
  unfold dispatch
  have e1 : (st.set_new_q q).running = st.running := rfl
  have e2 : (st.set_new_q q).ready_age_q = st.ready_age_q := rfl
  rw [e1, e2]
  split_ifs
  · rw [get_next_frame, Result.map_bind, Result.bind_map]
    rfl
  · rfl

theorem account_frame (env : env_t) (q : priority_queue PCB) (st : sim_t) :
    account env (st.set_new_q q) = (account env st).map (sim_t.set_new_q q) := by
  unfold account
  have e2 : (st.set_new_q q).ready_age_q = st.ready_age_q := rfl
  have e3 : (st.set_new_q q).wait = st.wait := rfl
  rw [e2, e3]
  split_ifs
  · cases st.ready_age_q.ready_q.iterate with
    | none => rfl
    | some l =>
        simp only [Option.some_bind]
        cases wait_incr st.wait l <;> rfl
  · rfl

theorem schedule_frame (cmp : PCB → PCB → Int) (env : env_t) (fuel Clock : Nat)
    (q : priority_queue PCB) (st : sim_t) :
    schedule cmp env fuel Clock (st.set_new_q q) =
      (schedule cmp env fuel Clock st).map (sim_t.set_new_q q) := by
  unfold schedule
  have e1 : (st.set_new_q q).running = st.running := rfl
  rw [e1, advance_frame, Result.of_option_map]
  have e2 : (if st.running = true then (Result.of_option (advance cmp env Clock st)).map
        (sim_t.set_new_q q) else Result.done (st.set_new_q q)) =
      (if st.running = true then Result.of_option (advance cmp env Clock st)
        else Result.done st).map (sim_t.set_new_q q) := by
    split_ifs <;> rfl
  rw [e2, Result.map_bind, Result.bind_map]
  congr 1
  funext st4
  rw [dispatch_frame, Result.map_bind, Result.bind_map]
  congr 1
  funext st5
  rw [account_frame, Result.of_option_map]

theorem agree_map_frame (r : Result sim_t) (q1 q2 : priority_queue PCB)
    (h : same_queue q1 q2) :
    Result.agree same_state (r.map (sim_t.set_new_q q1)) (r.map (sim_t.set_new_q q2)) := by
  cases r with
  | done a => exact ⟨h, rfl⟩
  | undefined => exact trivial
  | out_of_fuel => exact trivial

theorem schedule_agree (cmp : PCB → PCB → Int) (env : env_t) (fuel Clock : Nat) (s : sim_t)
    (q1 q2 : priority_queue PCB) (h : same_queue q1 q2) :
    Result.agree same_state (schedule cmp env fuel Clock (s.set_new_q q1))
      (schedule cmp env fuel Clock (s.set_new_q q2)) := by
  rw [schedule_frame, schedule_frame]
  exact agree_map_frame _ _ _ h

theorem tick_agree (cmp : PCB → PCB → Int) (env : env_t) (fuel Clock : Nat) (st1 st2 : sim_t)
    (h : same_state st1 st2) :
    Result.agree same_state (tick cmp env fuel Clock st1) (tick cmp env fuel Clock st2) := by
  obtain ⟨hq, hst⟩ := h
  generalize st2.new_q = q2 at hq hst
  subst hst
  unfold tick
  have e1 : (st1.set_new_q q2).ready_age_q = st1.ready_age_q := rfl
  have e2 : (st1.set_new_q q2).io_q = st1.io_q := rfl
  have e3 : (st1.set_new_q q2).new_q = q2 := rfl
  rw [e1, e2, e3]
  cases Result.of_option (do_io cmp env Clock st1.ready_age_q st1.io_q) with
  | undefined => exact trivial
  | out_of_fuel => exact trivial
  | done r1 =>
      simp only [Result.bind]
      cases (if env.scheduler = scheduler_t.PRIORITY then do_aging_loop cmp env Clock fuel r1.1
          else Result.done r1.1) with
      | undefined => exact trivial
      | out_of_fuel => exact trivial
      | done r2 =>
          simp only [Result.bind]
          rw [← hq.empty_eq]
          by_cases hemp : st1.new_q.empty = true
          · simp only [hemp, Bool.not_true, Bool.false_eq_true, if_false, Result.bind]
            exact schedule_agree cmp env fuel Clock { st1 with ready_age_q := r2, io_q := r1.2 }
              st1.new_q q2 hq
          · simp only [hemp, Bool.not_false, if_true]
            have hu := update_loop_agree cmp Clock fuel st1.new_q q2 r2 hq
            cases hu1 : update_loop cmp Clock fuel st1.new_q r2 with
            | undefined =>
                cases hu2 : update_loop cmp Clock fuel q2 r2 with
                | undefined => exact trivial
                | out_of_fuel => rw [hu1, hu2] at hu; exact hu.elim
                | done b => rw [hu1, hu2] at hu; exact hu.elim
            | out_of_fuel =>
                cases hu2 : update_loop cmp Clock fuel q2 r2 with
                | undefined => rw [hu1, hu2] at hu; exact hu.elim
                | out_of_fuel => exact trivial
                | done b => rw [hu1, hu2] at hu; exact hu.elim
            | done a =>
                cases hu2 : update_loop cmp Clock fuel q2 r2 with
                | undefined => rw [hu1, hu2] at hu; exact hu.elim
                | out_of_fuel => rw [hu1, hu2] at hu; exact hu.elim
                | done b =>
                    rw [hu1, hu2] at hu
                    obtain ⟨hq3, hr3⟩ := hu
                    simp only [Result.bind]
                    rw [← hr3]
                    exact schedule_agree cmp env fuel Clock
                      { st1 with ready_age_q := a.2, io_q := r1.2 } a.1 b.1 hq3
theorem same_state.loop_cond_eq {st1 st2 : sim_t} (h : same_state st1 st2) :
    loop_cond st1 = loop_cond st2 := by
  obtain ⟨hq, hst⟩ := h
  generalize st2.new_q = q2 at hq hst
  subst hst
  unfold loop_cond
  have e1 : (st1.set_new_q q2).ready_age_q = st1.ready_age_q := rfl
  have e2 : (st1.set_new_q q2).io_q = st1.io_q := rfl
  have e3 : (st1.set_new_q q2).new_q = q2 := rfl
  have e4 : (st1.set_new_q q2).running = st1.running := rfl
  rw [e1, e2, e3, e4, hq.empty_eq]

theorem ticks_agree (cmp : PCB → PCB → Int) (env : env_t) (fuel : Nat) :
    ∀ (n Clock : Nat) (st1 st2 : sim_t), same_state st1 st2 →
      Result.agree (fun a b => a.1 = b.1 ∧ same_state a.2 b.2)
        (ticks cmp env fuel n Clock st1) (ticks cmp env fuel n Clock st2) := by
  intro n
  induction n with
  | zero => intro Clock st1 st2 h; exact ⟨rfl, h⟩
  | succ k ih =>
      intro Clock st1 st2 h
      rw [ticks, ticks, ← h.loop_cond_eq]
      split_ifs
      · have ht := tick_agree cmp env fuel Clock st1 st2 h
        cases h1 : tick cmp env fuel Clock st1 with
        | undefined =>
            cases h2 : tick cmp env fuel Clock st2 with
            | undefined => exact trivial
            | out_of_fuel => rw [h1, h2] at ht; exact ht.elim
            | done b => rw [h1, h2] at ht; exact ht.elim
        | out_of_fuel =>
            cases h2 : tick cmp env fuel Clock st2 with
            | undefined => rw [h1, h2] at ht; exact ht.elim
            | out_of_fuel => exact trivial
            | done b => rw [h1, h2] at ht; exact ht.elim
        | done a =>
            cases h2 : tick cmp env fuel Clock st2 with
            | undefined => rw [h1, h2] at ht; exact ht.elim
            | out_of_fuel => rw [h1, h2] at ht; exact ht.elim
            | done b =>
                rw [h1, h2] at ht
                exact ih _ a b ht
      · exact ⟨rfl, h⟩

theorem agree_bind {α β : Type} {R : α → α → Prop} {S : β → β → Prop} {r1 r2 : Result α}
    {f1 f2 : α → Result β} (h : Result.agree R r1 r2)
    (hf : ∀ a b, R a b → Result.agree S (f1 a) (f2 b)) :
    Result.agree S (r1.bind f1) (r2.bind f2) := by
  cases r1 <;> cases r2 <;> first | exact h.elim | exact trivial | exact hf _ _ h

theorem run_loop_agree (cmp : PCB → PCB → Int) (env : env_t) (fuel Clock : Nat)
    (st1 st2 : sim_t) (h : same_state st1 st2) :
    Result.agree same_state (run_loop cmp env fuel Clock st1)
      (run_loop cmp env fuel Clock st2) := by
  unfold run_loop
  refine agree_bind (ticks_agree cmp env fuel fuel Clock st1 st2 h) ?_
  intro a b hab
  rw [← hab.2.loop_cond_eq]
  split_ifs
  · exact trivial
  · exact hab.2

theorem init_same (env : env_t) (q1 q2 : priority_queue PCB) (stats : stats_t)
    (h : same_queue q1 q2) : same_state (sim_t.init env q1 stats) (sim_t.init env q2 stats) := by
  refine ⟨h, ?_⟩
  unfold sim_t.init sim_t.set_new_q
  rw [h.size_eq]

theorem run_scheduler_agree (cmp : PCB → PCB → Int) (env : env_t) (fuel : Nat)
    (q1 q2 : priority_queue PCB) (stats : stats_t) (h : same_queue q1 q2) :
    Result.agree same_state (run_scheduler cmp env fuel q1 stats)
      (run_scheduler cmp env fuel q2 stats) := by
  unfold run_scheduler
  rw [← h.empty_eq]
  by_cases he : q1.empty = true
  · rw [if_pos he, if_pos he]
    exact ⟨h, rfl⟩
  · rw [if_neg he, if_neg he]
    refine agree_bind (run_loop_agree cmp env fuel 0 _ _ (init_same env q1 q2 stats h)) ?_
    intro a b hab
    obtain ⟨hq, hst⟩ := hab
    generalize b.new_q = q at hq hst
    subst hst
    by_cases hs : env.scheduler = scheduler_t.EDF
    · rw [if_pos hs, if_pos hs]
      exact ⟨hq, rfl⟩
    · rw [if_neg hs, if_neg hs]
      exact ⟨hq, rfl⟩

theorem agree_map_eq {β : Type} (f : sim_t → β)
    (hf : ∀ (st : sim_t) (q : priority_queue PCB), f (st.set_new_q q) = f st)
    (r1 r2 : Result sim_t) (h : Result.agree same_state r1 r2) : r1.map f = r2.map f := by
  cases r1 <;> cases r2 <;> first | exact h.elim | rfl | skip
  rename_i a b
  obtain ⟨-, hst⟩ := h
  show Result.done (f a) = Result.done (f b)
  rw [hst, hf]

theorem new_queue_sorted (lines : List line_t) (q : priority_queue PCB)
    (hq : create_new_queue lines = some q)
    (hd : ((accepted lines).map PCB.pid).Nodup)
    (hr : ∀ p ∈ accepted lines, p.pid < 2147483648 ∧ p.arr < 2147483648 ∧
      p.dline < 2147483648) :
    q.Inv ∧ q.root.toList.Perm (accepted lines) ∧
      q.root.toList.Pairwise
        (fun a b => a.arr < b.arr ∨ (a.arr = b.arr ∧ a.pid < b.pid)) := by
  obtain ⟨q', hq', hinv, hperm⟩ := create_new_queue_spec lines
  rw [hq] at hq'
  cases hq'
  have hk := accepted_key_valid lines hr
  have hord : q.Ordered key_valid mycmp_new :=
    create_new_queue_from_ordered lines hk priority_queue.new Inv_new
      (Ordered_new key_valid mycmp_new) q hq
  refine ⟨hinv, hperm, ?_⟩
  have hnd : (q.root.toList.map PCB.pid).Nodup := (hperm.map PCB.pid).nodup_iff.2 hd
  have hne : q.root.toList.Pairwise (fun a b => a.pid ≠ b.pid) :=
    (List.pairwise_map.1 hnd)
  have hasc : q.root.toList.Pairwise (fun a b => 0 ≤ mycmp_new a b) := hord.asc
  have hmem : q.root.toList.Pairwise (fun a b => key_valid a ∧ key_valid b) := by
    rw [List.pairwise_iff_forall_sublist]
    intro a b hab
    have ha : a ∈ q.root.toList := hab.subset (by simp)
    have hb : b ∈ q.root.toList := hab.subset (by simp)
    exact ⟨hk a (hperm.mem_iff.1 ha), hk b (hperm.mem_iff.1 hb)⟩
  refine ((hne.and hasc).and hmem).imp ?_
  intro a b h
  obtain ⟨⟨h1, h2⟩, ha, hb⟩ := h
  have hs := (mycmp_new_sign a b ha hb).2
  have : ¬ mycmp_new a b < 0 := by omega
  rw [hs] at this
  omega

/-- C32: for every scheduler and configuration and for two workload files whose accepted records
are permutations of each other, have pairwise different pids and hold values of an `int`: the
two new queues that the loader builds hold the same records in the same order, sorted by
arrival time and then pid; the loop of `top()` and `pop()` reads this same sequence from both;
and `main` is of the same kind for both files (a result, undefined, or still running after
`fuel` ticks) and in the first case returns the same lines of the output file and the same
statistics. -/
theorem C32_order_of_lines (env : env_t) (fuel : Nat) (l1 l2 : List line_t)
    (hp : (accepted l1).Perm (accepted l2))
    (hd : ((accepted l1).map PCB.pid).Nodup)
    (hr : ∀ p ∈ accepted l1, p.pid < 2147483648 ∧ p.arr < 2147483648 ∧
      p.dline < 2147483648) :
    (∃ q1 q2, create_new_queue l1 = some q1 ∧ create_new_queue l2 = some q2 ∧
      q1.root.toList = q2.root.toList ∧
      q1.root.toList.Pairwise
        (fun a b => a.arr < b.arr ∨ (a.arr = b.arr ∧ a.pid < b.pid)) ∧
      drain q1.size q1 = some q1.root.toList ∧ drain q2.size q2 = some q1.root.toList) ∧
    (main env fuel l1).map (fun st => (st.outfs, st.stats)) =
      (main env fuel l2).map (fun st => (st.outfs, st.stats)) := by
  obtain ⟨q1, hq1, -, -⟩ := create_new_queue_spec l1
  obtain ⟨q2, hq2, -, -⟩ := create_new_queue_spec l2
  have hd2 : ((accepted l2).map PCB.pid).Nodup := (hp.map PCB.pid).nodup_iff.1 hd
  have hr2 : ∀ p ∈ accepted l2, p.pid < 2147483648 ∧ p.arr < 2147483648 ∧
      p.dline < 2147483648 := fun p h => hr p (hp.mem_iff.2 h)
  obtain ⟨hi1, hp1, hs1⟩ := new_queue_sorted l1 q1 hq1 hd hr
  obtain ⟨hi2, hp2, hs2⟩ := new_queue_sorted l2 q2 hq2 hd2 hr2
  have heq : q1.root.toList = q2.root.toList := by
    apply sorted_perm_eq _ _ _ hs1 hs2 (hp1.trans (hp.trans hp2.symm))
    intro a _ b _ h1 h2
    omega
  have hsame : same_queue q1 q2 := ⟨hi1, hi2, heq⟩
  refine ⟨⟨q1, q2, hq1, hq2, heq, hs1, drain_spec _ q1 hi1 (le_refl _), ?_⟩, ?_⟩
  · rw [heq]
    exact drain_spec _ q2 hi2 (le_refl _)
  · unfold main
    rw [hq1, hq2]
    simp only [Result.of_option, Result.bind]
    rw [hsame.size_eq]
    exact agree_map_eq (fun st => (st.outfs, st.stats)) (fun _ _ => rfl) _ _
      (run_scheduler_agree _ env fuel q1 q2 _ hsame)

theorem C32_witness :
    (main (env_of scheduler_t.SJF 100 25 100 10) 100
        [line_t.record 1 5 0 0 100 0, line_t.record 2 2 0 0 100 0,
         line_t.record 3 2 0 0 100 0]).map (fun st => (st.outfs, st.stats)) =
      (main (env_of scheduler_t.SJF 100 25 100 10) 100
        [line_t.record 3 2 0 0 100 0, line_t.record 1 5 0 0 100 0,
         line_t.record 2 2 0 0 100 0]).map (fun st => (st.outfs, st.stats)) ∧
    (main (env_of scheduler_t.SJF 100 25 100 10) 100
        [line_t.record 3 2 0 0 100 0, line_t.record 1 5 0 0 100 0,
         line_t.record 2 2 0 0 100 0]).map (fun st => st.outfs) =
      Result.done
        [⟨0, 2, action_t.GETS_CPU⟩, ⟨2, 2, action_t.END⟩, ⟨2, 3, action_t.GETS_CPU⟩,
         ⟨4, 3, action_t.END⟩, ⟨4, 1, action_t.GETS_CPU⟩, ⟨9, 1, action_t.END⟩] :=
  ⟨(C32_order_of_lines (env_of scheduler_t.SJF 100 25 100 10) 100
      [line_t.record 1 5 0 0 100 0, line_t.record 2 2 0 0 100 0, line_t.record 3 2 0 0 100 0]
      [line_t.record 3 2 0 0 100 0, line_t.record 1 5 0 0 100 0, line_t.record 2 2 0 0 100 0]
      (by decide) (by decide) (by decide)).2, rfl⟩

/-! ## One iteration of `do_aging` -/

/-- C21 (counterexample): the ready structure holds the one PCB of pid 2 (priority 10,
stamp 0), `Clock` is 5 and `age_time` is 3. The age minimum is not at a ceiling and
`Clock - stamp = 5 >= 3`, yet `do_aging` returns at once and leaves the structure as it is,
because `5 != 3`. In a run: with `--age_timer=0` process 2 of scenario S3 is stamped 0 on
arrival, after `do_aging` of tick 0 has run, and is never aged (after four ticks it still has
priority 30 and stamp 0), although `Clock - stamp >= 0` in every tick. -/
theorem C21_counterexample :
    int_to_size 3 ≤ size_sub 5 pcb_low_2.Clock ∧ pcb_low_2.pri ≠ 49 ∧ pcb_low_2.pri ≠ 99 ∧
      (single_ready 1 1 pcb_low_2).age_q.begin.current = some ⟨1, ⟨1, pcb_low_2⟩⟩ ∧
      (∀ fuel : Nat,
        do_aging_loop mycmp_priority (env_of scheduler_t.PRIORITY 100 25 3 10) 5 (fuel + 1)
          (single_ready 1 1 pcb_low_2) = Result.done (single_ready 1 1 pcb_low_2)) ∧
      (state_after (env_of scheduler_t.PRIORITY 100 25 0 10) 100 4
          [line_t.record 1 10 0 40 100 0, line_t.record 2 10 0 30 100 0]).map
          (fun r => r.2.ready) =
        Result.done [{ pid := 2, bst := 10, arr := 0, pri := 30, dline := 100, io := 0,
                       io_counter := 0, Clock := 0 }] :=
  ⟨by decide, by decide, by decide, rfl, fun _ => rfl, rfl⟩

/-- C21 (amended): one iteration of the loop of `do_aging`, for every ready structure whose
ready queue satisfies the queue invariant, every `Clock` and every configuration, with
`iter_age` the age minimum. If its PCB has priority 49 or 99, the scan stops and the structure
is left as it is. If not, and `Clock - stamp` differs from `age_time` (as `size_t` values), the
scan stops as well, whether the difference is smaller or larger. If not, and
`Clock - stamp == age_time`, then the iteration is undefined or it removes a PCB `p` of the
ready queue that the comparator does not tell apart from the PCB of the age minimum, pushes
`p` again with the aging promotion applied and with the stamp `CLOCK_LAST` if it is now at 49
or 99 and `Clock` otherwise, and scans again. -/
theorem C21_aging_step (cmp : PCB → PCB → Int) (env : env_t) (Clock fuel : Nat)
    (s : ready_age_t) (iter_age : node_ptr (node_ptr PCB)) (hs : s.ready_q.Inv)
    (hb : s.age_q.begin.current = some iter_age) :
    ((iter_age.data.data.pri = 49 ∨ iter_age.data.data.pri = 99) →
      do_aging_loop cmp env Clock (fuel + 1) s = Result.done s) ∧
    (¬ (iter_age.data.data.pri = 49 ∨ iter_age.data.data.pri = 99) →
      size_sub Clock iter_age.data.data.Clock ≠ int_to_size env.age_time →
      do_aging_loop cmp env Clock (fuel + 1) s = Result.done s) ∧
    (¬ (iter_age.data.data.pri = 49 ∨ iter_age.data.data.pri = 99) →
      size_sub Clock iter_age.data.data.Clock = int_to_size env.age_time →
      do_aging_loop cmp env Clock (fuel + 1) s = Result.undefined ∨
      ∃ p rest s2, s.ready_q.root.toList.Perm (p :: rest) ∧ cmp iter_age.data.data p = 0 ∧
        s2.ready_q.Inv ∧
        s2.ready_q.root.toList.Perm (stamp (promote_priority p ops_t.AGE env) Clock :: rest) ∧
        do_aging_loop cmp env Clock (fuel + 1) s = do_aging_loop cmp env Clock fuel s2) := by
  refine ⟨fun h1 => ?_, fun h1 h2 => ?_, fun h1 h2 => ?_⟩
  · rw [do_aging_loop]
    simp only [hb, h1, if_true]
  · rw [do_aging_loop]
    simp only [hb, h1, h2, if_false]
  · rw [do_aging_loop]
    simp only [hb, h1, h2, if_false, if_true]
    cases hp : (s.ready_q.search cmp iter_age.data.data).current with
    | none => exact Or.inl rfl
    | some p =>
        simp only
        have hit : s.ready_q.search cmp iter_age.data.data = ⟨some p⟩ := by
          cases hsr : s.ready_q.search cmp iter_age.data.data with
          | mk c => rw [hsr] at hp; simp only at hp; rw [hp]
        have hsf : priority_queue.search_from cmp iter_age.data.data s.ready_q.root =
            ⟨some p⟩ := hit
        obtain ⟨hmem, hcmp⟩ := search_from_sound cmp _ _ p hsf
        rw [hit]
        cases hrq : s.ready_q.erase ⟨some p⟩ with
        | none => exact Or.inl rfl
        | some rq =>
            cases haq : s.age_q.pop with
            | none => exact Or.inl rfl
            | some aq =>
                simp only
                obtain ⟨hinv1, hperm1⟩ := erase_cursor_effect s.ready_q rq hs p hmem hrq
                cases hs3 : ready_age_t.push cmp ⟨rq, aq⟩
                    (if ISMAXED (promote_priority p.data ops_t.AGE env).pri = true then
                      { promote_priority p.data ops_t.AGE env with Clock := CLOCK_LAST }
                    else { promote_priority p.data ops_t.AGE env with Clock := Clock }) with
                | none => exact Or.inl rfl
                | some s3 =>
                    simp only
                    obtain ⟨hinv3, hperm3⟩ := ready_push_effect cmp ⟨rq, aq⟩ s3 _ hinv1 hs3
                    exact Or.inr ⟨p.data, rq.root.toList, s3, hperm1, hcmp, hinv3, hperm3, rfl⟩

theorem C21_witness :
    (do_aging_loop mycmp_priority (env_of scheduler_t.PRIORITY 100 25 3 10) 3 2
        (single_ready 1 1 pcb_low_2) = Result.undefined ∨
      ∃ p rest s2, (single_ready 1 1 pcb_low_2).ready_q.root.toList.Perm (p :: rest) ∧
        mycmp_priority pcb_low_2 p = 0 ∧ s2.ready_q.Inv ∧
        s2.ready_q.root.toList.Perm
          (stamp (promote_priority p ops_t.AGE (env_of scheduler_t.PRIORITY 100 25 3 10)) 3 ::
            rest) ∧
        do_aging_loop mycmp_priority (env_of scheduler_t.PRIORITY 100 25 3 10) 3 2
            (single_ready 1 1 pcb_low_2) =
          do_aging_loop mycmp_priority (env_of scheduler_t.PRIORITY 100 25 3 10) 3 1 s2) ∧
    (do_aging_loop mycmp_priority (env_of scheduler_t.PRIORITY 100 25 3 10) 3 2
        (single_ready 1 1 pcb_low_2)).map (fun s => s.ready_q.root.toList) =
      Result.done [{ pcb_low_2 with pri := 20, Clock := 3 }] :=
  ⟨(C21_aging_step mycmp_priority (env_of scheduler_t.PRIORITY 100 25 3 10) 3 1
      (single_ready 1 1 pcb_low_2) ⟨1, ⟨1, pcb_low_2⟩⟩
      (ready_push_effect mycmp_priority ready_age_t.new (single_ready 1 1 pcb_low_2) pcb_low_2
        Inv_new rfl).1 rfl).2.2 (by decide) rfl, rfl⟩

end PSS
